import Mathlib

/-!
# Entangled Threads Structure: a shallow embedding

The development follows the C++ sources:

* `include/array_list.hpp`  : `ArrayList`
* `include/hash.hpp`        : `isPrime`, `findNextPrime`, `Hasher`, `Hash`
* `include/dimension_node.hpp`, `include/linked_list.hpp` : `DimensionNode`, `LinkedList`
* `src/main.cpp`            : `updateCustomerList`, `updatePackageList`, `updateDeleteList`,
                              `updateLists`, `handleActionRG`

Pointers are addresses (`Nat`) into an explicit heap, `nullptr` is `none`.
Operations that can throw or run into undefined behaviour return `Except Exn`.
Sizes, capacities and indices (`int`, `size_t`) are natural numbers or integers and their
arithmetic is exact, which is the behaviour of the code as long as no array has `2^30`
elements or more. Hash values are reduced modulo `2^64`. The load test of `Hash` is
evaluated as the code evaluates it, in `float` arithmetic (IEEE 754 binary32, round to
nearest, ties to even). The elements of a buffer that `new T[n]` creates are the default
elements of `T`; for a `T` without a default constructor, such as `int`, the code leaves
them uninitialised, and no theorem below depends on their value.
-/

namespace ETS

/-- The ways an operation of the program can fail. -/
inductive Exn where
  /-- The C++ exception `std::invalid_argument`. -/
  | invalid_argument
  /-- The C++ exception `std::out_of_range`. -/
  | out_of_range
  /-- Undefined behaviour: a null pointer is dereferenced, or memory outside an
  allocated buffer or object is accessed. -/
  | undefined_behaviour
  /-- The recursion budget of the model is exhausted (never the case for `Hash.insert`,
  see `Hash.insertFuel_stable`). -/
  | out_of_fuel
  deriving DecidableEq, Repr

/-! ## array_list.hpp -/

/-- The class `ArrayList<T>`. The buffer `_items` is a list whose length is the
capacity `_maxSize` (an empty list for the null buffer of capacity 0). -/
structure ArrayList (T : Type) where
  /-- The field `_size`. -/
  _size : Nat
  /-- The buffer `_items`; its length is the field `_maxSize`. -/
  _items : List T
  deriving DecidableEq, Repr

namespace ArrayList

variable {T : Type}

/-- The method `getCapacity()`: the field `_maxSize`. -/
def getCapacity (a : ArrayList T) : Nat := a._items.length

/-- The method `getSize()`. -/
def getSize (a : ArrayList T) : Nat := a._size

/-- The buffer built by `ArrayList(int maxSize)` for `maxSize >= 0`:
`new T[maxSize]` default-constructed elements, `_size = 0` (for a `T` without a default
constructor `default` stands for the value that an uninitialised element happens to
have). -/
def withCapacity [Inhabited T] (maxSize : Nat) : ArrayList T :=
  { _size := 0, _items := List.replicate maxSize default }

/-- The constructor `ArrayList(int maxSize)`. -/
def new [Inhabited T] (maxSize : Int) : Except Exn (ArrayList T) :=
  if maxSize < 0 then .error .invalid_argument
  else .ok (withCapacity maxSize.toNat)

/-- Reading through `operator[](int index)`: checked against the capacity. -/
def index (a : ArrayList T) (index : Int) : Except Exn T :=
  if index < 0 ∨ index ≥ (a.getCapacity : Int) then .error .out_of_range
  else
    match a._items[index.toNat]? with
    | some x => .ok x
    | none => .error .undefined_behaviour

/-- Writing through the reference returned by `operator[](int index)`:
the slot is replaced by `f` of its content. -/
def modify (a : ArrayList T) (index : Int) (f : T → T) : Except Exn (ArrayList T) :=
  if index < 0 ∨ index ≥ (a.getCapacity : Int) then .error .out_of_range
  else
    match a._items[index.toNat]? with
    | some x => .ok { a with _items := a._items.set index.toNat (f x) }
    | none => .error .undefined_behaviour

/-- The method `clear()`: only the logical size is reset. -/
def clear (a : ArrayList T) : ArrayList T := { a with _size := 0 }

/-- The method `resize(int newSize)`. -/
def resize [Inhabited T] (a : ArrayList T) (newSize : Int) : Except Exn (ArrayList T) :=
  if newSize < 0 then .error .invalid_argument
  else if newSize = (a.getCapacity : Int) then .ok a
  else
    let limit := if newSize < (a._size : Int) then newSize.toNat else a._size
    if limit ≤ a.getCapacity then
      .ok { _size := if (a._size : Int) > newSize then newSize.toNat else a._size,
            _items := a._items.take limit ++ List.replicate (newSize.toNat - limit) default }
    else .error .undefined_behaviour

end ArrayList

/-! ## hash.hpp -/

/-- The loop of `isPrime`: `for (i = 5; i * i <= n; i = i + 6)`. The first argument
bounds the number of iterations. -/
def isPrimeLoop (n : Nat) : Nat → Nat → Bool
  | 0, _ => true
  | fuel + 1, i =>
    if i * i ≤ n then
      if n % i = 0 ∨ n % (i + 2) = 0 then false
      else isPrimeLoop n fuel (i + 6)
    else true

/-- The function `isPrime`. -/
def isPrime (n : Nat) : Bool :=
  if n ≤ 1 then false
  else if n ≤ 3 then true
  else if n % 2 = 0 ∨ n % 3 = 0 then false
  else isPrimeLoop n n 5

/-- The loop of `findNextPrime`: `while (!found) { prime++; ... }`. The first argument
bounds the number of iterations. -/
def findNextPrimeLoop : Nat → Nat → Nat
  | 0, prime => prime
  | fuel + 1, prime =>
    if isPrime (prime + 1) then prime + 1
    else findNextPrimeLoop fuel (prime + 1)

/-- The function `findNextPrime`. A prime lies in `(n, 2n]`, so `n` iterations
are enough. -/
def findNextPrime (n : Nat) : Nat :=
  if n ≤ 1 then 2 else findNextPrimeLoop n n

/-- The number of low bits that the conversion to `float` drops: the least `e` such that
`n / 2 ^ e` fits the 24 bits of the significand. The first argument bounds the number of
steps. -/
def floatShift : Nat → Nat → Nat
  | 0, _ => 0
  | fuel + 1, n => if n < 2 ^ 24 then 0 else floatShift fuel (n / 2) + 1

/-- The conversion of a natural number to `float` (IEEE 754 binary32: a significand of 24
bits, round to nearest, ties to even), as a natural number again. -/
def roundFloat (n : Nat) : Nat :=
  let e := floatShift n n
  let q := n / 2 ^ e
  let r := n % 2 ^ e
  if 2 * r < 2 ^ e ∨ (2 * r = 2 ^ e ∧ q % 2 = 0) then q * 2 ^ e else (q + 1) * 2 ^ e

/-- The test `_size >= _vector.getCapacity() * _maxCapacity` with `_maxCapacity = 0.7f`,
which is `11744051 / 2 ^ 24`: both sides are `float` values, scaled here by `2 ^ 24`. -/
def loadReached (size capacity : Nat) : Bool :=
  roundFloat size * 2 ^ 24 ≥ roundFloat (roundFloat capacity * 11744051)

/-- The enumeration `SlotState`. -/
inductive SlotState where
  | EMPTY
  | OCCUPIED
  | TOMBSTONE
  deriving DecidableEq, Repr

/-- The functor `Hasher<T>`: the hash of a key as a `size_t` value. -/
class Hasher (K : Type) where
  /-- The call operator of the functor. -/
  hash : K → Nat

/-- `Hasher<int>`: conversion of the `int` to `size_t`. -/
instance : Hasher Int := ⟨fun k => (k % (2 ^ 64 : Int)).toNat⟩

/-- `Hasher<size_t>`. -/
instance : Hasher Nat := ⟨fun k => k % 2 ^ 64⟩

/-- One step of DJB2, `hash = ((hash << 5) + hash) + c` on `size_t`. -/
def djb2Step (hash : Nat) (c : Char) : Nat :=
  (((hash * 32) % 2 ^ 64 + hash) % 2 ^ 64 + c.toNat) % 2 ^ 64

/-- `Hasher<std::string>`: DJB2 over the characters of the key (ASCII names). -/
def djb2 (key : String) : Nat := key.toList.foldl djb2Step 5381

instance : Hasher String := ⟨djb2⟩

/-- The struct `HashSlot`. -/
structure HashSlot (K V : Type) where
  key : K
  value : V
  state : SlotState
  deriving DecidableEq, Repr

/-- A default-constructed slot: `state = SlotState::EMPTY`. -/
instance {K V : Type} [Inhabited K] [Inhabited V] : Inhabited (HashSlot K V) :=
  ⟨{ key := default, value := default, state := .EMPTY }⟩

/-- The class `Hash<KeyType, ValueType>`; `_maxCapacity` is the constant `0.7f`. -/
structure Hash (K V : Type) where
  _vector : ArrayList (HashSlot K V)
  _size : Nat
  deriving DecidableEq, Repr

namespace Hash

variable {K V : Type}

/-- The table capacity, `_vector.getCapacity()`. -/
def capacity (h : Hash K V) : Nat := h._vector.getCapacity

/-- The constructor `Hash(size_t initialSize = 3)`. -/
def new [Inhabited K] [Inhabited V] (initialSize : Nat) : Hash K V :=
  { _vector := ArrayList.withCapacity (findNextPrime (if initialSize > 0 then initialSize else 3)),
    _size := 0 }

/-- The i-th probe for a key: `(originalIndex + i * i) % tableCapacity`. -/
def probe [Hasher K] (tableCapacity : Nat) (key : K) (i : Nat) : Nat :=
  (Hasher.hash key % tableCapacity + i * i) % tableCapacity

/-- The loop of `findPos`, `for (i = ...; i < tableCapacity; i++)`, with `n` iterations
left; `tombstonePos = none` stands for `(size_t)-1`. -/
def findPosLoop [Hasher K] [DecidableEq K] (h : Hash K V) (key : K) :
    Nat → Nat → Option Nat → Except Exn Nat
  | 0, _, tombstonePos => .ok (tombstonePos.getD (Hasher.hash key % h.capacity))
  | n + 1, i, tombstonePos => do
    let idx := probe h.capacity key i
    let slot ← h._vector.index idx
    if slot.state = .EMPTY then
      pure (tombstonePos.getD idx)
    else if slot.state = .TOMBSTONE then
      findPosLoop h key n (i + 1) (some (tombstonePos.getD idx))
    else if slot.key = key then
      pure idx
    else
      findPosLoop h key n (i + 1) tombstonePos

/-- The method `findPos`. -/
def findPos [Hasher K] [DecidableEq K] (h : Hash K V) (key : K) : Except Exn Nat :=
  if h.capacity = 0 then .ok 0
  else findPosLoop h key h.capacity 0 none

/-- The test `_vector.getCapacity() == 0 || _size >= _vector.getCapacity() * _maxCapacity`,
the comparison being made in `float` arithmetic. -/
def needsRehash (h : Hash K V) : Bool :=
  decide (h.capacity = 0) || loadReached h._size h.capacity

/-- The three assignments `_vector[pos].key = key; _vector[pos].value = value;
_vector[pos].state = OCCUPIED;` followed by `_size++`. -/
def place (h : Hash K V) (pos : Nat) (key : K) (value : V) : Except Exn (Hash K V) := do
  let v1 ← h._vector.modify pos (fun s => { s with key := key })
  let v2 ← v1.modify pos (fun s => { s with value := value })
  let v3 ← v2.modify pos (fun s => { s with state := .OCCUPIED })
  pure { _vector := v3, _size := h._size + 1 }

/-- The body of `insert`, with the call of `rehash()` abstracted. -/
def insertAux [Hasher K] [DecidableEq K] (rehashFn : Hash K V → Except Exn (Hash K V))
    (h : Hash K V) (key : K) (value : V) : Except Exn (Hash K V × Bool) := do
  let h ← if h.needsRehash then rehashFn h else pure h
  let pos ← h.findPos key
  let slot ← h._vector.index pos
  if slot.state = .OCCUPIED then
    pure (h, false)
  else
    let h ← h.place pos key value
    pure (h, true)

/-- The loop of `rehash`, `for (i = ...; i < oldCapacity; ++i)`, with `n` iterations left. -/
def rehashLoop (insertFn : Hash K V → K → V → Except Exn (Hash K V × Bool))
    (oldTable : ArrayList (HashSlot K V)) : Nat → Nat → Hash K V → Except Exn (Hash K V)
  | 0, _, h => .ok h
  | n + 1, i, h => do
    let slot ← oldTable.index i
    if slot.state = .OCCUPIED then
      let r ← insertFn h slot.key slot.value
      rehashLoop insertFn oldTable n (i + 1) r.1
    else
      rehashLoop insertFn oldTable n (i + 1) h

/-- The body of `rehash`, with the calls of `insert` abstracted. -/
def rehashAux [Inhabited K] [Inhabited V]
    (insertFn : Hash K V → K → V → Except Exn (Hash K V × Bool))
    (h : Hash K V) : Except Exn (Hash K V) :=
  let oldTable := h._vector
  let oldCapacity := oldTable.getCapacity
  let newCapacity := findNextPrime (oldCapacity * 2)
  rehashLoop insertFn oldTable oldCapacity 0
    { _vector := ArrayList.withCapacity newCapacity, _size := 0 }

/-- The method `insert` with a bound on the depth of the mutual recursion
`insert -> rehash -> insert`. -/
def insertFuel [Hasher K] [DecidableEq K] [Inhabited K] [Inhabited V] :
    Nat → Hash K V → K → V → Except Exn (Hash K V × Bool)
  | 0 => fun _ _ _ => .error .out_of_fuel
  | n + 1 => insertAux (rehashAux (insertFuel n))

/-- The method `rehash`: the reinsertions never rehash again. -/
def rehash [Hasher K] [DecidableEq K] [Inhabited K] [Inhabited V]
    (h : Hash K V) : Except Exn (Hash K V) :=
  rehashAux (insertFuel 1) h

/-- The method `insert`. -/
def insert [Hasher K] [DecidableEq K] [Inhabited K] [Inhabited V]
    (h : Hash K V) (key : K) (value : V) : Except Exn (Hash K V × Bool) :=
  insertAux rehash h key value

/-- The method `size`. -/
def size (h : Hash K V) : Nat := h._size

/-- The method `empty`. -/
def empty (h : Hash K V) : Bool := h._size = 0

/-- The method `erase`. -/
def erase [Hasher K] [DecidableEq K] (h : Hash K V) (key : K) :
    Except Exn (Hash K V × Bool) := do
  if h.empty then
    pure (h, false)
  else
    let pos ← h.findPos key
    let slot ← h._vector.index pos
    if slot.state ≠ .OCCUPIED then
      pure (h, false)
    else
      let v ← h._vector.modify pos (fun s => { s with state := .TOMBSTONE })
      pure ({ _vector := v, _size := h._size - 1 }, true)

/-- The method `contains`. -/
def contains [Hasher K] [DecidableEq K] (h : Hash K V) (key : K) : Except Exn Bool := do
  if h.empty then
    pure false
  else
    let pos ← h.findPos key
    let slot ← h._vector.index pos
    pure (slot.state = .OCCUPIED)

/-- The method `clear`. -/
def clear [Inhabited K] [Inhabited V] (h : Hash K V) : Except Exn (Hash K V) := do
  let v ← h._vector.clear.resize 16
  pure { _vector := v, _size := 0 }

/-- The body of `operator[]` up to the returned reference, with the call of `rehash()`
abstracted: the table after the call and the position `pos` of the slot whose `value`
is referred to. -/
def indexAux [Hasher K] [DecidableEq K] [Inhabited V]
    (rehashFn : Hash K V → Except Exn (Hash K V))
    (h : Hash K V) (key : K) : Except Exn (Hash K V × Nat) := do
  let h ← if h.needsRehash then rehashFn h else pure h
  let pos ← h.findPos key
  let slot ← h._vector.index pos
  if slot.state ≠ .OCCUPIED then
    let v1 ← h._vector.modify pos (fun s => { s with key := key })
    let v2 ← v1.modify pos (fun s => { s with state := .OCCUPIED })
    let v3 ← v2.modify pos (fun s => { s with value := default })
    pure ({ _vector := v3, _size := h._size + 1 }, pos)
  else
    pure (h, pos)

/-- The method `operator[]` up to the returned reference. -/
def index [Hasher K] [DecidableEq K] [Inhabited K] [Inhabited V]
    (h : Hash K V) (key : K) : Except Exn (Hash K V × Nat) :=
  indexAux rehash h key

/-- Reading the `value` of the slot at `pos` through a reference obtained from
`operator[]`. -/
def deref (h : Hash K V) (pos : Nat) : Except Exn V := do
  let slot ← h._vector.index pos
  pure slot.value

/-- Writing the `value` of the slot at `pos` through a reference obtained from
`operator[]`: the value becomes `f` of the old value. -/
def assign (h : Hash K V) (pos : Nat) (f : V → V) : Except Exn (Hash K V) := do
  let v ← h._vector.modify pos (fun s => { s with value := f s.value })
  pure { h with _vector := v }

/-- The expression `table[key]` read as a value. -/
def get [Hasher K] [DecidableEq K] [Inhabited K] [Inhabited V]
    (h : Hash K V) (key : K) : Except Exn (Hash K V × V) := do
  let r ← h.index key
  let v ← r.1.deref r.2
  pure (r.1, v)

/-- The statement `table[key] = f(table[key])`. -/
def update [Hasher K] [DecidableEq K] [Inhabited K] [Inhabited V]
    (h : Hash K V) (key : K) (f : V → V) : Except Exn (Hash K V) := do
  let r ← h.index key
  r.1.assign r.2 f

end Hash

/-! ## dimension_node.hpp, linked_list.hpp -/

/-- A pointer to a `DimensionNode<int>`: an address of the heap, or `nullptr`. -/
abbrev Ptr := Option Nat

/-- The struct `DimensionPointers<T>`; both pointers start as `nullptr`. -/
structure DimensionPointers where
  next : Ptr
  prev : Ptr
  deriving DecidableEq, Repr

instance : Inhabited DimensionPointers := ⟨{ next := none, prev := none }⟩

/-- The class `DimensionNode<int>`. -/
structure DimensionNode where
  item : Int
  dimension : Hash String DimensionPointers
  deriving DecidableEq, Repr

/-- The constructor `DimensionNode() : item(-1), dimension(4)`. -/
def DimensionNode.new : DimensionNode :=
  { item := -1, dimension := Hash.new 4 }

instance : Inhabited DimensionNode := ⟨DimensionNode.new⟩

/-- The class `LinkedList<int>`. -/
structure LinkedList where
  size : Int
  head : Ptr
  tail : Ptr
  deriving DecidableEq, Repr

/-- The constructor `LinkedList() : size(0), head(nullptr), tail(nullptr)`. -/
def LinkedList.new : LinkedList := { size := 0, head := none, tail := none }

instance : Inhabited LinkedList := ⟨LinkedList.new⟩

/-- The method `getSize()`. -/
def LinkedList.getSize (l : LinkedList) : Int := l.size

/-- The free store: the node at address `a` is the `a`-th element. -/
abbrev Heap := List DimensionNode

namespace Heap

/-- The expression `new DimensionNode<int>`: the extended heap and the new address. -/
def alloc (H : Heap) : Heap × Nat := (H ++ [DimensionNode.new], H.length)

/-- The assignment `p->item = i`. -/
def setItem (H : Heap) (p : Ptr) (i : Int) : Except Exn Heap :=
  match p with
  | none => .error .undefined_behaviour
  | some a =>
    match H[a]? with
    | none => .error .undefined_behaviour
    | some node => .ok (H.set a { node with item := i })

/-- Access `p->dimension[d]` followed by `f` applied to the referenced pointer pair:
the heap after the access and the pair read (before `f`). -/
def access (H : Heap) (p : Ptr) (d : String) (f : DimensionPointers → DimensionPointers) :
    Except Exn (Heap × DimensionPointers) :=
  match p with
  | none => .error .undefined_behaviour
  | some a =>
    match H[a]? with
    | none => .error .undefined_behaviour
    | some node => do
      let r ← node.dimension.index d
      let v ← r.1.deref r.2
      let h ← r.1.assign r.2 f
      pure (H.set a { node with dimension := h }, v)

/-- The value of `p->dimension[d].next`. -/
def getNext (H : Heap) (p : Ptr) (d : String) : Except Exn (Heap × Ptr) := do
  let r ← access H p d id
  pure (r.1, r.2.next)

/-- The value of `p->dimension[d].prev`. -/
def getPrev (H : Heap) (p : Ptr) (d : String) : Except Exn (Heap × Ptr) := do
  let r ← access H p d id
  pure (r.1, r.2.prev)

/-- The assignment `p->dimension[d].next = q`. -/
def setNext (H : Heap) (p : Ptr) (d : String) (q : Ptr) : Except Exn Heap := do
  let r ← access H p d (fun v => { v with next := q })
  pure r.1

/-- The assignment `p->dimension[d].prev = q`. -/
def setPrev (H : Heap) (p : Ptr) (d : String) (q : Ptr) : Except Exn Heap := do
  let r ← access H p d (fun v => { v with prev := q })
  pure r.1

end Heap

/-! ## main.cpp: the list update functions -/

/-- The function `updateCustomerList(customer, DNode, newDNode, packageListEventPosition,
customerList)`; the list behind the pointer `customerList` is passed and returned. -/
def updateCustomerList (H : Heap) (customer : String) (DNode newDNode : Ptr)
    (packageListEventPosition : Int) (customerList : LinkedList) :
    Except Exn (Heap × LinkedList) := do
  let r ←
    if customerList.tail = none then
      -- Customer list is empty
      (pure (H, { customerList with head := newDNode, size := 1 }) :
        Except Exn (Heap × LinkedList))
    else if packageListEventPosition ≤ 1 then
      -- 1st or 2nd event of a package
      let H ← Heap.setNext H customerList.tail customer newDNode
      let H ← Heap.setPrev H newDNode customer customerList.tail
      pure (H, { customerList with size := customerList.size + 1 })
    else
      let r ← Heap.getNext H DNode customer
      if r.2 = none then
        -- The new DNode replaces the old one
        let r ← Heap.getPrev r.1 customerList.tail customer
        let H ← Heap.setNext r.1 r.2 customer newDNode
        let r ← Heap.getPrev H customerList.tail customer
        let H ← Heap.setPrev r.1 newDNode customer r.2
        pure (H, customerList)
      else
        -- Has a subsequent DNode
        let n ← Heap.getNext r.1 DNode customer
        let p ← Heap.getPrev n.1 DNode customer
        let H ← Heap.setNext p.1 p.2 customer n.2
        let p ← Heap.getPrev H DNode customer
        let n ← Heap.getNext p.1 DNode customer
        let H ← Heap.setPrev n.1 n.2 customer p.2
        let H ← Heap.setNext H customerList.tail customer newDNode
        let H ← Heap.setPrev H newDNode customer customerList.tail
        pure (H, customerList)
  pure (r.1, { r.2 with tail := newDNode })

/-- The function `updateDeleteList(DNodesList, newDNode)`. -/
def updateDeleteList (H : Heap) (DNodesList : LinkedList) (newDNode : Ptr) :
    Except Exn (Heap × LinkedList) := do
  let H ← Heap.setNext H DNodesList.tail "delete" newDNode
  let H ← Heap.setPrev H newDNode "delete" DNodesList.tail
  pure (H, { DNodesList with tail := newDNode, size := DNodesList.size + 1 })

/-- The function `updatePackageList(packageData, newDNode)`, on the list
`packageData->events`. -/
def updatePackageList (H : Heap) (events : LinkedList) (newDNode : Ptr) :
    Except Exn (Heap × LinkedList) := do
  if events.getSize = 0 then
    pure (H, { events with head := newDNode, tail := newDNode, size := 1 })
  else
    let H ← Heap.setNext H events.tail "package" newDNode
    let H ← Heap.setPrev H newDNode "package" events.tail
    pure (H, { events with tail := newDNode, size := events.size + 1 })

/-- The traversal `while (current != nullptr) { ...; current = current->dimension[d].next; }`
(the teardown loop of `main` for `d = "delete"`): the heap after the walk and the
addresses visited, in order. The first argument bounds the number of iterations. -/
def traverse (d : String) : Nat → Heap → Ptr → Except Exn (Heap × List Nat)
  | 0, _, _ => .error .out_of_fuel
  | _ + 1, H, none => .ok (H, [])
  | fuel + 1, H, some a => do
    let r ← Heap.getNext H (some a) d
    let rest ← traverse d fuel r.1 r.2
    pure (rest.1, a :: rest.2)

/-! ## main.cpp: the program state and the event handlers -/

/-- The struct `PackageData`. -/
structure PackageData where
  sender : String
  recipient : String
  events : LinkedList
  deriving DecidableEq, Repr

instance : Inhabited PackageData :=
  ⟨{ sender := "", recipient := "", events := LinkedList.new }⟩

/-- The containers of `main` that the event handlers work on, and the heap. -/
structure State where
  heap : Heap
  customers : Hash String LinkedList
  packages : Hash Int PackageData
  DNodesList : LinkedList
  deriving DecidableEq, Repr

/-- The state built at the start of `main`: two tables `(1000)` and the lifecycle list
`DNodesList` whose `head` and `tail` are set to a node allocated for it. -/
def State.init : State :=
  let r := Heap.alloc []
  { heap := r.1,
    customers := Hash.new 1000,
    packages := Hash.new 1000,
    DNodesList := { LinkedList.new with head := some r.2, tail := some r.2 } }

/-- The call `updateCustomerList(customer, DNode, newDNode, size, &customers[customer])`. -/
def State.callUpdateCustomerList (st : State) (customer : String) (DNode newDNode : Ptr)
    (size : Int) : Except Exn State := do
  let c ← st.customers.index customer
  let l ← c.1.deref c.2
  let r ← updateCustomerList st.heap customer DNode newDNode size l
  let cs ← c.1.assign c.2 (fun _ => r.2)
  pure { st with heap := r.1, customers := cs }

/-- The function `handleActionRG` without its input and log text: event number `i`
registers `packageId` for `sender` and `recipient`. -/
def handleActionRG (st : State) (i : Int) (packageId : Int) (sender recipient : String) :
    Except Exn State := do
  let p ← st.packages.index packageId
  let ps ← p.1.assign p.2 (fun d => { d with sender := sender })
  let ps ← ps.assign p.2 (fun d => { d with recipient := recipient })
  let st := { st with packages := ps }
  let n := st.heap.alloc
  let H ← Heap.setItem n.1 (some n.2) i
  let st := { st with heap := H }
  let newDNode : Ptr := some n.2
  let d ← st.packages.deref p.2
  let st ← st.callUpdateCustomerList sender none newDNode d.events.getSize
  let d ← st.packages.deref p.2
  let st ← st.callUpdateCustomerList recipient none newDNode d.events.getSize
  let d ← st.packages.deref p.2
  let r ← updatePackageList st.heap d.events newDNode
  let ps ← st.packages.assign p.2 (fun d => { d with events := r.2 })
  let st := { st with heap := r.1, packages := ps }
  let r ← updateDeleteList st.heap st.DNodesList newDNode
  pure { st with heap := r.1, DNodesList := r.2 }

/-- The function `updateLists`, called by the handlers of AR, RM, UR, TR and EN. -/
def updateLists (st : State) (i : Int) (packageId : Int) : Except Exn State := do
  let p ← st.packages.index packageId
  let st := { st with packages := p.1 }
  let d ← st.packages.deref p.2
  let DNode := d.events.tail
  let n := st.heap.alloc
  let H ← Heap.setItem n.1 (some n.2) i
  let newDNode : Ptr := some n.2
  let r ← updateDeleteList H st.DNodesList newDNode
  let st := { st with heap := r.1, DNodesList := r.2 }
  let d ← st.packages.deref p.2
  let st ← st.callUpdateCustomerList d.sender DNode newDNode d.events.getSize
  let d ← st.packages.deref p.2
  let st ← st.callUpdateCustomerList d.recipient DNode newDNode d.events.getSize
  let d ← st.packages.deref p.2
  let r ← updatePackageList st.heap d.events newDNode
  let ps ← st.packages.assign p.2 (fun d => { d with events := r.2 })
  pure { st with heap := r.1, packages := ps }

/-- The loop `do { print logs[DNode->item]; DNode = DNode->dimension[d].next; }
while (DNode != nullptr);` of the two queries: the items printed, in order. The first
argument bounds the number of iterations. -/
def printLoop (d : String) : Nat → Heap → Ptr → Except Exn (Heap × List Int)
  | 0, _, _ => .error .out_of_fuel
  | _ + 1, _, none => .error .undefined_behaviour
  | fuel + 1, H, some a =>
    match H[a]? with
    | none => .error .undefined_behaviour
    | some node => do
      let r ← Heap.getNext H (some a) d
      if r.2 = none then
        pure (r.1, [node.item])
      else
        let rest ← printLoop d fuel r.1 r.2
        pure (rest.1, node.item :: rest.2)

/-- The function `handleActionCL` without its input and log text: the size printed and
the items of the events printed, in order. -/
def handleActionCL (fuel : Nat) (st : State) (customerName : String) :
    Except Exn (State × Int × List Int) := do
  let c ← st.customers.index customerName
  let st := { st with customers := c.1 }
  let customerPackages ← st.customers.deref c.2
  if customerPackages.getSize < 1 then
    pure (st, customerPackages.getSize, [])
  else
    let r ← printLoop customerName fuel st.heap customerPackages.head
    pure ({ st with heap := r.1 }, customerPackages.getSize, r.2)

/-- The function `handleActionPC` without its input and log text. -/
def handleActionPC (fuel : Nat) (st : State) (packageId : Int) :
    Except Exn (State × Int × List Int) := do
  let p ← st.packages.index packageId
  let st := { st with packages := p.1 }
  let d ← st.packages.deref p.2
  let packageEvents := d.events
  if packageEvents.getSize < 1 then
    pure (st, packageEvents.getSize, [])
  else
    let r ← printLoop "package" fuel st.heap packageEvents.head
    pure ({ st with heap := r.1 }, packageEvents.getSize, r.2)

/-- An event line of the input: a registration `EV RG`, or one of the status events
`EV AR`, `EV RM`, `EV UR`, `EV TR`, `EV EN`, which all call `updateLists`. -/
inductive Event where
  | RG (packageId : Int) (sender recipient : String)
  | status (packageId : Int)
  deriving DecidableEq, Repr

/-- The dispatch of `main` for one event line with number `i`. -/
def Event.handle (st : State) (i : Int) : Event → Except Exn State
  | .RG packageId sender recipient => handleActionRG st i packageId sender recipient
  | .status packageId => updateLists st i packageId

/-- The input loop of `main` over event lines, numbered from `i`. -/
def runEvents : List Event → Int → State → Except Exn State
  | [], _, st => .ok st
  | e :: es, i, st => do
    let st ← e.handle st i
    runEvents es (i + 1) st

/-! ## Specification vocabulary for `Hash` -/

namespace Hash

variable {K V : Type}

/-- The slot stored at index `j` of the table, if `j` is below the capacity. -/
def slot? (h : Hash K V) (j : Nat) : Option (HashSlot K V) := h._vector._items[j]?

/-- The state of the slot at index `j` (`EMPTY` beyond the capacity). -/
def stateAt (h : Hash K V) (j : Nat) : SlotState :=
  match h.slot? j with
  | some s => s.state
  | none => .EMPTY

/-- The value the table holds for `key`: the value of the OCCUPIED slot whose key is
`key`, if there is one. -/
def lookup [DecidableEq K] (h : Hash K V) (key : K) : Option V :=
  (h._vector._items.find? (fun s => decide (s.state = .OCCUPIED ∧ s.key = key))).map
    (fun s => s.value)

/-- The first `i` probes for `key` met neither an EMPTY slot nor the key. -/
def Passed [Hasher K] (h : Hash K V) (key : K) (i : Nat) : Prop :=
  ∀ i', i' < i → h.stateAt (probe h.capacity key i') ≠ .EMPTY ∧
    ∀ s, h.slot? (probe h.capacity key i') = some s → s.state = .OCCUPIED → s.key ≠ key

/-- What `findPos` returns for `key`: the slot of the key (`found`), a slot that is not
OCCUPIED, on the probe sequence of the key, when the key is not met (`free`), or the
home slot when every probe meets a slot OCCUPIED by another key (`full`). -/
inductive FindRes [Hasher K] (h : Hash K V) (key : K) (pos : Nat) : Prop where
  | found (s : HashSlot K V) (hs : h.slot? pos = some s) (occ : s.state = .OCCUPIED)
      (hk : s.key = key)
  | free (s : HashSlot K V) (hs : h.slot? pos = some s) (nocc : s.state ≠ .OCCUPIED)
      (e : Nat) (he : e ≤ h.capacity) (passed : h.Passed key e)
      (stop : e = h.capacity ∨ h.stateAt (probe h.capacity key e) = .EMPTY)
      (i0 : Nat) (hi0 : i0 < h.capacity) (hp : probe h.capacity key i0 = pos)
      (pre : ∀ i', i' < i0 → h.stateAt (probe h.capacity key i') ≠ .EMPTY)
  | full (s : HashSlot K V) (hs : h.slot? pos = some s) (occ : s.state = .OCCUPIED)
      (hk : s.key ≠ key) (hpos : pos = probe h.capacity key 0)
      (all : h.Passed key h.capacity)
      (allocc : ∀ i, i < h.capacity → h.stateAt (probe h.capacity key i) = .OCCUPIED)

/-- The number of OCCUPIED slots. -/
def occupied (h : Hash K V) : Nat :=
  ((Finset.range h.capacity).filter (fun j => h.stateAt j = .OCCUPIED)).card

/-- The number of slots that are not EMPTY (OCCUPIED or TOMBSTONE). -/
def nonEmpty (h : Hash K V) : Nat :=
  ((Finset.range h.capacity).filter (fun j => h.stateAt j ≠ .EMPTY)).card

/-- The structural invariant of the table: `_size` counts the OCCUPIED slots, every
OCCUPIED slot lies on the probe sequence of its key with no EMPTY slot before it, and
no key is held by two OCCUPIED slots. -/
structure Inv [Hasher K] (h : Hash K V) : Prop where
  size_eq : h._size = h.occupied
  chain : ∀ j s, h.slot? j = some s → s.state = .OCCUPIED →
    ∃ i, i < h.capacity ∧ probe h.capacity s.key i = j ∧
      ∀ i', i' < i → h.stateAt (probe h.capacity s.key i') ≠ .EMPTY
  unique : ∀ j1 j2 s1 s2, h.slot? j1 = some s1 → h.slot? j2 = some s2 →
    s1.state = .OCCUPIED → s2.state = .OCCUPIED → s1.key = s2.key → j1 = j2

/-- Some probe for `key` meets a slot that is not OCCUPIED: `findPos` has a slot to
offer for a key that is not in the table. -/
def Room [Hasher K] (h : Hash K V) (key : K) : Prop :=
  ∃ i, i < h.capacity ∧ h.stateAt (probe h.capacity key i) ≠ .OCCUPIED

/-- The table can serve `operator[]` at `key` with the entry of `key` itself: the key
is in the table, or a rehash comes first, or a probe finds a slot for it. -/
def Ready [Hasher K] [DecidableEq K] (h : Hash K V) (key : K) : Prop :=
  h.Inv ∧ ((h.lookup key).isSome ∨ h.needsRehash = true ∨ h.Room key)

end Hash

namespace Hash

variable {K V : Type}

/-- The table with the slot at `pos` replaced by `s` (no change beyond the capacity)
and `_size` set to `n`. -/
def setSlot (h : Hash K V) (pos : Nat) (s : HashSlot K V) (n : Nat) : Hash K V :=
  { _vector := { h._vector with _items := h._vector._items.set pos s }, _size := n }

/-- The table holds `value` for `key`: some OCCUPIED slot has this key and value. -/
def Holds (h : Hash K V) (key : K) (value : V) : Prop :=
  ∃ j s, h.slot? j = some s ∧ s.state = .OCCUPIED ∧ s.key = key ∧ s.value = value

/-- No OCCUPIED slot has the key. -/
def Absent (h : Hash K V) (key : K) : Prop :=
  ∀ j s, h.slot? j = some s → s.state = .OCCUPIED → s.key ≠ key

end Hash

namespace Hash

variable {K V : Type}

/-- No slot is a TOMBSTONE. -/
def NoTomb (h : Hash K V) : Prop := ∀ j, h.stateAt j ≠ .TOMBSTONE

/-- The number of OCCUPIED slots at the indices below `i`. -/
def occupiedBelow (h : Hash K V) (i : Nat) : Nat :=
  ((Finset.range i).filter (fun j => h.stateAt j = .OCCUPIED)).card

end Hash

namespace Hash

variable {K V : Type}

/-- The states of a table that a program can reach from a freshly constructed table by
`insert`, `erase`, `operator[]` and assignments through the reference that
`operator[]` returns (`contains`, `size` and `empty` do not change the table). -/
inductive Reachable [Hasher K] [DecidableEq K] [Inhabited K] [Inhabited V] :
    Hash K V → Prop where
  | new (initialSize : Nat) : Reachable (Hash.new initialSize)
  | insert {h t : Hash K V} {k : K} {v : V} {b : Bool} :
      Reachable h → h.insert k v = .ok (t, b) → Reachable t
  | erase {h t : Hash K V} {k : K} {b : Bool} :
      Reachable h → h.erase k = .ok (t, b) → Reachable t
  | index {h t : Hash K V} {k : K} {p : Nat} :
      Reachable h → h.index k = .ok (t, p) → Reachable t
  | update {h t : Hash K V} {k : K} {f : V → V} :
      Reachable h → h.update k f = .ok t → Reachable t

end Hash

/-! ## Concrete tables used to evaluate the code -/

/-- The table `Hash<int,int>` of capacity `cap` whose slots are EMPTY but for the
OCCUPIED slots listed as `(index, key, value)`. -/
def tableOf (cap : Nat) (entries : List (Nat × Int × Int)) : Hash Int Int :=
  { _vector :=
      { _size := 0,
        _items := entries.foldl
          (fun items e => items.set e.1 { key := e.2.1, value := e.2.2, state := .OCCUPIED })
          (List.replicate cap default) },
    _size := entries.length }

/-- The table reached from `Hash<int,int>(3)` (capacity 5) by `insert(0,10)`,
`insert(1,11)` and `insert(4,14)`. -/
def table014 : Hash Int Int := tableOf 5 [(0, 0, 10), (1, 1, 11), (4, 4, 14)]

/-- The table reached from `Hash<int,int>(1)` (capacity 2) by `insert(1,10)` and
`insert(2,20)`: it is full, so the next `insert` rehashes first. -/
def fullTable : Hash Int Int := tableOf 2 [(1, 1, 10), (0, 2, 20)]

/-! ## Specification vocabulary for the linked records -/

namespace Hash

variable {K V : Type}

/-- The value that the expression `table[key]` reads (the default value if the access
fails). -/
def peek [Hasher K] [DecidableEq K] [Inhabited K] [Inhabited V] (h : Hash K V)
    (key : K) : V :=
  match h.get key with
  | .ok r => r.2
  | .error _ => default

end Hash

namespace Heap

/-- The pointer pair that the directory of the record at address `a` holds for the key
`d`, and the default pair (both `nullptr`) when it holds nothing for `d` or `a` is not
allocated. -/
def view (H : Heap) (d : String) (a : Nat) : DimensionPointers :=
  match H[a]? with
  | some node => (node.dimension.lookup d).getD default
  | none => default

/-- The pointer pair that the expression `a->dimension[d]` reads at the record at
address `a` (the default pair when `a` is not allocated). -/
def links (H : Heap) (d : String) (a : Nat) : DimensionPointers :=
  match H[a]? with
  | some node => node.dimension.peek d
  | none => default

/-- The value of `a->dimension[d].next`. -/
def nextOf (H : Heap) (d : String) (a : Nat) : Ptr := (H.links d a).next

/-- The value of `a->dimension[d].prev`. -/
def prevOf (H : Heap) (d : String) (a : Nat) : Ptr := (H.links d a).prev

/-- The record at `a` is allocated and its directory can serve `dimension[d]` with the
entry of `d` itself (see `Hash.Ready`). -/
def NodeReady (H : Heap) (d : String) (a : Nat) : Prop :=
  ∃ node, H[a]? = some node ∧ node.dimension.Ready d

/-- The directory of the record at `a` has an entry for `d`. -/
def Present (H : Heap) (d : String) (a : Nat) : Prop :=
  ∃ node, H[a]? = some node ∧ (node.dimension.lookup d).isSome

/-- The record at `a` is allocated and its directory satisfies the table invariant. -/
def NodeInv (H : Heap) (a : Nat) : Prop :=
  ∃ node, H[a]? = some node ∧ node.dimension.Inv

/-- The payload of the record at `a`. -/
def itemOf (H : Heap) (a : Nat) : Option Int := (H[a]?).map (fun node => node.item)

/-- The effect on the heap of one access `a->dimension[d]` that leaves the pair `w` in
the entry: the view of `d` changes at `a` only, nothing else that is observable changes. -/
structure Effect (H H' : Heap) (d : String) (a : Nat) (w : DimensionPointers) : Prop where
  length : H'.length = H.length
  view_eq : H'.view d = Function.update (H.view d) a w
  ready : ∀ b, H.NodeReady d b → H'.NodeReady d b
  present_self : H'.Present d a
  frame : ∀ d', d' ≠ d → ∀ b, H'.view d' b = H.view d' b
  present : ∀ d' b, H.Present d' b → H'.Present d' b
  inv : ∀ b, H.NodeInv b → H'.NodeInv b
  item : ∀ b, H'.itemOf b = H.itemOf b

/-- The record at `a` is ready to be linked into dimension `d`: its directory can serve
`dimension[d]` and holds no link for `d`. A record just created by
`new DimensionNode<int>` is such a record, for every dimension. -/
def Unlinked (H : Heap) (d : String) (a : Nat) : Prop :=
  H.NodeReady d a ∧ H.view d a = default

/-- The effect on the heap of one access `a->dimension[d]` that leaves the pair `w` to be
read: what `dimension[d]` reads changes at `a` only, and every directory still satisfies
the table invariant. -/
structure Write (H H' : Heap) (d : String) (a : Nat) (w : DimensionPointers) : Prop where
  length : H'.length = H.length
  links_eq : H'.links d = Function.update (H.links d) a w
  inv : ∀ b, H.NodeInv b → H'.NodeInv b

/-- The record at `a` is fresh for the dimension `d`: it is allocated, its directory
satisfies the table invariant, and `a->dimension[d]` reads no link. A record just created
by `new DimensionNode<int>` is such a record, for every dimension. -/
def Detached (H : Heap) (d : String) (a : Nat) : Prop :=
  H.NodeInv a ∧ H.links d a = default

/-- What every sequence of accesses keeps: the allocated addresses and the table
invariant of every directory. -/
structure Kept (H H' : Heap) : Prop where
  length : H'.length = H.length
  inv : ∀ b, H.NodeInv b → H'.NodeInv b

end Heap

/-- The records `xs` are doubly linked in this order by the pointer pairs `v`, the first
of them having `p` as its `prev` and the last of them having no `next`. -/
def Chain (v : Nat → DimensionPointers) : Ptr → List Nat → Prop
  | _, [] => True
  | p, a :: rest => (v a).prev = p ∧ (v a).next = rest.head? ∧ Chain v (some a) rest

/-- The list handle `L` of dimension `d` is well formed with the records `xs`, in this
order: `head` is the first and `tail` the last of them, `size` is their number, they are
pairwise distinct, each one's `next[d]` is its successor and `prev[d]` its predecessor
(absent for the first and the last), as the expressions `a->dimension[d].next` and
`a->dimension[d].prev` read them, and each one's directory satisfies the table
invariant. -/
structure WF (H : Heap) (d : String) (L : LinkedList) (xs : List Nat) : Prop where
  nodup : xs.Nodup
  head_eq : L.head = xs.head?
  tail_eq : L.tail = xs.getLast?
  size_eq : L.size = xs.length
  chain : Chain (H.links d) none xs
  inv : ∀ a, a ∈ xs → H.NodeInv a

namespace Heap

end Heap

/-! ## Runs of the list update functions -/

/-- A call of `updateCustomerList` whose new record is freshly created,
`newDNode = new DimensionNode<int>`. -/
def relocateFresh (H : Heap) (d : String) (DNode : Ptr) (pc : Int) (L : LinkedList) :
    Except Exn (Heap × LinkedList) :=
  updateCustomerList (H.alloc).1 d DNode (some (H.alloc).2) pc L

/-- The old record of a call is linked into the list, when the call is a superseding
call (`priorCount >= 2`). -/
def OldLinked (H : Heap) (d : String) (L : LinkedList) (DNode : Ptr) (pc : Int) : Prop :=
  2 ≤ pc → ∃ xs o, WF H d L xs ∧ DNode = some o ∧ o ∈ xs

/-- The old record of a call is linked into the list at a place other than the head,
when the call is a superseding call (`priorCount >= 2`). -/
def OldLinkedInner (H : Heap) (d : String) (L : LinkedList) (DNode : Ptr) (pc : Int) :
    Prop :=
  2 ≤ pc → ∃ xs o, WF H d L xs ∧ DNode = some o ∧ o ∈ xs.tail

/-- The heaps and list handles of dimension `d` reached from an empty list by calls of
`updateCustomerList` with freshly created new records, any `priorCount`, and old records
that are linked into the list at a place other than the head. -/
inductive Relocated (d : String) : Heap → LinkedList → Prop where
  | start (H : Heap) : Relocated d H LinkedList.new
  | call {H G : Heap} {L M : LinkedList} (DNode : Ptr) (pc : Int) :
      Relocated d H L → OldLinkedInner H d L DNode pc →
      relocateFresh H d DNode pc L = .ok (G, M) → Relocated d G M

/-- A list is built by appends: one call of `updateCustomerList` with a freshly created
record and no old record for each of the given positions. -/
def appendAll (d : String) : List Int → Heap → LinkedList → Except Exn (Heap × LinkedList)
  | [], H, L => .ok (H, L)
  | pc :: pcs, H, L => do
    let r ← relocateFresh H d none pc L
    appendAll d pcs r.1 r.2

/-- Superseding updates of one entity: each call passes the latest record as the old
record and a freshly created record as the new one, which becomes the latest. -/
def supersedeAll (d : String) :
    List Int → Heap → LinkedList → Nat → Except Exn (Heap × LinkedList × Nat)
  | [], H, L, latest => .ok (H, L, latest)
  | pc :: pcs, H, L, latest => do
    let r ← relocateFresh H d (some latest) pc L
    supersedeAll d pcs r.1 r.2 H.length

/-- The events of one entity on an empty list: the first (`priorCount = 0`), the second
(`priorCount = 1`), then one superseding update for each of the given positions. -/
def anchorScenario (d : String) (H : Heap) (DNode1 DNode2 : Ptr) (pcs : List Int) :
    Except Exn (Heap × LinkedList × Nat) := do
  let r1 ← relocateFresh H d DNode1 0 LinkedList.new
  let r2 ← relocateFresh r1.1 d DNode2 1 r1.2
  supersedeAll d pcs r2.1 r2.2 (H.length + 1)

/-- The value of a computation that succeeds (`fallback` otherwise). -/
def resultOf {α : Type} (r : Except Exn α) (fallback : α) : α :=
  match r with
  | .ok x => x
  | .error _ => fallback

/-- The heap and the list `[A, B, C]` (addresses 0, 1, 2) of dimension `"x"` built by
three appends. -/
def listABC : Heap × LinkedList :=
  resultOf (appendAll "x" [0, 0, 0] [] LinkedList.new) ([], LinkedList.new)

/-- The heap and the list `[B, C]` (addresses 0, 1) of dimension `"x"` built by two
appends. -/
def listBC : Heap × LinkedList :=
  resultOf (appendAll "x" [0, 1] [] LinkedList.new) ([], LinkedList.new)

/-- The heap and the list reached from the list `[B, C]` of `listBC` by superseding `C`
with a freshly created record. -/
def listBE : Heap × LinkedList :=
  resultOf (relocateFresh listBC.1 "x" (some 1) 2 listBC.2) ([], LinkedList.new)

/-- The heap and the list `[X]` (address 0) of dimension `"x"` after the first call of
`updateCustomerList` on an empty list. -/
def listX : Heap × LinkedList :=
  resultOf (relocateFresh [] "x" none 0 LinkedList.new) ([], LinkedList.new)

/-- The state of the program after the single input line `EV RG` that registers
package 1 with the customer `"A"` as both sender and recipient. -/
def sameCustomerState : State :=
  resultOf (runEvents [Event.RG 1 "A" "A"] 0 State.init) State.init

/-! ## Runs of the lifecycle list -/

namespace Heap

end Heap

/-- What every run keeps true of the lifecycle list: the record 0 that `main` allocates
for the list, followed by the records passed to `updateDeleteList`, is a chain of the
dimension `"delete"` without repetition; `head` is the record 0, `tail` the last record
of the chain and `size` the number of records passed; a record outside the chain has no
link in `"delete"`; and once a record has been passed every record of the chain has an
entry for `"delete"` in its directory. -/
structure LifeInv (H : Heap) (D : LinkedList) (as : List Nat) : Prop where
  chain : Chain (H.view "delete") none (0 :: as)
  nodup : (0 :: as).Nodup
  head_eq : D.head = some 0
  tail_eq : D.tail = (0 :: as).getLast?
  size_eq : D.size = as.length
  fresh : ∀ a, a ∉ 0 :: as → H.view "delete" a = default
  linked : as ≠ [] → ∀ a, a ∈ 0 :: as → H.Present "delete" a ∧ H.NodeInv a

namespace ArrayList

variable {T : Type}

/-- Reading the buffer through the pointer, `_items[i]`: no check is made, and an index
outside the buffer (or a null buffer) is undefined behaviour. -/
def readRaw (items : List T) (i : Nat) : Except Exn T :=
  match items[i]? with
  | some x => .ok x
  | none => .error .undefined_behaviour

/-- Writing the buffer through the pointer, `_items[i] = x`. -/
def writeRaw (items : List T) (i : Nat) (x : T) : Except Exn (List T) :=
  if i < items.length then .ok (items.set i x) else .error .undefined_behaviour

/-- The method `getItem(int pos)`. -/
def getItem (a : ArrayList T) (pos : Int) : Except Exn T :=
  if pos < 0 ∨ pos ≥ (a._size : Int) then .error .out_of_range
  else readRaw a._items pos.toNat

/-- The method `insertAtEnd(const T& item)`. -/
def insertAtEnd [Inhabited T] (a : ArrayList T) (item : T) : Except Exn (ArrayList T) := do
  let a ←
    if a._size = a.getCapacity then
      a.resize (if a.getCapacity > 0 then (a.getCapacity : Int) * 2 else 10)
    else pure a
  let items ← writeRaw a._items a._size item
  pure { _size := a._size + 1, _items := items }

/-- The loop of `insertAtPosition`,
`for (int i = _size; i > pos; i--) _items[i] = _items[i - 1];`, with `n` iterations
left: the current `i` is `pos + n`. -/
def shiftUp (pos : Nat) : Nat → List T → Except Exn (List T)
  | 0, items => .ok items
  | n + 1, items => do
    let x ← readRaw items (pos + n)
    let items ← writeRaw items (pos + n + 1) x
    shiftUp pos n items

/-- The method `insertAtPosition(const T& item, int pos)`. -/
def insertAtPosition [Inhabited T] (a : ArrayList T) (item : T) (pos : Int) :
    Except Exn (ArrayList T) := do
  let a ← if a._size = a.getCapacity then a.resize ((a.getSize : Int) * 2) else pure a
  if pos < 0 ∨ pos > (a._size : Int) then .error .out_of_range
  else
    let items ← shiftUp pos.toNat (a._size - pos.toNat) a._items
    let items ← writeRaw items pos.toNat item
    pure { _size := a._size + 1, _items := items }

/-- The loop of `removeFromPosition`,
`for (int i = pos; i < _size - 1; i++) _items[i] = my_move(_items[i + 1]);`, with `n`
iterations left at the index `i`. A move is modelled as a copy: the slot moved from last,
at index `_size - 1`, lies outside the logical sequence afterwards. -/
def shiftDown : Nat → Nat → List T → Except Exn (List T)
  | 0, _, items => .ok items
  | n + 1, i, items => do
    let x ← readRaw items (i + 1)
    let items ← writeRaw items i x
    shiftDown n (i + 1) items

/-- The method `removeFromPosition(int pos)`: the array afterwards and the element
returned. -/
def removeFromPosition (a : ArrayList T) (pos : Int) : Except Exn (ArrayList T × T) :=
  if pos < 0 ∨ pos ≥ (a._size : Int) then .error .out_of_range
  else do
    let temp ← readRaw a._items pos.toNat
    let items ← shiftDown (a._size - 1 - pos.toNat) pos.toNat a._items
    pure ({ _size := a._size - 1, _items := items }, temp)

/-- The class invariant of `ArrayList`: `0 <= _size <= _maxSize`. -/
def Valid (a : ArrayList T) : Prop := a._size ≤ a.getCapacity

/-- The logical sequence of the array: the first `_size` elements of the buffer. -/
def toList (a : ArrayList T) : List T := a._items.take a._size

end ArrayList

/-- The array built by `ArrayList<int> a(2)` followed by `insertAtEnd` of 10, 20 and 30:
size 3 and capacity 4. -/
def array3 : ArrayList Int :=
  resultOf (do
    let a ← (ArrayList.withCapacity 2 : ArrayList Int).insertAtEnd 10
    let a ← a.insertAtEnd 20
    a.insertAtEnd 30) (ArrayList.withCapacity 0)

/-! ## Runs of `Hash` with `clear`, and further concrete tables -/

namespace Hash

variable {K V : Type}

/-- The states of a table that a program can reach from a constructed table by `insert`,
`erase`, `operator[]`, assignments through the reference that `operator[]` returns, and
`clear` (`contains`, `size` and `empty` do not change the table). -/
inductive Attainable [Hasher K] [DecidableEq K] [Inhabited K] [Inhabited V] :
    Hash K V → Prop where
  | new (initialSize : Nat) : Attainable (Hash.new initialSize)
  | insert {h t : Hash K V} {k : K} {v : V} {b : Bool} :
      Attainable h → h.insert k v = .ok (t, b) → Attainable t
  | erase {h t : Hash K V} {k : K} {b : Bool} :
      Attainable h → h.erase k = .ok (t, b) → Attainable t
  | index {h t : Hash K V} {k : K} {p : Nat} :
      Attainable h → h.index k = .ok (t, p) → Attainable t
  | update {h t : Hash K V} {k : K} {f : V → V} :
      Attainable h → h.update k f = .ok t → Attainable t
  | clear {h t : Hash K V} : Attainable h → h.clear = .ok t → Attainable t

end Hash

/-- The table reached from `Hash<int,int>(3)` (capacity 5) by `insert(0,10)` and
`insert(5,15)`: the key 5 lies at the slot 1, after the slot 0 of the key 0 on its probe
sequence. -/
def table05 : Hash Int Int := tableOf 5 [(0, 0, 10), (1, 5, 15)]

/-- The table reached from `table014` by `insert(2,12)`: four keys in five slots. -/
def table0124 : Hash Int Int := tableOf 5 [(0, 0, 10), (1, 1, 11), (4, 4, 14), (2, 2, 12)]

/-- The table after `Hash<int,int> h(3); h.clear(); h.insert(1,10); h.clear();`. -/
def clearedTwice : Hash Int Int :=
  resultOf (do
    let h ← (Hash.new 3 : Hash Int Int).clear
    let r ← h.insert 1 10
    r.1.clear) (Hash.new 3)

/-! ## array_list.hpp: copying -/

namespace ArrayList

variable {T : Type}

/-- The loop of the copy constructor,
`for (int i = 0; i < _size; i++) _items[i] = other._items[i];`, with `n` iterations left
at the index `i`. -/
def copyLoop (src : List T) : Nat → Nat → List T → Except Exn (List T)
  | 0, _, dst => .ok dst
  | n + 1, i, dst => do
    let x ← readRaw src i
    let dst ← writeRaw dst i x
    copyLoop src n (i + 1) dst

/-- The copy constructor `ArrayList(const ArrayList<T>& other)`: a buffer of
`other._maxSize` default-constructed elements (see `withCapacity`), into which the first
`other._size` elements are copied. -/
def copy [Inhabited T] (other : ArrayList T) : Except Exn (ArrayList T) := do
  let items ← copyLoop other._items other._size 0 (List.replicate other.getCapacity default)
  pure { _size := other._size, _items := items }

/-- The method `swap(ArrayList<T>& other)`: the array and `other` afterwards. -/
def swap (a other : ArrayList T) : ArrayList T × ArrayList T := (other, a)

/-- The copy assignment `*this = other`; `sameObject` is the test `this == &other`. -/
def copyAssign [Inhabited T] (self other : ArrayList T) (sameObject : Bool) :
    Except Exn (ArrayList T) :=
  if sameObject then .ok self
  else do
    let temp ← copy other
    pure (swap self temp).1

end ArrayList

/-! ## Further runs of `Hash` -/

namespace Hash

variable {K V : Type}

/-- The loop of `rehash` (see `rehashLoop`) with a record of what the calls of `insert`
returned, in order. -/
def rehashLoopLog (insertFn : Hash K V → K → V → Except Exn (Hash K V × Bool))
    (oldTable : ArrayList (HashSlot K V)) :
    Nat → Nat → Hash K V → Except Exn (Hash K V × List Bool)
  | 0, _, h => .ok (h, [])
  | n + 1, i, h => do
    let slot ← oldTable.index i
    if slot.state = .OCCUPIED then
      let r ← insertFn h slot.key slot.value
      let rest ← rehashLoopLog insertFn oldTable n (i + 1) r.1
      pure (rest.1, r.2 :: rest.2)
    else
      rehashLoopLog insertFn oldTable n (i + 1) h

/-- The method `rehash` with a record of what its calls of `insert` returned. -/
def rehashLog [Hasher K] [DecidableEq K] [Inhabited K] [Inhabited V]
    (h : Hash K V) : Except Exn (Hash K V × List Bool) :=
  rehashLoopLog (insertFuel 1) h._vector h._vector.getCapacity 0
    { _vector := ArrayList.withCapacity (findNextPrime (h._vector.getCapacity * 2)), _size := 0 }

/-- Repeated cycles `erase(key); insert(key, v);` of one key, one for each of the values
given. -/
def eraseInsertCycles [Hasher K] [DecidableEq K] [Inhabited K] [Inhabited V] (key : K) :
    List V → Hash K V → Except Exn (Hash K V)
  | [], h => .ok h
  | v :: vs, h => do
    let r ← h.erase key
    let r ← r.1.insert key v
    eraseInsertCycles key vs r.1

/-- The number of OCCUPIED slots that hold `key`. -/
def copies [DecidableEq K] (h : Hash K V) (key : K) : Nat :=
  (h._vector._items.filter (fun s => decide (s.state = .OCCUPIED ∧ s.key = key))).length

end Hash

/-- The table after `Hash<int,int> h(3); h.clear();`. -/
def clearedOnce : Hash Int Int :=
  resultOf (Hash.new 3 : Hash Int Int).clear (Hash.new 3)

/-- The table reached from `table014` by `erase(1)`, `insert(2,12)` and `insert(3,13)`:
capacity 5, the keys 0, 2, 3, 4 and a TOMBSTONE at the slot 1; its size 4 is above
0.7 * 5, so that the next `insert` or indexed access rehashes. -/
def tableWithTomb : Hash Int Int :=
  resultOf (do
    let r ← table014.erase 1
    let r ← r.1.insert 2 12
    let r ← r.1.insert 3 13
    pure r.1) table014

/-- A run of the list update functions that links the record 1 into the lifecycle list
and into the lists of the customers `"B"` and `"A"`, and makes it the only record of the
list of the customer `"G"`. The records 0 to 4 are created first; the record 0 is the
first record of the lifecycle list, as in `main`. The results are the heap, the
lifecycle list `[0, 1, 4]` and the list of `"G"`. The directory of the record 1 then has
the keys `"delete"`, `"B"` and `"A"` in the slots 4, 0 and 3 of its five slots, which are
all the slots that the probes for `"G"` reach. -/
def aliasRun : Except Exn (Heap × LinkedList × LinkedList) := do
  let H : Heap := []
  let H := (H.alloc).1
  let H := (H.alloc).1
  let H := (H.alloc).1
  let H := (H.alloc).1
  let H := (H.alloc).1
  let D : LinkedList := { LinkedList.new with head := some 0, tail := some 0 }
  let r ← updateDeleteList H D (some 1)
  let b ← updateCustomerList r.1 "B" none (some 2) 0 LinkedList.new
  let b ← updateCustomerList b.1 "B" none (some 1) 0 b.2
  let a ← updateCustomerList b.1 "A" none (some 2) 0 LinkedList.new
  let a ← updateCustomerList a.1 "A" none (some 1) 0 a.2
  let r ← updateDeleteList a.1 r.2 (some 4)
  let g ← updateCustomerList r.1 "G" none (some 1) 0 LinkedList.new
  pure (g.1, r.2, g.2)

/-- The heap and the lists that `aliasRun` yields. -/
def aliasState : Heap × LinkedList × LinkedList :=
  resultOf aliasRun ([], LinkedList.new, LinkedList.new)

/-- The heap and the list of `"G"` after the call
`updateCustomerList("G", nullptr, 3, 0, &listG)` in the state `aliasState`. -/
def aliasAfter : Heap × LinkedList :=
  resultOf (updateCustomerList aliasState.1 "G" none (some 3) 0 aliasState.2.2)
    ([], LinkedList.new)

/-! # Theorems -/

/-! ## The load test in `float` arithmetic -/

theorem floatShift_spec : ∀ (fuel n : Nat), n ≤ fuel →
    n / 2 ^ floatShift fuel n < 2 ^ 24 ∧
      (floatShift fuel n = 0 ∨ 2 ^ 23 ≤ n / 2 ^ floatShift fuel n) := by
  intro fuel
  induction fuel with
  | zero =>
    intro n hn
    have : n = 0 := by omega
    subst this
    simp [floatShift]
  | succ fuel ih =>
    intro n hn
    unfold floatShift
    by_cases h : n < 2 ^ 24
    · rw [if_pos h]
      simp only [pow_zero, Nat.div_one, true_or, and_true]
      exact h
    · rw [if_neg h]
      have h2 : n / 2 ≤ fuel := by omega
      obtain ⟨h3, h4⟩ := ih (n / 2) h2
      have e : n / 2 ^ (floatShift fuel (n / 2) + 1) =
          n / 2 / 2 ^ floatShift fuel (n / 2) := by
        rw [pow_succ, Nat.mul_comm, Nat.div_div_eq_div_mul]
      rw [e]
      refine ⟨h3, Or.inr ?_⟩
      rcases h4 with h4 | h4
      · rw [h4]
        simp only [pow_zero, Nat.div_one]
        omega
      · exact h4

/-- The shape of `roundFloat n`: with `p = 2 ^ e` the unit in the last place, `n` lies
between two neighbouring multiples of `p` and is rounded to the nearer one. -/
theorem roundFloat_spec (n : Nat) :
    ∃ e q r, n = q * 2 ^ e + r ∧ r < 2 ^ e ∧ (e = 0 ∨ 2 ^ 23 * 2 ^ e ≤ q * 2 ^ e) ∧
      ((roundFloat n = q * 2 ^ e ∧ 2 * r ≤ 2 ^ e) ∨
        (roundFloat n = q * 2 ^ e + 2 ^ e ∧ 2 ^ e ≤ 2 * r)) := by
  obtain ⟨_, h2⟩ := floatShift_spec n n (le_refl n)
  refine ⟨floatShift n n, n / 2 ^ floatShift n n, n % 2 ^ floatShift n n, ?_, ?_, ?_, ?_⟩
  · rw [Nat.mul_comm]; exact (Nat.div_add_mod n _).symm
  · exact Nat.mod_lt _ (by positivity)
  · rcases h2 with h2 | h2
    · exact Or.inl h2
    · exact Or.inr (Nat.mul_le_mul_right _ h2)
  · unfold roundFloat
    simp only []
    split_ifs with hc
    · left
      refine ⟨rfl, ?_⟩
      rcases hc with hc | hc
      · omega
      · omega
    · right
      refine ⟨by rw [Nat.add_mul, Nat.one_mul], ?_⟩
      by_contra hlt
      exact hc (Or.inl (by omega))

/-- A number of less than 24 bits is a `float`. -/
theorem roundFloat_of_lt {n : Nat} (h : n < 2 ^ 24) : roundFloat n = n := by
  have e : floatShift n n = 0 := by
    cases n with
    | zero => rfl
    | succ k => unfold floatShift; rw [if_pos h]
  unfold roundFloat
  simp [e, Nat.mod_one]

/-- The conversion to `float` adds at most `2 ^ -24` of the number. -/
theorem roundFloat_le (n : Nat) : roundFloat n * 2 ^ 24 ≤ n * (2 ^ 24 + 1) := by
  obtain ⟨e, q, r, h1, h2, h3, h4⟩ := roundFloat_spec n
  generalize q * 2 ^ e = X at h1 h3 h4
  rcases h3 with h3 | h3
  · subst h3
    simp only [pow_zero] at h1 h2 h4
    rcases h4 with ⟨h4, _⟩ | ⟨h4, h5⟩
    · rw [h4]; omega
    · omega
  · generalize 2 ^ e = p at h1 h2 h3 h4
    rcases h4 with ⟨h4, h5⟩ | ⟨h4, h5⟩
    · rw [h4]; omega
    · rw [h4]; omega

/-- The conversion to `float` takes away at most `2 ^ -24` of the number. -/
theorem le_roundFloat (n : Nat) : n * (2 ^ 24 - 1) ≤ roundFloat n * 2 ^ 24 := by
  obtain ⟨e, q, r, h1, h2, h3, h4⟩ := roundFloat_spec n
  generalize q * 2 ^ e = X at h1 h3 h4
  rcases h3 with h3 | h3
  · subst h3
    simp only [pow_zero] at h1 h2 h4
    rcases h4 with ⟨h4, _⟩ | ⟨h4, h5⟩
    · rw [h4]; omega
    · omega
  · generalize 2 ^ e = p at h1 h2 h3 h4
    rcases h4 with ⟨h4, h5⟩ | ⟨h4, h5⟩
    · rw [h4]; omega
    · rw [h4]; omega

/-- Rounding does not pass a multiple of `2 ^ 24`: a number below `2 ^ 48` that is at
most `s * 2 ^ 24` is rounded to at most `s * 2 ^ 24`. -/
theorem roundFloat_le_of_le {m s : Nat} (hm : m < 2 ^ 48) (h : m ≤ s * 2 ^ 24) :
    roundFloat m ≤ s * 2 ^ 24 := by
  obtain ⟨e, q, r, h1, h2, h3, h4⟩ := roundFloat_spec m
  rcases h4 with ⟨h4, _⟩ | ⟨h4, h5⟩
  · rw [h4]
    have : q * 2 ^ e ≤ m := by omega
    omega
  · rw [h4]
    have he : e ≤ 24 := by
      rcases h3 with h3 | h3
      · omega
      · by_contra hgt
        have h25 : 2 ^ 25 ≤ 2 ^ e := Nat.pow_le_pow_right (by norm_num) (by omega)
        have : 2 ^ 23 * 2 ^ 25 ≤ 2 ^ 23 * 2 ^ e := Nat.mul_le_mul_left _ h25
        have h48 : (2 : Nat) ^ 23 * 2 ^ 25 = 2 ^ 48 := by norm_num
        omega
    obtain ⟨d, hd⟩ : ∃ d, 24 = e + d := ⟨24 - e, by omega⟩
    have hs : s * 2 ^ 24 = (s * 2 ^ d) * 2 ^ e := by
      rw [hd, pow_add]; ring
    rw [hs] at h ⊢
    have hpos : 0 < 2 ^ e := by positivity
    have hr : 0 < r := by omega
    have hq : q < s * 2 ^ d := by
      by_contra hge
      have : s * 2 ^ d * 2 ^ e ≤ q * 2 ^ e := Nat.mul_le_mul_right _ (by omega)
      omega
    have : (q + 1) * 2 ^ e ≤ s * 2 ^ d * 2 ^ e := Nat.mul_le_mul_right _ hq
    rw [Nat.add_mul, Nat.one_mul] at this
    exact this

/-- The load test fails while the size is below half the capacity. -/
theorem loadReached_of_half {size capacity : Nat} (h : 2 * size < capacity) :
    loadReached size capacity = false := by
  have h1 := roundFloat_le size
  have h2 := le_roundFloat capacity
  have h3 := le_roundFloat (roundFloat capacity * 11744051)
  unfold loadReached
  rw [decide_eq_false_iff_not]
  omega

/-- With less than `2 ^ 24` slots the load test does not fail later than the exact
comparison with `0.7 * capacity`. -/
theorem lt_of_loadReached_false {size capacity : Nat} (hc : capacity < 2 ^ 24)
    (hs : size < 2 ^ 24) (h0 : 0 < capacity) (h : loadReached size capacity = false) :
    10 * size < 7 * capacity := by
  by_contra hge
  have h1 : capacity * 11744051 ≤ size * 2 ^ 24 := by omega
  have h2 : capacity * 11744051 < 2 ^ 48 := by omega
  have h3 := roundFloat_le_of_le h2 h1
  unfold loadReached at h
  rw [roundFloat_of_lt hc, roundFloat_of_lt hs, decide_eq_false_iff_not] at h
  omega

/-- The capacity 2995973 is rehashed at the size 2097181, one entry before
`0.7 * capacity` is reached, and the capacity 23967487 is not rehashed at the size
16777241, so that the next entry makes the size at least `0.7 * capacity + 1`. -/
theorem loadReached_large :
    loadReached 2097181 2995973 = true ∧ ¬ (10 * 2097181 ≥ 7 * 2995973) ∧
    loadReached 16777241 23967487 = false ∧ ¬ (10 * (16777241 + 1) < 7 * 23967487 + 10) := by
  decide

/-! ## Primality test and next prime -/

theorem isPrimeLoop_true_iff (n : Nat) : ∀ (fuel i : Nat),
    isPrimeLoop n fuel i = true ↔
      ∀ j, j < fuel → (∀ j', j' ≤ j → (i + 6 * j') * (i + 6 * j') ≤ n) →
        n % (i + 6 * j) ≠ 0 ∧ n % (i + 6 * j + 2) ≠ 0 := by
  intro fuel
  induction fuel with
  | zero => intro i; simp [isPrimeLoop]
  | succ f ih =>
    intro i
    unfold isPrimeLoop
    by_cases h1 : i * i ≤ n
    · by_cases h2 : n % i = 0 ∨ n % (i + 2) = 0
      · simp only [h1, h2, if_true]
        constructor
        · intro h; cases h
        · intro h
          have := h 0 (Nat.succ_pos f) (by intro j' hj'; have : j' = 0 := by omega
                                           subst this; simpa using h1)
          simp at this
          rcases h2 with h2 | h2
          · exact absurd h2 this.1
          · exact absurd h2 this.2
      · simp only [h1, h2, if_true, if_false]
        rw [ih (i + 6)]
        constructor
        · intro h j hj hle
          cases j with
          | zero =>
            simp
            push_neg at h2
            exact h2
          | succ j =>
            have := h j (by omega) (by
              intro j' hj'
              have := hle (j' + 1) (by omega)
              have e : i + 6 * (j' + 1) = i + 6 + 6 * j' := by ring
              rw [e] at this; exact this)
            have e : i + 6 * (j + 1) = i + 6 + 6 * j := by ring
            rw [e]; exact this
        · intro h j hj hle
          have := h (j + 1) (by omega) (by
            intro j' hj'
            cases j' with
            | zero => simpa using h1
            | succ j' =>
              have := hle j' (by omega)
              have e : i + 6 * (j' + 1) = i + 6 + 6 * j' := by ring
              rw [e]; exact this)
          have e : i + 6 * (j + 1) = i + 6 + 6 * j := by ring
          rw [e] at this; exact this
    · simp only [h1, if_false]
      simp only [true_iff]
      intro j _ hle
      have := hle 0 (Nat.zero_le _)
      simp at this
      exact absurd this h1

theorem isPrime_iff (n : Nat) : isPrime n = true ↔ Nat.Prime n := by
  unfold isPrime
  by_cases h1 : n ≤ 1
  · simp only [h1, if_true]
    constructor
    · intro h; cases h
    · intro h; have := h.two_le; omega
  by_cases h3 : n ≤ 3
  · simp only [h1, h3, if_true, if_false, true_iff]
    have : n = 2 ∨ n = 3 := by omega
    rcases this with rfl | rfl
    · exact Nat.prime_two
    · exact Nat.prime_three
  by_cases h23 : n % 2 = 0 ∨ n % 3 = 0
  · simp only [h1, h3, h23, if_true, if_false]
    constructor
    · intro h; cases h
    · intro hp
      exfalso
      rcases h23 with h | h
      · have := (Nat.prime_dvd_prime_iff_eq Nat.prime_two hp).1 (Nat.dvd_of_mod_eq_zero h)
        omega
      · have := (Nat.prime_dvd_prime_iff_eq Nat.prime_three hp).1 (Nat.dvd_of_mod_eq_zero h)
        omega
  simp only [h1, h3, h23, if_false]
  rw [isPrimeLoop_true_iff]
  push_neg at h23
  constructor
  · intro h
    by_contra hnp
    have hq : (Nat.minFac n).Prime := Nat.minFac_prime (by omega)
    have hqd : Nat.minFac n ∣ n := Nat.minFac_dvd n
    have hqs : Nat.minFac n * Nat.minFac n ≤ n := by
      have := Nat.minFac_sq_le_self (n := n) (by omega) hnp
      rwa [sq] at this
    set q := Nat.minFac n with hqdef
    have hq2 : q % 2 ≠ 0 := by
      intro h2
      have : 2 ∣ n := Nat.dvd_trans (Nat.dvd_of_mod_eq_zero h2) hqd
      exact h23.1 (Nat.mod_eq_zero_of_dvd this)
    have hq3 : q % 3 ≠ 0 := by
      intro h2
      have : 3 ∣ n := Nat.dvd_trans (Nat.dvd_of_mod_eq_zero h2) hqd
      exact h23.2 (Nat.mod_eq_zero_of_dvd this)
    have hq5 : 5 ≤ q := by
      have := hq.two_le
      by_contra hlt
      have : q = 2 ∨ q = 3 ∨ q = 4 := by omega
      rcases this with e | e | e <;> rw [e] at hq2 hq3 <;> simp at hq2 hq3
    have hmod : q % 6 = 5 ∨ q % 6 = 1 := by omega
    rcases hmod with hm | hm
    · obtain ⟨j, hj⟩ : ∃ j, q = 5 + 6 * j := ⟨(q - 5) / 6, by omega⟩
      have hle : ∀ j', j' ≤ j → (5 + 6 * j') * (5 + 6 * j') ≤ n := by
        intro j' hj'
        have : 5 + 6 * j' ≤ q := by omega
        exact le_trans (Nat.mul_le_mul this this) hqs
      have hjn : j < n := by
        have := Nat.le_of_dvd (by omega) hqd
        omega
      have := (h j hjn hle).1
      rw [← hj] at this
      exact this (Nat.mod_eq_zero_of_dvd hqd)
    · obtain ⟨j, hj⟩ : ∃ j, q = 5 + 6 * j + 2 := ⟨(q - 7) / 6, by omega⟩
      have hle : ∀ j', j' ≤ j → (5 + 6 * j') * (5 + 6 * j') ≤ n := by
        intro j' hj'
        have : 5 + 6 * j' ≤ q := by omega
        exact le_trans (Nat.mul_le_mul this this) hqs
      have hjn : j < n := by
        have := Nat.le_of_dvd (by omega) hqd
        omega
      have := (h j hjn hle).2
      rw [← hj] at this
      exact this (Nat.mod_eq_zero_of_dvd hqd)
  · intro hp j _ hle
    have hsq := hle j (le_refl j)
    constructor
    · intro h0
      have hd : (5 + 6 * j) ∣ n := Nat.dvd_of_mod_eq_zero h0
      rcases (Nat.dvd_prime hp).1 hd with e | e
      · omega
      · rw [e] at hsq
        nlinarith
    · intro h0
      have hd : (5 + 6 * j + 2) ∣ n := Nat.dvd_of_mod_eq_zero h0
      rcases (Nat.dvd_prime hp).1 hd with e | e
      · omega
      · rw [← e] at hsq
        nlinarith

theorem findNextPrimeLoop_spec : ∀ (fuel p q : Nat), Nat.Prime q → p < q → q ≤ p + fuel →
    Nat.Prime (findNextPrimeLoop fuel p) ∧ p < findNextPrimeLoop fuel p ∧
      findNextPrimeLoop fuel p ≤ q ∧
      ∀ m, p < m → m < findNextPrimeLoop fuel p → ¬ Nat.Prime m := by
  intro fuel
  induction fuel with
  | zero => intro p q _ h1 h2; omega
  | succ f ih =>
    intro p q hq h1 h2
    unfold findNextPrimeLoop
    by_cases hp : isPrime (p + 1) = true
    · simp only [hp, if_true]
      refine ⟨(isPrime_iff _).1 hp, by omega, by omega, ?_⟩
      intro m hm1 hm2; omega
    · rw [if_neg hp]
      have hnp : ¬ Nat.Prime (p + 1) := fun h => hp ((isPrime_iff _).2 h)
      have hne : q ≠ p + 1 := by rintro rfl; exact hnp hq
      obtain ⟨a, b, c, d⟩ := ih (p + 1) q hq (by omega) (by omega)
      refine ⟨a, by omega, c, ?_⟩
      intro m hm1 hm2
      by_cases e : m = p + 1
      · rw [e]; exact hnp
      · exact d m (by omega) hm2

theorem findNextPrime_spec (n : Nat) :
    Nat.Prime (findNextPrime n) ∧ n < findNextPrime n ∧
      ∀ m, n < m → m < findNextPrime n → ¬ Nat.Prime m := by
  unfold findNextPrime
  by_cases h : n ≤ 1
  · simp only [h, if_true]
    refine ⟨Nat.prime_two, by omega, ?_⟩
    intro m h1 h2 hp
    have := hp.two_le
    omega
  · simp only [h, if_false]
    obtain ⟨q, hq, h1, h2⟩ := Nat.exists_prime_lt_and_le_two_mul n (by omega)
    obtain ⟨a, b, _, d⟩ := findNextPrimeLoop_spec n n q hq h1 (by omega)
    exact ⟨a, b, d⟩

/-! ## ArrayList: raw access -/

namespace ArrayList

variable {T : Type}

theorem index_of_getElem? {a : ArrayList T} {j : Nat} {x : T} (hx : a._items[j]? = some x) :
    a.index (j : Int) = .ok x := by
  have hj : j < a._items.length := (List.getElem?_eq_some_iff.1 hx).1
  unfold index getCapacity
  have : ¬ ((j : Int) < 0 ∨ (j : Int) ≥ (a._items.length : Int)) := by omega
  rw [if_neg this]
  simp [hx]

theorem modify_of_getElem? {a : ArrayList T} {j : Nat} {x : T} (f : T → T)
    (hx : a._items[j]? = some x) :
    a.modify (j : Int) f = .ok { a with _items := a._items.set j (f x) } := by
  have hj : j < a._items.length := (List.getElem?_eq_some_iff.1 hx).1
  unfold modify getCapacity
  have : ¬ ((j : Int) < 0 ∨ (j : Int) ≥ (a._items.length : Int)) := by omega
  rw [if_neg this]
  simp [hx]

end ArrayList

namespace Hash

variable {K V : Type}

theorem slot?_lt {h : Hash K V} {j : Nat} (hj : j < h.capacity) :
    ∃ s, h.slot? j = some s := by
  unfold slot?
  unfold capacity ArrayList.getCapacity at hj
  exact ⟨h._vector._items[j], List.getElem?_eq_getElem hj⟩

theorem lt_of_slot? {h : Hash K V} {j : Nat} {s : HashSlot K V} (hs : h.slot? j = some s) :
    j < h.capacity := by
  unfold slot? at hs
  exact (List.getElem?_eq_some_iff.1 hs).1

theorem stateAt_of_slot? {h : Hash K V} {j : Nat} {s : HashSlot K V}
    (hs : h.slot? j = some s) : h.stateAt j = s.state := by
  unfold stateAt; rw [hs]

theorem probe_lt [Hasher K] {cap : Nat} (hcap : 0 < cap) (key : K) (i : Nat) :
    probe cap key i < cap := Nat.mod_lt _ hcap

theorem probe_zero [Hasher K] (cap : Nat) (key : K) :
    probe cap key 0 = Hasher.hash key % cap := by
  unfold probe; simp

theorem Passed.succ [Hasher K] {h : Hash K V} {key : K} {i : Nat} (hp : h.Passed key i)
    {s : HashSlot K V} (hs : h.slot? (probe h.capacity key i) = some s)
    (h1 : s.state ≠ .EMPTY) (h2 : s.state = .OCCUPIED → s.key ≠ key) :
    h.Passed key (i + 1) := by
  intro i' hi'
  by_cases e : i' = i
  · subst e
    refine ⟨by rw [stateAt_of_slot? hs]; exact h1, ?_⟩
    intro s' hs' hocc
    rw [hs] at hs'
    cases hs'
    exact h2 hocc
  · exact hp i' (by omega)

/-- The loop of `findPos` returns a position described by `FindRes`. -/
theorem findPosLoop_spec [Hasher K] [DecidableEq K] (h : Hash K V) (key : K)
    (hcap : 0 < h.capacity) :
    ∀ (n i : Nat) (tomb : Option Nat), n + i = h.capacity → h.Passed key i →
      (∀ t, tomb = some t → ∃ i0, i0 < i ∧ probe h.capacity key i0 = t ∧
        h.stateAt t = .TOMBSTONE) →
      (tomb = none → ∀ i', i' < i → h.stateAt (probe h.capacity key i') = .OCCUPIED) →
      ∃ pos, findPosLoop h key n i tomb = .ok pos ∧ h.FindRes key pos := by
  intro n
  induction n with
  | zero =>
    intro i tomb hni hpass htomb hnone
    have hi : i = h.capacity := by omega
    subst hi
    cases tomb with
    | some t =>
      obtain ⟨i0, hi0, hpt, hst⟩ := htomb t rfl
      refine ⟨t, by simp [findPosLoop], ?_⟩
      have htlt : t < h.capacity := by rw [← hpt]; exact probe_lt hcap key i0
      obtain ⟨s, hs⟩ := slot?_lt htlt
      refine FindRes.free s hs ?_ h.capacity (le_refl _) hpass (Or.inl rfl) i0 hi0 hpt ?_
      · rw [stateAt_of_slot? hs] at hst; rw [hst]; decide
      · intro i' hi'; exact (hpass i' (by omega)).1
    | none =>
      refine ⟨probe h.capacity key 0, by simp [findPosLoop, probe_zero], ?_⟩
      obtain ⟨s, hs⟩ := slot?_lt (probe_lt hcap key 0)
      have hocc := hnone rfl 0 hcap
      rw [stateAt_of_slot? hs] at hocc
      exact FindRes.full s hs hocc ((hpass 0 hcap).2 s hs hocc) rfl hpass (hnone rfl)
  | succ n ih =>
    intro i tomb hni hpass htomb hnone
    have hilt : i < h.capacity := by omega
    obtain ⟨s, hs⟩ := slot?_lt (probe_lt hcap key i)
    have hidx : h._vector.index ((probe h.capacity key i : Nat) : Int) = .ok s :=
      ArrayList.index_of_getElem? hs
    unfold findPosLoop
    simp only [hidx, bind, Except.bind]
    by_cases hE : s.state = .EMPTY
    · simp only [hE, if_true, pure, Except.pure]
      cases tomb with
      | some t =>
        obtain ⟨i0, hi0, hpt, hst⟩ := htomb t rfl
        refine ⟨t, rfl, ?_⟩
        have htlt : t < h.capacity := by rw [← hpt]; exact probe_lt hcap key i0
        obtain ⟨s', hs'⟩ := slot?_lt htlt
        refine FindRes.free s' hs' ?_ i (by omega) hpass
          (Or.inr (by rw [stateAt_of_slot? hs]; exact hE)) i0 (by omega) hpt ?_
        · rw [stateAt_of_slot? hs'] at hst; rw [hst]; decide
        · intro i' hi'; exact (hpass i' (by omega)).1
      | none =>
        refine ⟨probe h.capacity key i, rfl, ?_⟩
        refine FindRes.free s hs (by rw [hE]; decide) i (by omega) hpass
          (Or.inr (by rw [stateAt_of_slot? hs]; exact hE)) i hilt rfl ?_
        intro i' hi'; exact (hpass i' hi').1
    · rw [if_neg hE]
      by_cases hT : s.state = .TOMBSTONE
      · rw [if_pos hT]
        have hpass' : h.Passed key (i + 1) :=
          hpass.succ hs hE (by intro h'; rw [hT] at h'; cases h')
        apply ih (i + 1) _ (by omega) hpass'
        · intro t ht
          cases tomb with
          | some t0 =>
            simp at ht
            subst ht
            obtain ⟨i0, hi0, hpt, hst⟩ := htomb t0 rfl
            exact ⟨i0, by omega, hpt, hst⟩
          | none =>
            simp at ht
            subst ht
            exact ⟨i, by omega, rfl, by rw [stateAt_of_slot? hs]; exact hT⟩
        · intro h'; cases h'
      · rw [if_neg hT]
        have hO : s.state = .OCCUPIED := by
          cases hst : s.state with
          | EMPTY => exact absurd hst hE
          | TOMBSTONE => exact absurd hst hT
          | OCCUPIED => rfl
        by_cases hk : s.key = key
        · rw [if_pos hk]
          exact ⟨probe h.capacity key i, rfl, FindRes.found s hs hO hk⟩
        · rw [if_neg hk]
          have hpass' : h.Passed key (i + 1) := hpass.succ hs hE (fun _ => hk)
          apply ih (i + 1) tomb (by omega) hpass'
          · intro t ht
            obtain ⟨i0, hi0, hpt, hst⟩ := htomb t ht
            exact ⟨i0, by omega, hpt, hst⟩
          · intro hn i' hi'
            by_cases e : i' = i
            · subst e; rw [stateAt_of_slot? hs]; exact hO
            · exact hnone hn i' (by omega)

/-- For a table of positive capacity `findPos` returns a position described by `FindRes`. -/
theorem findPos_spec [Hasher K] [DecidableEq K] (h : Hash K V) (key : K)
    (hcap : 0 < h.capacity) : ∃ pos, h.findPos key = .ok pos ∧ h.FindRes key pos := by
  unfold findPos
  rw [if_neg (by omega)]
  apply findPosLoop_spec h key hcap h.capacity 0 none (by omega)
  · intro i' hi'; omega
  · intro t ht; cases ht
  · intro _ i' hi'; omega

end Hash

namespace Hash

variable {K V : Type}

/-! ## Replacing one slot -/

@[simp] theorem capacity_setSlot (h : Hash K V) (pos : Nat) (s : HashSlot K V) (n : Nat) :
    (h.setSlot pos s n).capacity = h.capacity := by
  simp [setSlot, capacity, ArrayList.getCapacity]

@[simp] theorem size_setSlot (h : Hash K V) (pos : Nat) (s : HashSlot K V) (n : Nat) :
    (h.setSlot pos s n)._size = n := rfl

theorem slot?_setSlot_eq {h : Hash K V} {pos : Nat} (s : HashSlot K V) (n : Nat)
    (hpos : pos < h.capacity) : (h.setSlot pos s n).slot? pos = some s := by
  unfold capacity ArrayList.getCapacity at hpos
  simp [setSlot, slot?, List.getElem?_set, hpos]

theorem slot?_setSlot_ne {h : Hash K V} {pos j : Nat} (s : HashSlot K V) (n : Nat) (hj : j ≠ pos) :
    (h.setSlot pos s n).slot? j = h.slot? j := by
  simp [setSlot, slot?, List.getElem?_set, Ne.symm hj]

theorem stateAt_setSlot_eq {h : Hash K V} {pos : Nat} (s : HashSlot K V) (n : Nat)
    (hpos : pos < h.capacity) : (h.setSlot pos s n).stateAt pos = s.state :=
  stateAt_of_slot? (slot?_setSlot_eq s n hpos)

theorem stateAt_setSlot_ne {h : Hash K V} {pos j : Nat} (s : HashSlot K V) (n : Nat) (hj : j ≠ pos) :
    (h.setSlot pos s n).stateAt j = h.stateAt j := by
  unfold stateAt; rw [slot?_setSlot_ne s n hj]

theorem stateAt_setSlot_nonEmpty {h : Hash K V} {pos : Nat} (s : HashSlot K V) (n : Nat)
    (hs : s.state ≠ .EMPTY) (j : Nat) (hj : h.stateAt j ≠ .EMPTY) :
    (h.setSlot pos s n).stateAt j ≠ .EMPTY := by
  by_cases e : j = pos
  · subst e
    by_cases hlt : j < h.capacity
    · rw [stateAt_setSlot_eq s n hlt]; exact hs
    · exfalso; apply hj
      unfold stateAt slot?
      unfold capacity ArrayList.getCapacity at hlt
      rw [List.getElem?_eq_none (by omega)]
  · rw [stateAt_setSlot_ne s n e]; exact hj

theorem place_eq {h : Hash K V} {pos : Nat} {s : HashSlot K V} (hs : h.slot? pos = some s)
    (key : K) (value : V) :
    h.place pos key value =
      .ok (h.setSlot pos { key := key, value := value, state := .OCCUPIED } (h._size + 1)) := by
  have hlt : pos < h._vector._items.length := lt_of_slot? hs
  unfold place
  unfold slot? at hs
  rw [ArrayList.modify_of_getElem? _ hs]
  simp only [bind, Except.bind]
  rw [ArrayList.modify_of_getElem? (x := { s with key := key }) _
    (by simp [List.getElem?_set, hlt])]
  simp only []
  rw [ArrayList.modify_of_getElem? (x := { key := key, value := value, state := s.state }) _
    (by simp [List.getElem?_set, hlt])]
  simp [setSlot, pure, Except.pure]

theorem assign_eq {h : Hash K V} {pos : Nat} {s : HashSlot K V} (hs : h.slot? pos = some s)
    (f : V → V) : h.assign pos f = .ok (h.setSlot pos { s with value := f s.value } h._size) := by
  unfold assign
  unfold slot? at hs
  rw [ArrayList.modify_of_getElem? _ hs]
  rfl

theorem deref_eq {h : Hash K V} {pos : Nat} {s : HashSlot K V} (hs : h.slot? pos = some s) :
    h.deref pos = .ok s.value := by
  unfold deref
  unfold slot? at hs
  rw [ArrayList.index_of_getElem? hs]
  rfl

/-! ## Counting slots -/

theorem occupied_setSlot_add {h : Hash K V} {pos : Nat} (s : HashSlot K V) (n : Nat)
    (hpos : pos < h.capacity) (hold : h.stateAt pos ≠ .OCCUPIED) (hnew : s.state = .OCCUPIED) :
    (h.setSlot pos s n).occupied = h.occupied + 1 := by
  unfold occupied
  rw [capacity_setSlot]
  have : (Finset.range h.capacity).filter (fun j => (h.setSlot pos s n).stateAt j = .OCCUPIED)
      = Insert.insert pos ((Finset.range h.capacity).filter (fun j => h.stateAt j = .OCCUPIED)) := by
    ext j
    simp only [Finset.mem_filter, Finset.mem_range, Finset.mem_insert]
    by_cases e : j = pos
    · subst e; simp [stateAt_setSlot_eq s n hpos, hnew, hpos]
    · simp [stateAt_setSlot_ne s n e, e]
  rw [this, Finset.card_insert_of_not_mem]
  simp [hold]

theorem occupied_setSlot_sub {h : Hash K V} {pos : Nat} (s : HashSlot K V) (n : Nat)
    (hpos : pos < h.capacity) (hold : h.stateAt pos = .OCCUPIED) (hnew : s.state ≠ .OCCUPIED) :
    (h.setSlot pos s n).occupied + 1 = h.occupied := by
  unfold occupied
  rw [capacity_setSlot]
  have : (Finset.range h.capacity).filter (fun j => (h.setSlot pos s n).stateAt j = .OCCUPIED)
      = ((Finset.range h.capacity).filter (fun j => h.stateAt j = .OCCUPIED)).erase pos := by
    ext j
    simp only [Finset.mem_filter, Finset.mem_range, Finset.mem_erase]
    by_cases e : j = pos
    · subst e; simp [stateAt_setSlot_eq s n hpos, hnew]
    · simp [stateAt_setSlot_ne s n e, e]
  rw [this, Finset.card_erase_of_mem (by simp [hold, hpos])]
  have : 0 < ((Finset.range h.capacity).filter (fun j => h.stateAt j = .OCCUPIED)).card :=
    Finset.card_pos.2 ⟨pos, by simp [hold, hpos]⟩
  omega

theorem occupied_setSlot_same {h : Hash K V} {pos : Nat} (s : HashSlot K V) (n : Nat)
    (hsame : pos < h.capacity → h.stateAt pos = s.state) :
    (h.setSlot pos s n).occupied = h.occupied := by
  unfold occupied
  rw [capacity_setSlot]
  congr 1
  ext j
  simp only [Finset.mem_filter, Finset.mem_range]
  by_cases e : j = pos
  · subst e
    constructor
    · rintro ⟨hlt, hst⟩; rw [stateAt_setSlot_eq s n hlt] at hst; exact ⟨hlt, by rw [hsame hlt]; exact hst⟩
    · rintro ⟨hlt, hst⟩; exact ⟨hlt, by rw [stateAt_setSlot_eq s n hlt, ← hsame hlt]; exact hst⟩
  · rw [stateAt_setSlot_ne s n e]

theorem occupied_le_capacity (h : Hash K V) : h.occupied ≤ h.capacity := by
  unfold occupied
  calc _ ≤ (Finset.range h.capacity).card := Finset.card_filter_le _ _
    _ = h.capacity := Finset.card_range _

/-! ## The value held for a key -/

theorem Holds.lookup [Hasher K] [DecidableEq K] {h : Hash K V} (hinv : h.Inv) {key : K}
    {value : V} (hh : h.Holds key value) : h.lookup key = some value := by
  obtain ⟨j, s, hs, hocc, hk, hv⟩ := hh
  unfold Hash.lookup
  have hmem : s ∈ h._vector._items := List.getElem?_mem hs
  cases hf : h._vector._items.find? (fun s => decide (s.state = .OCCUPIED ∧ s.key = key)) with
  | none =>
    have := List.find?_eq_none.1 hf s hmem
    simp [hocc, hk] at this
  | some s' =>
    have hp := List.find?_some hf
    have hmem' := List.mem_of_find?_eq_some hf
    obtain ⟨j', hj'⟩ := List.mem_iff_getElem?.1 hmem'
    simp only [decide_eq_true_eq] at hp
    have := hinv.unique j' j s' s hj' hs hp.1 hocc (by rw [hp.2, hk])
    subst this
    have hj'' : h.slot? j' = some s' := hj'
    rw [hs] at hj''
    cases hj''
    simp [hv]

theorem lookup_some [DecidableEq K] {h : Hash K V} {key : K} {value : V}
    (hl : h.lookup key = some value) : h.Holds key value := by
  unfold Hash.lookup at hl
  cases hf : h._vector._items.find? (fun s => decide (s.state = .OCCUPIED ∧ s.key = key)) with
  | none => rw [hf] at hl; cases hl
  | some s' =>
    rw [hf] at hl
    simp only [Option.map_some'] at hl
    have hp := List.find?_some hf
    have hmem' := List.mem_of_find?_eq_some hf
    obtain ⟨j', hj'⟩ := List.mem_iff_getElem?.1 hmem'
    simp only [decide_eq_true_eq] at hp
    exact ⟨j', s', hj', hp.1, hp.2, Option.some.inj hl⟩

theorem lookup_iff [Hasher K] [DecidableEq K] {h : Hash K V} (hinv : h.Inv) (key : K)
    (value : V) : h.lookup key = some value ↔ h.Holds key value :=
  ⟨lookup_some, fun hh => hh.lookup hinv⟩

theorem lookup_none_iff [DecidableEq K] (h : Hash K V) (key : K) :
    h.lookup key = none ↔ h.Absent key := by
  unfold Hash.lookup Absent
  rw [Option.map_eq_none', List.find?_eq_none]
  constructor
  · intro hn j s hs hocc hk
    have := hn s (List.getElem?_mem hs)
    simp [hocc, hk] at this
  · intro ha s hmem
    obtain ⟨j, hj⟩ := List.mem_iff_getElem?.1 hmem
    simp only [decide_eq_true_eq, not_and]
    intro hocc
    exact ha j s hj hocc

/-- Two tables that hold the same values have the same `lookup`. -/
theorem lookup_congr [Hasher K] [DecidableEq K] {h h' : Hash K V} (hinv : h.Inv)
    (hinv' : h'.Inv) (key : K) (hh : ∀ v, h'.Holds key v ↔ h.Holds key v) :
    h'.lookup key = h.lookup key := by
  cases hl : h.lookup key with
  | none =>
    cases hl' : h'.lookup key with
    | none => rfl
    | some v =>
      have := ((hh v).1 (lookup_some hl')).lookup hinv
      rw [hl] at this; cases this
  | some v =>
    exact ((hh v).2 (lookup_some hl)).lookup hinv'

end Hash

namespace Hash

variable {K V : Type}

/-! ## Consequences of the invariant for `findPos` -/

theorem Passed.absent_key [Hasher K] {h : Hash K V} (hinv : h.Inv) {key : K} {e : Nat}
    (hp : h.Passed key e)
    (stop : e = h.capacity ∨ h.stateAt (probe h.capacity key e) = .EMPTY) :
    h.Absent key := by
  intro j s hs hocc hk
  obtain ⟨i, hi, hpi, hpre⟩ := hinv.chain j s hs hocc
  rw [hk] at hpi hpre
  by_cases hlt : i < e
  · have := (hp i hlt).2 s (by rw [hpi]; exact hs) hocc
    exact this hk
  · rcases stop with h1 | h1
    · omega
    · by_cases hee : e = i
      · subst hee
        rw [hpi, stateAt_of_slot? hs, hocc] at h1
        cases h1
      · exact hpre e (by omega) h1

theorem FindRes.absent_of_not_found [Hasher K] {h : Hash K V} (hinv : h.Inv) {key : K} {pos : Nat}
    (hr : h.FindRes key pos) (hno : ∀ s, h.slot? pos = some s → s.state = .OCCUPIED →
      s.key ≠ key) : h.Absent key := by
  cases hr with
  | found s hs occ hk => exact absurd hk (hno s hs occ)
  | free s hs nocc e he passed stop i0 hi0 hp pre => exact passed.absent_key hinv stop
  | full s hs occ hk hpos all allocc => exact all.absent_key hinv (Or.inl rfl)

/-- A key held by the table is found by `findPos` at its slot. -/
theorem findPos_of_slot [Hasher K] [DecidableEq K] {h : Hash K V} (hinv : h.Inv) {j : Nat}
    {s : HashSlot K V} (hs : h.slot? j = some s) (hocc : s.state = .OCCUPIED) :
    h.findPos s.key = .ok j := by
  have hcap : 0 < h.capacity := Nat.lt_of_le_of_lt (Nat.zero_le _) (lt_of_slot? hs)
  obtain ⟨pos, hpos, hr⟩ := findPos_spec h s.key hcap
  rw [hpos]
  by_cases hno : ∀ s', h.slot? pos = some s' → s'.state = .OCCUPIED → s'.key ≠ s.key
  · exact absurd rfl (hr.absent_of_not_found hinv hno j s hs hocc)
  · push_neg at hno
    obtain ⟨s', hs', hocc', hk'⟩ := hno
    rw [hinv.unique pos j s' s hs' hs hocc' hocc hk']

/-- For a key that the table does not hold, `findPos` returns a slot that is not
OCCUPIED when there is `Room`, and the home slot, OCCUPIED by another key, otherwise. -/
theorem findPos_of_absent [Hasher K] [DecidableEq K] {h : Hash K V} {key : K}
    (hcap : 0 < h.capacity) (ha : h.Absent key) :
    ∃ pos s, h.findPos key = .ok pos ∧ h.slot? pos = some s ∧
      ((h.Room key ∧ s.state ≠ .OCCUPIED ∧
          ∃ i0, i0 < h.capacity ∧ probe h.capacity key i0 = pos ∧
            ∀ i', i' < i0 → h.stateAt (probe h.capacity key i') ≠ .EMPTY) ∨
        (¬ h.Room key ∧ s.state = .OCCUPIED ∧ s.key ≠ key)) := by
  obtain ⟨pos, hpos, hr⟩ := findPos_spec h key hcap
  cases hr with
  | found s hs occ hk => exact absurd hk (ha pos s hs occ)
  | free s hs nocc e he passed stop i0 hi0 hp pre =>
    refine ⟨pos, s, hpos, hs, Or.inl ⟨⟨i0, hi0, ?_⟩, nocc, i0, hi0, hp, pre⟩⟩
    rw [hp, stateAt_of_slot? hs]; exact nocc
  | full s hs occ hk hpos' all allocc =>
    refine ⟨pos, s, hpos, hs, Or.inr ⟨?_, occ, hk⟩⟩
    rintro ⟨i, hi, hne⟩
    exact hne (allocc i hi)

/-! ## Preservation of the invariant -/

/-- Writing a new key into a slot that `findPos` offered keeps the invariant. -/
theorem Inv.insertSlot [Hasher K] {h : Hash K V} (hinv : h.Inv) {key : K} (value : V)
    {pos : Nat} (ha : h.Absent key) (hpos : pos < h.capacity)
    (hold : h.stateAt pos ≠ .OCCUPIED)
    (hchain : ∃ i0, i0 < h.capacity ∧ probe h.capacity key i0 = pos ∧
      ∀ i', i' < i0 → h.stateAt (probe h.capacity key i') ≠ .EMPTY) :
    (h.setSlot pos { key := key, value := value, state := .OCCUPIED } (h._size + 1)).Inv := by
  have hne : ({ key := key, value := value, state := .OCCUPIED } : HashSlot K V).state
      ≠ .EMPTY := by simp
  refine ⟨?_, ?_, ?_⟩
  · rw [size_setSlot, occupied_setSlot_add _ _ hpos hold rfl, hinv.size_eq]
  · intro j s hs hocc
    rw [capacity_setSlot]
    by_cases e : j = pos
    · subst e
      rw [slot?_setSlot_eq _ _ hpos] at hs
      cases hs
      obtain ⟨i0, hi0, hp, hpre⟩ := hchain
      exact ⟨i0, hi0, hp, fun i' hi' => stateAt_setSlot_nonEmpty _ _ hne _ (hpre i' hi')⟩
    · rw [slot?_setSlot_ne _ _ e] at hs
      obtain ⟨i, hi, hp, hpre⟩ := hinv.chain j s hs hocc
      exact ⟨i, hi, hp, fun i' hi' => stateAt_setSlot_nonEmpty _ _ hne _ (hpre i' hi')⟩
  · intro j1 j2 s1 s2 hs1 hs2 ho1 ho2 hk
    by_cases e1 : j1 = pos
    · by_cases e2 : j2 = pos
      · rw [e1, e2]
      · subst e1
        rw [slot?_setSlot_eq _ _ hpos] at hs1
        rw [slot?_setSlot_ne _ _ e2] at hs2
        cases hs1
        exact absurd hk.symm (ha j2 s2 hs2 ho2)
    · by_cases e2 : j2 = pos
      · subst e2
        rw [slot?_setSlot_eq _ _ hpos] at hs2
        rw [slot?_setSlot_ne _ _ e1] at hs1
        cases hs2
        exact absurd hk (ha j1 s1 hs1 ho1)
      · rw [slot?_setSlot_ne _ _ e1] at hs1
        rw [slot?_setSlot_ne _ _ e2] at hs2
        exact hinv.unique j1 j2 s1 s2 hs1 hs2 ho1 ho2 hk

/-- Turning an OCCUPIED slot into a TOMBSTONE keeps the invariant. -/
theorem Inv.eraseSlot [Hasher K] {h : Hash K V} (hinv : h.Inv) {pos : Nat}
    {s : HashSlot K V} (hs : h.slot? pos = some s) (hocc : s.state = .OCCUPIED) :
    (h.setSlot pos { s with state := .TOMBSTONE } (h._size - 1)).Inv := by
  have hpos := lt_of_slot? hs
  have hne : ({ s with state := .TOMBSTONE } : HashSlot K V).state ≠ .EMPTY := by simp
  refine ⟨?_, ?_, ?_⟩
  · have := occupied_setSlot_sub { s with state := .TOMBSTONE } (h._size - 1) hpos
      (by rw [stateAt_of_slot? hs]; exact hocc) (by simp)
    rw [size_setSlot]
    rw [hinv.size_eq] at this ⊢
    omega
  · intro j s' hs' hocc'
    rw [capacity_setSlot]
    by_cases e : j = pos
    · subst e
      rw [slot?_setSlot_eq _ _ hpos] at hs'
      cases hs'
      cases hocc'
    · rw [slot?_setSlot_ne _ _ e] at hs'
      obtain ⟨i, hi, hp, hpre⟩ := hinv.chain j s' hs' hocc'
      exact ⟨i, hi, hp, fun i' hi' => stateAt_setSlot_nonEmpty _ _ hne _ (hpre i' hi')⟩
  · intro j1 j2 s1 s2 hs1 hs2 ho1 ho2 hk
    have e1 : j1 ≠ pos := by
      rintro rfl
      rw [slot?_setSlot_eq _ _ hpos] at hs1
      cases hs1; cases ho1
    have e2 : j2 ≠ pos := by
      rintro rfl
      rw [slot?_setSlot_eq _ _ hpos] at hs2
      cases hs2; cases ho2
    rw [slot?_setSlot_ne _ _ e1] at hs1
    rw [slot?_setSlot_ne _ _ e2] at hs2
    exact hinv.unique j1 j2 s1 s2 hs1 hs2 ho1 ho2 hk

/-- Changing the value of a slot keeps the invariant. -/
theorem Inv.assignSlot [Hasher K] {h : Hash K V} (hinv : h.Inv) {pos : Nat}
    {s : HashSlot K V} (hs : h.slot? pos = some s) (value : V) :
    (h.setSlot pos { s with value := value } h._size).Inv := by
  have hpos := lt_of_slot? hs
  have hst : ∀ j, (h.setSlot pos { s with value := value } h._size).stateAt j
      = h.stateAt j := by
    intro j
    by_cases e : j = pos
    · subst e; rw [stateAt_setSlot_eq _ _ hpos, stateAt_of_slot? hs]
    · rw [stateAt_setSlot_ne _ _ e]
  refine ⟨?_, ?_, ?_⟩
  · rw [size_setSlot, occupied_setSlot_same _ _ (fun _ => by rw [stateAt_of_slot? hs]),
      hinv.size_eq]
  · intro j s' hs' hocc'
    rw [capacity_setSlot]
    by_cases e : j = pos
    · subst e
      rw [slot?_setSlot_eq _ _ hpos] at hs'
      cases hs'
      obtain ⟨i, hi, hp, hpre⟩ := hinv.chain j s hs hocc'
      exact ⟨i, hi, hp, fun i' hi' => by rw [hst]; exact hpre i' hi'⟩
    · rw [slot?_setSlot_ne _ _ e] at hs'
      obtain ⟨i, hi, hp, hpre⟩ := hinv.chain j s' hs' hocc'
      exact ⟨i, hi, hp, fun i' hi' => by rw [hst]; exact hpre i' hi'⟩
  · intro j1 j2 s1 s2 hs1 hs2 ho1 ho2 hk
    have key1 : ∃ t1, h.slot? j1 = some t1 ∧ t1.state = s1.state ∧ t1.key = s1.key := by
      by_cases e : j1 = pos
      · subst e
        rw [slot?_setSlot_eq _ _ hpos] at hs1
        cases hs1
        exact ⟨s, hs, rfl, rfl⟩
      · rw [slot?_setSlot_ne _ _ e] at hs1
        exact ⟨s1, hs1, rfl, rfl⟩
    have key2 : ∃ t2, h.slot? j2 = some t2 ∧ t2.state = s2.state ∧ t2.key = s2.key := by
      by_cases e : j2 = pos
      · subst e
        rw [slot?_setSlot_eq _ _ hpos] at hs2
        cases hs2
        exact ⟨s, hs, rfl, rfl⟩
      · rw [slot?_setSlot_ne _ _ e] at hs2
        exact ⟨s2, hs2, rfl, rfl⟩
    obtain ⟨t1, ht1, hst1, hk1⟩ := key1
    obtain ⟨t2, ht2, hst2, hk2⟩ := key2
    exact hinv.unique j1 j2 t1 t2 ht1 ht2 (by rw [hst1]; exact ho1) (by rw [hst2]; exact ho2)
      (by rw [hk1, hk2]; exact hk)

/-! ## The values held after a slot is replaced -/

theorem holds_insertSlot {h : Hash K V} {key : K} (value : V) {pos : Nat} (n : Nat)
    (hpos : pos < h.capacity) (hold : h.stateAt pos ≠ .OCCUPIED) (k : K) (v : V) :
    (h.setSlot pos { key := key, value := value, state := .OCCUPIED } n).Holds k v ↔
      (k = key ∧ v = value) ∨ h.Holds k v := by
  constructor
  · rintro ⟨j, s, hs, hocc, hk, hv⟩
    by_cases e : j = pos
    · subst e
      rw [slot?_setSlot_eq _ _ hpos] at hs
      cases hs
      exact Or.inl ⟨hk.symm, hv.symm⟩
    · rw [slot?_setSlot_ne _ _ e] at hs
      exact Or.inr ⟨j, s, hs, hocc, hk, hv⟩
  · rintro (⟨hk, hv⟩ | ⟨j, s, hs, hocc, hk, hv⟩)
    · exact ⟨pos, _, slot?_setSlot_eq _ _ hpos, rfl, hk.symm, hv.symm⟩
    · have e : j ≠ pos := by
        rintro rfl
        rw [stateAt_of_slot? hs] at hold
        exact hold hocc
      exact ⟨j, s, by rw [slot?_setSlot_ne _ _ e]; exact hs, hocc, hk, hv⟩

theorem holds_eraseSlot [Hasher K] {h : Hash K V} (hinv : h.Inv) {pos : Nat}
    {s : HashSlot K V} (n : Nat) (hs : h.slot? pos = some s) (hocc : s.state = .OCCUPIED)
    (k : K) (v : V) :
    (h.setSlot pos { s with state := .TOMBSTONE } n).Holds k v ↔
      k ≠ s.key ∧ h.Holds k v := by
  have hpos := lt_of_slot? hs
  constructor
  · rintro ⟨j, s', hs', hocc', hk, hv⟩
    have e : j ≠ pos := by
      rintro rfl
      rw [slot?_setSlot_eq _ _ hpos] at hs'
      cases hs'; cases hocc'
    rw [slot?_setSlot_ne _ _ e] at hs'
    refine ⟨?_, j, s', hs', hocc', hk, hv⟩
    intro hks
    exact e (hinv.unique j pos s' s hs' hs hocc' hocc (by rw [hk, hks]))
  · rintro ⟨hne, j, s', hs', hocc', hk, hv⟩
    have e : j ≠ pos := by
      rintro rfl
      rw [hs] at hs'
      cases hs'
      exact hne hk.symm
    exact ⟨j, s', by rw [slot?_setSlot_ne _ _ e]; exact hs', hocc', hk, hv⟩

theorem holds_assignSlot [Hasher K] {h : Hash K V} (hinv : h.Inv) {pos : Nat}
    {s : HashSlot K V} (n : Nat) (hs : h.slot? pos = some s) (hocc : s.state = .OCCUPIED)
    (value : V) (k : K) (v : V) :
    (h.setSlot pos { s with value := value } n).Holds k v ↔
      (k = s.key ∧ v = value) ∨ (k ≠ s.key ∧ h.Holds k v) := by
  have hpos := lt_of_slot? hs
  constructor
  · rintro ⟨j, s', hs', hocc', hk, hv⟩
    by_cases e : j = pos
    · subst e
      rw [slot?_setSlot_eq _ _ hpos] at hs'
      cases hs'
      exact Or.inl ⟨hk.symm, hv.symm⟩
    · rw [slot?_setSlot_ne _ _ e] at hs'
      refine Or.inr ⟨?_, j, s', hs', hocc', hk, hv⟩
      intro hks
      exact e (hinv.unique j pos s' s hs' hs hocc' hocc (by rw [hk, hks]))
  · rintro (⟨hk, hv⟩ | ⟨hne, j, s', hs', hocc', hk, hv⟩)
    · exact ⟨pos, _, slot?_setSlot_eq _ _ hpos, hocc, hk.symm, hv.symm⟩
    · have e : j ≠ pos := by
        rintro rfl
        rw [hs] at hs'
        cases hs'
        exact hne hk.symm
      exact ⟨j, s', by rw [slot?_setSlot_ne _ _ e]; exact hs', hocc', hk, hv⟩

end Hash

namespace Hash

variable {K V : Type}

/-! ## `insert`, `operator[]` and `erase` on a table that is not rehashed -/

theorem insertAux_eq [Hasher K] [DecidableEq K] (r : Hash K V → Except Exn (Hash K V))
    (h : Hash K V) (key : K) (value : V) :
    insertAux r h key value =
      (if h.needsRehash then r h else .ok h) >>= fun h1 => insertAux .ok h1 key value := by
  unfold insertAux
  by_cases hn : h.needsRehash = true
  · simp only [hn, if_true]
    cases hr : r h with
    | error e => rfl
    | ok h1 =>
      simp only [bind, Except.bind]
      by_cases hn1 : h1.needsRehash = true
      · simp [hn1]
      · simp [hn1, pure, Except.pure]
  · simp [hn, pure, Except.pure, bind, Except.bind]

theorem indexAux_eq [Hasher K] [DecidableEq K] [Inhabited V]
    (r : Hash K V → Except Exn (Hash K V)) (h : Hash K V) (key : K) :
    indexAux r h key =
      (if h.needsRehash then r h else .ok h) >>= fun h1 => indexAux .ok h1 key := by
  unfold indexAux
  by_cases hn : h.needsRehash = true
  · simp only [hn, if_true]
    cases hr : r h with
    | error e => rfl
    | ok h1 =>
      simp only [bind, Except.bind]
      by_cases hn1 : h1.needsRehash = true
      · simp [hn1]
      · simp [hn1, pure, Except.pure]
  · simp [hn, pure, Except.pure, bind, Except.bind]

/-- The body of `insert` after the rehash test, at a key the table holds. -/
theorem insertCore_present [Hasher K] [DecidableEq K] {h : Hash K V} (hinv : h.Inv)
    {key : K} {w : V} (hh : h.Holds key w) (value : V) :
    insertAux .ok h key value = .ok (h, false) := by
  obtain ⟨j, s, hs, hocc, hk, _⟩ := hh
  have hf := findPos_of_slot hinv hs hocc
  rw [hk] at hf
  have hidx : h._vector.index (j : Int) = .ok s := ArrayList.index_of_getElem? hs
  unfold insertAux
  simp [hf, hidx, hocc, bind, Except.bind, pure, Except.pure]

/-- The body of `insert` after the rehash test, at a key the table does not hold. -/
theorem insertCore_absent [Hasher K] [DecidableEq K] {h : Hash K V} (hinv : h.Inv)
    {key : K} (hcap : 0 < h.capacity) (ha : h.Absent key) (value : V) :
    (h.Room key ∧ ∃ pos, pos < h.capacity ∧ h.stateAt pos ≠ .OCCUPIED ∧
        insertAux .ok h key value =
          .ok (h.setSlot pos { key := key, value := value, state := .OCCUPIED }
            (h._size + 1), true) ∧
        (h.setSlot pos { key := key, value := value, state := .OCCUPIED }
            (h._size + 1)).Inv) ∨
      (¬ h.Room key ∧ insertAux .ok h key value = .ok (h, false)) := by
  obtain ⟨pos, s, hf, hs, hcase⟩ := findPos_of_absent hcap ha
  have hidx : h._vector.index (pos : Int) = .ok s := ArrayList.index_of_getElem? hs
  rcases hcase with ⟨hroom, hnocc, hchain⟩ | ⟨hroom, hocc, _⟩
  · left
    have hst : h.stateAt pos ≠ .OCCUPIED := by rw [stateAt_of_slot? hs]; exact hnocc
    refine ⟨hroom, pos, lt_of_slot? hs, hst, ?_, hinv.insertSlot value ha (lt_of_slot? hs) hst hchain⟩
    unfold insertAux
    simp [hf, hidx, hnocc, bind, Except.bind, pure, Except.pure, place_eq hs]
  · right
    refine ⟨hroom, ?_⟩
    unfold insertAux
    simp [hf, hidx, hocc, bind, Except.bind, pure, Except.pure]

theorem vivify_eq {h : Hash K V} [Inhabited V] {pos : Nat} {s : HashSlot K V}
    (hs : h.slot? pos = some s) (key : K) :
    (do
      let v1 ← h._vector.modify pos (fun s => { s with key := key })
      let v2 ← v1.modify pos (fun s => { s with state := .OCCUPIED })
      let v3 ← v2.modify pos (fun s => { s with value := default })
      (pure ({ _vector := v3, _size := h._size + 1 }, pos) : Except Exn (Hash K V × Nat))) =
      .ok (h.setSlot pos { key := key, value := default, state := .OCCUPIED } (h._size + 1),
        pos) := by
  have hlt : pos < h._vector._items.length := lt_of_slot? hs
  unfold slot? at hs
  rw [ArrayList.modify_of_getElem? _ hs]
  simp only [bind, Except.bind]
  rw [ArrayList.modify_of_getElem? (x := { s with key := key }) _
    (by simp [List.getElem?_set, hlt])]
  simp only []
  rw [ArrayList.modify_of_getElem? (x := { key := key, value := s.value, state := .OCCUPIED }) _
    (by simp [List.getElem?_set, hlt])]
  simp [setSlot, pure, Except.pure]

/-- The body of `operator[]` after the rehash test, at a key the table holds: the
reference is to the slot of the key. -/
theorem indexCore_present [Hasher K] [DecidableEq K] [Inhabited V] {h : Hash K V}
    (hinv : h.Inv) {key : K} {w : V} (hh : h.Holds key w) :
    ∃ pos, indexAux .ok h key = .ok (h, pos) ∧
      h.slot? pos = some { key := key, value := w, state := .OCCUPIED } := by
  obtain ⟨j, s, hs, hocc, hk, hv⟩ := hh
  have hf := findPos_of_slot hinv hs hocc
  rw [hk] at hf
  have hidx : h._vector.index (j : Int) = .ok s := ArrayList.index_of_getElem? hs
  refine ⟨j, ?_, ?_⟩
  · unfold indexAux
    simp [hf, hidx, hocc, bind, Except.bind, pure, Except.pure]
  · rw [hs]; cases s; simp_all

/-- The body of `operator[]` after the rehash test, at a key the table does not hold:
with `Room` an entry with the default value is created, without it the reference is
to the slot of another key and the table is unchanged. -/
theorem indexCore_absent [Hasher K] [DecidableEq K] [Inhabited V] {h : Hash K V}
    (hinv : h.Inv) {key : K} (hcap : 0 < h.capacity) (ha : h.Absent key) :
    (h.Room key ∧ ∃ pos, pos < h.capacity ∧ h.stateAt pos ≠ .OCCUPIED ∧
        indexAux .ok h key =
          .ok (h.setSlot pos { key := key, value := default, state := .OCCUPIED }
            (h._size + 1), pos) ∧
        (h.setSlot pos { key := key, value := default, state := .OCCUPIED }
            (h._size + 1)).Inv) ∨
      (¬ h.Room key ∧ ∃ pos s, indexAux .ok h key = .ok (h, pos) ∧ h.slot? pos = some s ∧
        s.state = .OCCUPIED ∧ s.key ≠ key) := by
  obtain ⟨pos, s, hf, hs, hcase⟩ := findPos_of_absent hcap ha
  have hidx : h._vector.index (pos : Int) = .ok s := ArrayList.index_of_getElem? hs
  rcases hcase with ⟨hroom, hnocc, hchain⟩ | ⟨hroom, hocc, hk⟩
  · left
    have hst : h.stateAt pos ≠ .OCCUPIED := by rw [stateAt_of_slot? hs]; exact hnocc
    refine ⟨hroom, pos, lt_of_slot? hs, hst, ?_,
      hinv.insertSlot default ha (lt_of_slot? hs) hst hchain⟩
    unfold indexAux
    have := vivify_eq hs key
    simp only [bind, Except.bind, pure, Except.pure] at this
    simp [hf, hidx, hnocc, bind, Except.bind, pure, Except.pure, this]
  · right
    refine ⟨hroom, pos, s, ?_, hs, hocc, hk⟩
    unfold indexAux
    simp [hf, hidx, hocc, bind, Except.bind, pure, Except.pure]

/-- The method `erase` at a key the table holds. -/
theorem erase_present [Hasher K] [DecidableEq K] {h : Hash K V} (hinv : h.Inv)
    {key : K} {w : V} (hh : h.Holds key w) :
    ∃ pos s, h.slot? pos = some s ∧ s.state = .OCCUPIED ∧ s.key = key ∧
      h.erase key = .ok (h.setSlot pos { s with state := .TOMBSTONE } (h._size - 1), true) := by
  obtain ⟨j, s, hs, hocc, hk, hv⟩ := hh
  have hf := findPos_of_slot hinv hs hocc
  rw [hk] at hf
  have hidx : h._vector.index (j : Int) = .ok s := ArrayList.index_of_getElem? hs
  have hpos : 0 < h.occupied := by
    unfold occupied
    exact Finset.card_pos.2 ⟨j, by simp [lt_of_slot? hs, stateAt_of_slot? hs, hocc]⟩
  have hne : h.empty = false := by
    unfold Hash.empty
    rw [hinv.size_eq]
    simp; omega
  refine ⟨j, s, hs, hocc, hk, ?_⟩
  unfold erase
  unfold slot? at hs
  simp [hne, hf, hidx, hocc, bind, Except.bind, pure, Except.pure,
    ArrayList.modify_of_getElem? _ hs, setSlot]

theorem FindRes.slot [Hasher K] {h : Hash K V} {key : K} {pos : Nat}
    (hr : h.FindRes key pos) : ∃ s, h.slot? pos = some s := by
  cases hr with
  | found s hs _ _ => exact ⟨s, hs⟩
  | free s hs _ _ _ _ _ _ _ _ _ => exact ⟨s, hs⟩
  | full s hs _ _ _ _ _ => exact ⟨s, hs⟩

/-- The method `erase` leaves the table as it is, or turns one OCCUPIED slot into a
TOMBSTONE. -/
theorem erase_cases [Hasher K] [DecidableEq K] {h h' : Hash K V} {key : K} {b : Bool}
    (he : h.erase key = .ok (h', b)) :
    (h' = h ∧ b = false) ∨
      ∃ pos s, h.slot? pos = some s ∧ s.state = .OCCUPIED ∧ b = true ∧
        h' = h.setSlot pos { s with state := .TOMBSTONE } (h._size - 1) := by
  unfold erase at he
  by_cases hem : h.empty = true
  · simp [hem, pure, Except.pure] at he
    exact Or.inl ⟨he.1.symm, he.2⟩
  · by_cases hcap : 0 < h.capacity
    · obtain ⟨pos, hf, hr⟩ := findPos_spec h key hcap
      obtain ⟨s, hs⟩ := hr.slot
      have hidx : h._vector.index (pos : Int) = .ok s := ArrayList.index_of_getElem? hs
      by_cases hocc : s.state = .OCCUPIED
      · right
        refine ⟨pos, s, hs, hocc, ?_⟩
        unfold slot? at hs
        simp [hem, hf, hidx, hocc, bind, Except.bind, pure, Except.pure,
          ArrayList.modify_of_getElem? _ hs] at he
        exact ⟨he.2, by rw [← he.1]; rfl⟩
      · left
        simp [hem, hf, hidx, hocc, bind, Except.bind, pure, Except.pure] at he
        exact ⟨he.1.symm, he.2⟩
    · exfalso
      have h0 : h.capacity = 0 := by omega
      have hf : h.findPos key = .ok 0 := by unfold findPos; simp [h0]
      have hidx : h._vector.index (0 : Int) = .error .out_of_range := by
        unfold ArrayList.index
        unfold capacity at h0
        simp [h0]
      simp [hem, hf, hidx, bind, Except.bind] at he

/-- The method `erase` keeps the invariant. -/
theorem Inv.erase [Hasher K] [DecidableEq K] {h h' : Hash K V} (hinv : h.Inv) {key : K}
    {b : Bool} (he : h.erase key = .ok (h', b)) : h'.Inv := by
  rcases erase_cases he with ⟨rfl, _⟩ | ⟨pos, s, hs, hocc, _, rfl⟩
  · exact hinv
  · exact hinv.eraseSlot hs hocc

end Hash

namespace Hash

variable {K V : Type}

/-! ## Quadratic probing in a table of prime capacity -/

/-- The first `(p + 1) / 2` probes of a key in a table of prime capacity `p` are
pairwise distinct. -/
theorem probe_ne [Hasher K] {p : Nat} (hp : Nat.Prime p) (key : K) {i j : Nat}
    (hij : i < j) (hj : 2 * j < p) : probe p key i ≠ probe p key j := by
  intro heq
  unfold probe at heq
  have h1 : Nat.ModEq p (Hasher.hash key % p + i * i) (Hasher.hash key % p + j * j) := heq
  have h2 : Nat.ModEq p (i * i) (j * j) := Nat.ModEq.add_left_cancel' _ h1
  have hle : i * i ≤ j * j := Nat.mul_le_mul hij.le hij.le
  have hd : p ∣ j * j - i * i := (Nat.modEq_iff_dvd' hle).1 h2
  rw [Nat.mul_self_sub_mul_self_eq] at hd
  rcases (Nat.Prime.dvd_mul hp).1 hd with h | h
  · have := Nat.le_of_dvd (by omega) h
    omega
  · have := Nat.le_of_dvd (by omega) h
    omega

/-- In a table of prime capacity of which less than half the slots are not EMPTY,
every key has a probe that meets an EMPTY slot. -/
theorem exists_empty_probe [Hasher K] {h : Hash K V} (hp : Nat.Prime h.capacity)
    (hsparse : 2 * h.nonEmpty < h.capacity) (key : K) :
    ∃ i, i < h.capacity ∧ h.stateAt (probe h.capacity key i) = .EMPTY := by
  by_contra hne
  push_neg at hne
  have hcap : 0 < h.capacity := hp.pos
  have hcard : (Finset.range ((h.capacity + 1) / 2)).card ≤ h.nonEmpty := by
    unfold nonEmpty
    apply Finset.card_le_card_of_injOn (probe h.capacity key)
    · intro i hi
      have hi' : i < (h.capacity + 1) / 2 := by simpa using hi
      simp only [Finset.mem_coe, Finset.mem_filter, Finset.mem_range]
      exact ⟨probe_lt hcap key i, hne i (by omega)⟩
    · intro i hi j hj heq
      have hi' : i < (h.capacity + 1) / 2 := by simpa using hi
      have hj' : j < (h.capacity + 1) / 2 := by simpa using hj
      rcases Nat.lt_trichotomy i j with hlt | heq' | hgt
      · exact absurd heq (probe_ne hp key hlt (by omega))
      · exact heq'
      · exact absurd heq.symm (probe_ne hp key hgt (by omega))
  rw [Finset.card_range] at hcard
  omega

theorem NoTomb.nonEmpty_eq {h : Hash K V} (hn : h.NoTomb) : h.nonEmpty = h.occupied := by
  unfold nonEmpty occupied
  congr 1
  ext j
  simp only [Finset.mem_filter, Finset.mem_range]
  constructor
  · rintro ⟨hj, hs⟩
    refine ⟨hj, ?_⟩
    have := hn j
    cases hst : h.stateAt j with
    | EMPTY => exact absurd hst hs
    | TOMBSTONE => exact absurd hst this
    | OCCUPIED => rfl
  · rintro ⟨hj, hs⟩
    exact ⟨hj, by rw [hs]; decide⟩

theorem room_of_empty_probe [Hasher K] {h : Hash K V} {key : K}
    (he : ∃ i, i < h.capacity ∧ h.stateAt (probe h.capacity key i) = .EMPTY) :
    h.Room key := by
  obtain ⟨i, hi, hs⟩ := he
  exact ⟨i, hi, by rw [hs]; decide⟩

theorem needsRehash_eq_false_iff (h : Hash K V) :
    h.needsRehash = false ↔ 0 < h.capacity ∧ loadReached h._size h.capacity = false := by
  unfold needsRehash
  rw [Bool.or_eq_false_iff, decide_eq_false_iff_not, Nat.pos_iff_ne_zero]

/-- No rehash is due while the size is below half the capacity. -/
theorem needsRehash_of_half {h : Hash K V} (hs : 2 * h._size < h.capacity) :
    h.needsRehash = false :=
  (needsRehash_eq_false_iff h).2 ⟨by omega, loadReached_of_half hs⟩

/-! ## `rehash` -/

theorem occupiedBelow_succ (h : Hash K V) (i : Nat) :
    h.occupiedBelow (i + 1) =
      h.occupiedBelow i + (if h.stateAt i = .OCCUPIED then 1 else 0) := by
  unfold occupiedBelow
  rw [Finset.range_succ, Finset.filter_insert]
  by_cases hs : h.stateAt i = .OCCUPIED
  · simp only [hs, if_true]
    rw [Finset.card_insert_of_not_mem (by simp)]
  · simp only [hs, if_false]
    simp

theorem occupiedBelow_le (h : Hash K V) (i : Nat) : h.occupiedBelow i ≤ i := by
  unfold occupiedBelow
  calc _ ≤ (Finset.range i).card := Finset.card_filter_le _ _
    _ = i := Finset.card_range _

theorem slot?_withCapacity [Inhabited K] [Inhabited V] {n m j : Nat} {s : HashSlot K V}
    (hs : ({ _vector := ArrayList.withCapacity n, _size := m } : Hash K V).slot? j = some s) :
    s = default := by
  unfold slot? ArrayList.withCapacity at hs
  simp only [List.getElem?_replicate] at hs
  split at hs
  · exact (Option.some.inj hs).symm
  · cases hs

theorem stateAt_withCapacity [Inhabited K] [Inhabited V] (n m j : Nat) :
    ({ _vector := ArrayList.withCapacity n, _size := m } : Hash K V).stateAt j = .EMPTY := by
  unfold stateAt
  cases hs : ({ _vector := ArrayList.withCapacity n, _size := m } : Hash K V).slot? j with
  | none => rfl
  | some s => rw [slot?_withCapacity hs]; rfl

/-- A table as the constructor and `rehash` build it satisfies the invariant. -/
theorem inv_withCapacity [Hasher K] [Inhabited K] [Inhabited V] (n : Nat) :
    ({ _vector := ArrayList.withCapacity n, _size := 0 } : Hash K V).Inv := by
  refine ⟨?_, ?_, ?_⟩
  · unfold occupied
    symm
    rw [Finset.card_eq_zero, Finset.filter_eq_empty_iff]
    intro j _
    rw [stateAt_withCapacity]; decide
  · intro j s hs hocc
    rw [slot?_withCapacity hs] at hocc
    cases hocc
  · intro j1 j2 s1 s2 hs1 _ hocc _ _
    rw [slot?_withCapacity hs1] at hocc
    cases hocc

theorem capacity_withCapacity [Inhabited K] [Inhabited V] (n m : Nat) :
    ({ _vector := ArrayList.withCapacity n, _size := m } : Hash K V).capacity = n := by
  simp [capacity, ArrayList.getCapacity, ArrayList.withCapacity]

/-- The loop of `rehash` moves every OCCUPIED slot of the old table into the new one. -/
theorem rehashLoop_spec [Hasher K] [DecidableEq K] {h : Hash K V} (hinv : h.Inv) {p : Nat}
    (hp : Nat.Prime p) (hbig : 2 * h.capacity < p)
    (insertFn : Hash K V → K → V → Except Exn (Hash K V × Bool))
    (hins : ∀ t k v, t.needsRehash = false → insertFn t k v = insertAux .ok t k v) :
    ∀ (n i : Nat) (t : Hash K V), n + i = h.capacity → t.capacity = p → t.Inv → t.NoTomb →
      t._size = h.occupiedBelow i →
      (∀ k v, t.Holds k v ↔ ∃ j s, j < i ∧ h.slot? j = some s ∧ s.state = .OCCUPIED ∧
        s.key = k ∧ s.value = v) →
      ∃ t', rehashLoop insertFn h._vector n i t = .ok t' ∧ t'.capacity = p ∧ t'.Inv ∧
        t'.NoTomb ∧ t'._size = h._size ∧ ∀ k v, t'.Holds k v ↔ h.Holds k v := by
  intro n
  induction n with
  | zero =>
    intro i t hni hcap hti hnt hsz hholds
    have hi : i = h.capacity := by omega
    subst hi
    refine ⟨t, rfl, hcap, hti, hnt, by rw [hsz, hinv.size_eq]; rfl, ?_⟩
    intro k v
    rw [hholds]
    constructor
    · rintro ⟨j, s, _, hs, hocc, hk, hv⟩; exact ⟨j, s, hs, hocc, hk, hv⟩
    · rintro ⟨j, s, hs, hocc, hk, hv⟩; exact ⟨j, s, lt_of_slot? hs, hs, hocc, hk, hv⟩
  | succ n ih =>
    intro i t hni hcap hti hnt hsz hholds
    have hilt : i < h.capacity := by omega
    obtain ⟨s, hs⟩ := slot?_lt hilt
    have hidx : h._vector.index (i : Int) = .ok s := ArrayList.index_of_getElem? hs
    unfold rehashLoop
    simp only [hidx, bind, Except.bind]
    by_cases hocc : s.state = .OCCUPIED
    · rw [if_pos hocc]
      have hszle : t._size ≤ i := by rw [hsz]; exact occupiedBelow_le h i
      have hnr : t.needsRehash = false := by
        exact needsRehash_of_half (by omega)
      have habs : t.Absent s.key := by
        intro j' s' hs' hocc' hk'
        obtain ⟨j, s2, hj, hs2, hocc2, hk2, _⟩ := (hholds s.key s'.value).1
          ⟨j', s', hs', hocc', hk', rfl⟩
        have := hinv.unique j i s2 s hs2 hs hocc2 hocc hk2
        omega
      have hroom : t.Room s.key := by
        apply room_of_empty_probe
        apply exists_empty_probe (by rw [hcap]; exact hp)
        rw [hnt.nonEmpty_eq, ← hti.size_eq]
        omega
      rcases insertCore_absent hti (by omega) habs s.value with
        ⟨_, pos, hpos, hst, hres, hinv'⟩ | ⟨hnoroom, _⟩
      · rw [hins t s.key s.value hnr, hres]
        simp only []
        apply ih (i + 1) _ (by omega) (by rw [capacity_setSlot]; exact hcap) hinv'
        · intro j
          by_cases e : j = pos
          · subst e; rw [stateAt_setSlot_eq _ _ hpos]; simp
          · rw [stateAt_setSlot_ne _ _ e]; exact hnt j
        · rw [size_setSlot, occupiedBelow_succ, hsz, stateAt_of_slot? hs, if_pos hocc]
        · intro k v
          rw [holds_insertSlot _ _ hpos hst, hholds]
          constructor
          · rintro (⟨hk, hv⟩ | ⟨j, s2, hj, hs2, hocc2, hk2, hv2⟩)
            · exact ⟨i, s, by omega, hs, hocc, hk.symm, hv.symm⟩
            · exact ⟨j, s2, by omega, hs2, hocc2, hk2, hv2⟩
          · rintro ⟨j, s2, hj, hs2, hocc2, hk2, hv2⟩
            by_cases e : j = i
            · subst e
              rw [hs] at hs2
              cases hs2
              exact Or.inl ⟨hk2.symm, hv2.symm⟩
            · exact Or.inr ⟨j, s2, by omega, hs2, hocc2, hk2, hv2⟩
      · exact absurd hroom hnoroom
    · rw [if_neg hocc]
      apply ih (i + 1) t (by omega) hcap hti hnt
      · rw [occupiedBelow_succ, hsz, stateAt_of_slot? hs, if_neg hocc]; rfl
      · intro k v
        rw [hholds]
        constructor
        · rintro ⟨j, s2, hj, hs2, hocc2, hk2, hv2⟩
          exact ⟨j, s2, by omega, hs2, hocc2, hk2, hv2⟩
        · rintro ⟨j, s2, hj, hs2, hocc2, hk2, hv2⟩
          have e : j ≠ i := by
            rintro rfl
            rw [hs] at hs2
            cases hs2
            exact hocc hocc2
          exact ⟨j, s2, by omega, hs2, hocc2, hk2, hv2⟩

theorem insertFuel_succ_of_not_needsRehash [Hasher K] [DecidableEq K] [Inhabited K]
    [Inhabited V] (n : Nat) (t : Hash K V) (k : K) (v : V) (hn : t.needsRehash = false) :
    insertFuel (n + 1) t k v = insertAux .ok t k v := by
  unfold insertFuel
  rw [insertAux_eq]
  simp [hn, bind, Except.bind]

/-- The body of `rehash`: the new table has the next prime after twice the old capacity
as its capacity, holds exactly what the old table held, and has no TOMBSTONE. -/
theorem rehashAux_spec [Hasher K] [DecidableEq K] [Inhabited K] [Inhabited V]
    {h : Hash K V} (hinv : h.Inv) (n : Nat) :
    ∃ t, rehashAux (insertFuel (n + 1)) h = .ok t ∧
      t.capacity = findNextPrime (h.capacity * 2) ∧ t.Inv ∧ t.NoTomb ∧ t._size = h._size ∧
      ∀ k v, t.Holds k v ↔ h.Holds k v := by
  obtain ⟨hprime, hgt, _⟩ := findNextPrime_spec (h.capacity * 2)
  unfold rehashAux
  apply rehashLoop_spec hinv hprime (by omega) _
    (fun t k v hn => insertFuel_succ_of_not_needsRehash n t k v hn)
    h.capacity 0 _ (by simp [capacity]) (capacity_withCapacity _ _) (inv_withCapacity _)
  · intro j; rw [stateAt_withCapacity]; decide
  · simp [occupiedBelow]
  · intro k v
    constructor
    · rintro ⟨j, s, hs, hocc, _, _⟩
      rw [slot?_withCapacity hs] at hocc
      cases hocc
    · rintro ⟨j, s, hj, _⟩; omega

theorem rehash_spec [Hasher K] [DecidableEq K] [Inhabited K] [Inhabited V]
    {h : Hash K V} (hinv : h.Inv) :
    ∃ t, rehash h = .ok t ∧
      t.capacity = findNextPrime (h.capacity * 2) ∧ t.Inv ∧ t.NoTomb ∧ t._size = h._size ∧
      ∀ k v, t.Holds k v ↔ h.Holds k v :=
  rehashAux_spec hinv 0

end Hash

namespace Hash

variable {K V : Type}

/-! ## `insert` and `operator[]` with the rehash test -/

theorem absent_or_holds (h : Hash K V) (key : K) : h.Absent key ∨ ∃ w, h.Holds key w := by
  by_cases ha : h.Absent key
  · exact Or.inl ha
  · right
    unfold Absent at ha
    push_neg at ha
    obtain ⟨j, s, hs, hocc, hk⟩ := ha
    exact ⟨s.value, j, s, hs, hocc, hk, rfl⟩

theorem Absent.not_holds {h : Hash K V} {key : K} (ha : h.Absent key) (w : V) :
    ¬ h.Holds key w := by
  rintro ⟨j, s, hs, hocc, hk, _⟩
  exact ha j s hs hocc hk

/-- The first statement of `insert` and of `operator[]`, the conditional call of
`rehash()`: the table it leaves holds what the table held, and after a rehash every key
has `Room`. -/
theorem prepare_spec [Hasher K] [DecidableEq K] [Inhabited K] [Inhabited V]
    {h : Hash K V} (hinv : h.Inv) :
    ∃ t, (if h.needsRehash then rehash h else .ok h) = .ok t ∧ t.Inv ∧ 0 < t.capacity ∧
      t._size = h._size ∧ (∀ k v, t.Holds k v ↔ h.Holds k v) ∧
      (h.needsRehash = false → t = h) ∧
      (h.needsRehash = true →
        t.capacity = findNextPrime (h.capacity * 2) ∧ t.NoTomb ∧ ∀ key, t.Room key) := by
  by_cases hn : h.needsRehash = true
  · obtain ⟨t, ht, hcap, hti, hnt, hsz, hholds⟩ := rehash_spec hinv
    obtain ⟨hprime, hgt, _⟩ := findNextPrime_spec (h.capacity * 2)
    refine ⟨t, by rw [if_pos hn]; exact ht, hti, by rw [hcap]; exact hprime.pos, hsz, hholds,
      ?_, ?_⟩
    · intro hf; rw [hf] at hn; cases hn
    · intro _
      refine ⟨hcap, hnt, fun key => ?_⟩
      apply room_of_empty_probe
      apply exists_empty_probe (by rw [hcap]; exact hprime)
      rw [hnt.nonEmpty_eq, ← hti.size_eq, hsz, hinv.size_eq, hcap]
      have := occupied_le_capacity h
      omega
  · have hn' : h.needsRehash = false := by simpa using hn
    refine ⟨h, by rw [if_neg hn], hinv, ((needsRehash_eq_false_iff h).1 hn').1, rfl,
      fun _ _ => Iff.rfl, fun _ => rfl, fun hf => absurd hf hn⟩

/-- `insert` at a key the table holds: rejected, nothing that the table holds changes. -/
theorem insert_present [Hasher K] [DecidableEq K] [Inhabited K] [Inhabited V]
    {h : Hash K V} (hinv : h.Inv) {key : K} {w : V} (hh : h.Holds key w) (value : V) :
    ∃ h', h.insert key value = .ok (h', false) ∧ h'.Inv ∧ h'._size = h._size ∧
      ∀ k v, h'.Holds k v ↔ h.Holds k v := by
  obtain ⟨t, ht, hti, _, hsz, hholds, _, _⟩ := prepare_spec hinv
  refine ⟨t, ?_, hti, hsz, hholds⟩
  unfold Hash.insert
  rw [insertAux_eq, ht]
  exact insertCore_present hti ((hholds key w).2 hh) value

/-- `insert` at a key the table does not hold, when the key is `Ready`: accepted. -/
theorem insert_absent [Hasher K] [DecidableEq K] [Inhabited K] [Inhabited V]
    {h : Hash K V} (hinv : h.Inv) {key : K} (ha : h.Absent key)
    (hroom : h.needsRehash = true ∨ h.Room key) (value : V) :
    ∃ h', h.insert key value = .ok (h', true) ∧ h'.Inv ∧ h'._size = h._size + 1 ∧
      ∀ k v, h'.Holds k v ↔ (k = key ∧ v = value) ∨ h.Holds k v := by
  obtain ⟨t, ht, hti, hcap, hsz, hholds, hsame, hre⟩ := prepare_spec hinv
  have hta : t.Absent key := by
    intro j s hs hocc hk
    exact ha.not_holds s.value ((hholds key s.value).1 ⟨j, s, hs, hocc, hk, rfl⟩)
  have htroom : t.Room key := by
    by_cases hn : h.needsRehash = true
    · exact (hre hn).2.2 key
    · rcases hroom with h1 | h1
      · exact absurd h1 hn
      · rw [hsame (by simpa using hn)]; exact h1
  rcases insertCore_absent hti hcap hta value with
    ⟨_, pos, hpos, hst, hres, hinv'⟩ | ⟨hnoroom, _⟩
  · refine ⟨_, ?_, hinv', by rw [size_setSlot, hsz], ?_⟩
    · unfold Hash.insert
      rw [insertAux_eq, ht]
      exact hres
    · intro k v
      rw [holds_insertSlot _ _ hpos hst, hholds]
  · exact absurd htroom hnoroom

/-- `insert` keeps the invariant. -/
theorem Inv.insert [Hasher K] [DecidableEq K] [Inhabited K] [Inhabited V]
    {h h' : Hash K V} (hinv : h.Inv) {key : K} {value : V} {b : Bool}
    (hi : h.insert key value = .ok (h', b)) : h'.Inv := by
  obtain ⟨t, ht, hti, hcap, hsz, hholds, hsame, hre⟩ := prepare_spec hinv
  unfold Hash.insert at hi
  rw [insertAux_eq, ht] at hi
  change insertAux .ok t key value = .ok (h', b) at hi
  rcases absent_or_holds t key with hta | ⟨w, hw⟩
  · rcases insertCore_absent hti hcap hta value with
      ⟨_, pos, hpos, hst, hres, hinv'⟩ | ⟨_, hres⟩
    · rw [hres] at hi
      cases hi
      exact hinv'
    · rw [hres] at hi
      cases hi
      exact hti
  · rw [insertCore_present hti hw value] at hi
    cases hi
    exact hti

/-- `operator[]` at a key the table holds: the reference is to the entry of the key. -/
theorem index_present [Hasher K] [DecidableEq K] [Inhabited K] [Inhabited V]
    {h : Hash K V} (hinv : h.Inv) {key : K} {w : V} (hh : h.Holds key w) :
    ∃ h' pos, h.index key = .ok (h', pos) ∧ h'.Inv ∧ h'._size = h._size ∧
      h'.slot? pos = some { key := key, value := w, state := .OCCUPIED } ∧
      ∀ k v, h'.Holds k v ↔ h.Holds k v := by
  obtain ⟨t, ht, hti, _, hsz, hholds, _, _⟩ := prepare_spec hinv
  obtain ⟨pos, hres, hslot⟩ := indexCore_present hti ((hholds key w).2 hh)
  refine ⟨t, pos, ?_, hti, hsz, hslot, hholds⟩
  unfold Hash.index
  rw [indexAux_eq, ht]
  exact hres

/-- `operator[]` at a key the table does not hold, when the key is `Ready`: an entry
with the default value is created and referred to. -/
theorem index_absent [Hasher K] [DecidableEq K] [Inhabited K] [Inhabited V]
    {h : Hash K V} (hinv : h.Inv) {key : K} (ha : h.Absent key)
    (hroom : h.needsRehash = true ∨ h.Room key) :
    ∃ h' pos, h.index key = .ok (h', pos) ∧ h'.Inv ∧ h'._size = h._size + 1 ∧
      h'.slot? pos = some { key := key, value := default, state := .OCCUPIED } ∧
      ∀ k v, h'.Holds k v ↔ (k = key ∧ v = default) ∨ h.Holds k v := by
  obtain ⟨t, ht, hti, hcap, hsz, hholds, hsame, hre⟩ := prepare_spec hinv
  have hta : t.Absent key := by
    intro j s hs hocc hk
    exact ha.not_holds s.value ((hholds key s.value).1 ⟨j, s, hs, hocc, hk, rfl⟩)
  have htroom : t.Room key := by
    by_cases hn : h.needsRehash = true
    · exact (hre hn).2.2 key
    · rcases hroom with h1 | h1
      · exact absurd h1 hn
      · rw [hsame (by simpa using hn)]; exact h1
  rcases indexCore_absent hti hcap hta with
    ⟨_, pos, hpos, hst, hres, hinv'⟩ | ⟨hnoroom, _⟩
  · refine ⟨_, pos, ?_, hinv', by rw [size_setSlot, hsz], slot?_setSlot_eq _ _ hpos, ?_⟩
    · unfold Hash.index
      rw [indexAux_eq, ht]
      exact hres
    · intro k v
      rw [holds_insertSlot _ _ hpos hst, hholds]
  · exact absurd htroom hnoroom

/-- `operator[]` returns a reference to an OCCUPIED slot of a table that satisfies the
invariant. -/
theorem index_cases [Hasher K] [DecidableEq K] [Inhabited K] [Inhabited V]
    {h : Hash K V} (hinv : h.Inv) (key : K) :
    ∃ h' pos s, h.index key = .ok (h', pos) ∧ h'.Inv ∧ h'.slot? pos = some s ∧
      s.state = .OCCUPIED := by
  rcases absent_or_holds h key with ha | ⟨w, hw⟩
  · by_cases hroom : h.needsRehash = true ∨ h.Room key
    · obtain ⟨h', pos, hres, hinv', _, hslot, _⟩ := index_absent hinv ha hroom
      exact ⟨h', pos, _, hres, hinv', hslot, rfl⟩
    · push_neg at hroom
      obtain ⟨t, ht, hti, hcap, hsz, hholds, hsame, hre⟩ := prepare_spec hinv
      have hth : t = h := hsame (by simpa using hroom.1)
      subst hth
      rcases indexCore_absent hti hcap ha with
        ⟨hr, _⟩ | ⟨_, pos, s, hres, hs, hocc, _⟩
      · exact absurd hr hroom.2
      · refine ⟨t, pos, s, ?_, hti, hs, hocc⟩
        unfold Hash.index
        rw [indexAux_eq, ht]
        exact hres
  · obtain ⟨h', pos, hres, hinv', _, hslot, _⟩ := index_present hinv hw
    exact ⟨h', pos, _, hres, hinv', hslot, rfl⟩

/-- Every reachable table satisfies the invariant. -/
theorem Reachable.inv [Hasher K] [DecidableEq K] [Inhabited K] [Inhabited V]
    {h : Hash K V} (hr : h.Reachable) : h.Inv := by
  induction hr with
  | new n => exact inv_withCapacity _
  | insert _ hi ih => exact ih.insert hi
  | erase _ he ih => exact ih.erase he
  | index _ hi ih =>
    obtain ⟨h', pos, s, hres, hinv', _, _⟩ := index_cases ih _
    rw [hres] at hi
    cases hi
    exact hinv'
  | update _ hu ih =>
    obtain ⟨h', pos, s, hres, hinv', hs, _⟩ := index_cases ih _
    unfold Hash.update at hu
    rw [hres] at hu
    simp only [bind, Except.bind] at hu
    rw [assign_eq hs] at hu
    cases hu
    exact hinv'.assignSlot hs _

end Hash

namespace Hash

variable {K V : Type}

/-! ## The recursion `insert -> rehash -> insert` stops after one round -/

theorem ArrayList_index_ok {T : Type} {a : ArrayList T} {j : Nat} {x : T}
    (h : a.index (j : Int) = .ok x) : a._items[j]? = some x := by
  unfold ArrayList.index at h
  split at h
  · cases h
  · simp only [Int.toNat_ofNat] at h
    split at h
    · rename_i y hy
      cases h
      exact hy
    · cases h

theorem insertCore_size [Hasher K] [DecidableEq K] {t t' : Hash K V} {k : K} {v : V}
    {b : Bool} (hi : insertAux .ok t k v = .ok (t', b)) :
    t'.capacity = t.capacity ∧ t'._size ≤ t._size + 1 := by
  unfold insertAux at hi
  simp only [bind, Except.bind, pure, Except.pure, ite_self] at hi
  cases hf : t.findPos k with
  | error err => rw [hf] at hi; cases hi
  | ok pos =>
    rw [hf] at hi
    simp only [] at hi
    cases hidx : t._vector.index (pos : Int) with
    | error err => rw [hidx] at hi; cases hi
    | ok s =>
      rw [hidx] at hi
      simp only [] at hi
      have hs : t.slot? pos = some s := ArrayList_index_ok hidx
      by_cases hocc : s.state = .OCCUPIED
      · rw [if_pos hocc] at hi
        cases hi
        exact ⟨rfl, by omega⟩
      · rw [if_neg hocc, place_eq hs] at hi
        simp only [] at hi
        cases hi
        exact ⟨capacity_setSlot _ _ _ _, by simp⟩

theorem rehashLoop_congr [Hasher K] [DecidableEq K]
    (f : Hash K V → K → V → Except Exn (Hash K V × Bool))
    (hf : ∀ t k v, t.needsRehash = false → f t k v = insertAux .ok t k v)
    (old : ArrayList (HashSlot K V)) (p : Nat) (hp : 2 * old.getCapacity < p) :
    ∀ (n i : Nat) (t : Hash K V), n + i = old.getCapacity → t.capacity = p → t._size ≤ i →
      rehashLoop f old n i t = rehashLoop (insertAux .ok) old n i t := by
  intro n
  induction n with
  | zero => intro i t _ _ _; rfl
  | succ n ih =>
    intro i t hni hcap hsz
    unfold rehashLoop
    cases hidx : old.index (i : Int) with
    | error err => rfl
    | ok s =>
      simp only [bind, Except.bind]
      by_cases hocc : s.state = .OCCUPIED
      · rw [if_pos hocc, if_pos hocc]
        have hnr : t.needsRehash = false := by
          exact needsRehash_of_half (by omega)
        rw [hf t s.key s.value hnr]
        cases hres : insertAux .ok t s.key s.value with
        | error err => rfl
        | ok r =>
          obtain ⟨t', b⟩ := r
          have := insertCore_size hres
          simp only []
          exact ih (i + 1) t' (by omega) (by rw [this.1]; exact hcap) (by omega)
      · rw [if_neg hocc, if_neg hocc]
        exact ih (i + 1) t (by omega) hcap (by omega)

theorem rehashAux_congr [Hasher K] [DecidableEq K] [Inhabited K] [Inhabited V] (n : Nat)
    (h : Hash K V) : rehashAux (insertFuel (n + 1)) h = rehashAux (insertAux .ok) h := by
  unfold rehashAux
  obtain ⟨_, hgt, _⟩ := findNextPrime_spec (h._vector.getCapacity * 2)
  exact rehashLoop_congr _ (fun t k v hn => insertFuel_succ_of_not_needsRehash n t k v hn)
    h._vector _ (by omega) _ 0 _ (by omega) (capacity_withCapacity _ _) (by simp)

/-- The model of `insert` does not depend on the recursion budget: for every table, key
and value, every budget of at least 2 gives the result of `insert`, which is never
`out_of_fuel`. -/
theorem insertFuel_stable [Hasher K] [DecidableEq K] [Inhabited K] [Inhabited V] (n : Nat)
    (h : Hash K V) (key : K) (value : V) :
    insertFuel (n + 2) h key value = h.insert key value := by
  have e : ∀ t : Hash K V, rehashAux (insertFuel (n + 1)) t = rehash t := by
    intro t
    unfold rehash
    rw [rehashAux_congr n t, rehashAux_congr 0 t]
  show insertAux (rehashAux (insertFuel (n + 1))) h key value = insertAux rehash h key value
  rw [insertAux_eq, insertAux_eq rehash, e]

end Hash

/-! ## Claims about `Hash::insert` -/

/-- C9 (the code departs from the claim): in the table reached from `Hash<int,int>(3)`
by `insert(0,10)`, `insert(1,11)`, `insert(4,14)` the key 5 is not held, and yet
`insert(5,15)` is rejected: it returns false and leaves the table, its size 3 included,
as it was, so that 5 is still not held afterwards. All three probes `0, 1, 4` of the key
meet slots OCCUPIED by other keys, and no rehash comes first since 3 < 0.7 * 5. -/
theorem C9_insert_of_absent_key_rejected :
    table014.Reachable ∧ table014.lookup 5 = none ∧ table014.size = 3 ∧
      table014.capacity = 5 ∧ table014.insert 5 15 = .ok (table014, false) ∧
      table014.contains 5 = .ok true := by
  have r1 : (tableOf 5 [(0, 0, 10)]).Reachable :=
    Hash.Reachable.insert (k := 0) (v := 10) (b := true) (Hash.Reachable.new 3) rfl
  have r2 : (tableOf 5 [(0, 0, 10), (1, 1, 11)]).Reachable :=
    Hash.Reachable.insert (k := 1) (v := 11) (b := true) r1 rfl
  have r3 : table014.Reachable :=
    Hash.Reachable.insert (k := 4) (v := 14) (b := true) r2 rfl
  exact ⟨r3, rfl, rfl, rfl, rfl, rfl⟩

/-- C10: in every reachable table, `insert(k,v)` at a key `k` that the table holds with
value `w` returns false, after which the table still holds `w` for `k` (and indexed
access at `k` yields `w`), its size is unchanged, and it holds for every key what it
held before, whether or not the call rehashed first. -/
theorem C10_insert_of_present_key_rejected {K V : Type} [Hasher K] [DecidableEq K]
    [Inhabited K] [Inhabited V] {h : Hash K V} (hr : h.Reachable) {k : K} {w : V}
    (hw : h.lookup k = some w) (v : V) :
    ∃ h', h.insert k v = .ok (h', false) ∧ h'.lookup k = some w ∧
      (∃ h'', h'.get k = .ok (h'', w)) ∧ h'.size = h.size ∧
      ∀ k', h'.lookup k' = h.lookup k' := by
  have hinv := hr.inv
  obtain ⟨h', hres, hinv', hsz, hholds⟩ := Hash.insert_present hinv (Hash.lookup_some hw) v
  have hw' : h'.Holds k w := (hholds k w).2 (Hash.lookup_some hw)
  refine ⟨h', hres, hw'.lookup hinv', ?_, hsz, fun k' => Hash.lookup_congr hinv hinv' k' (hholds k')⟩
  obtain ⟨h'', pos, hidx, _, _, hslot, _⟩ := Hash.index_present hinv' hw'
  refine ⟨h'', ?_⟩
  unfold Hash.get
  rw [hidx]
  simp only [bind, Except.bind]
  rw [Hash.deref_eq hslot]
  rfl

/-- C10 at `fullTable` and the key 1: the call rehashes and `insert(1,99)` is rejected. -/
theorem C10_insert_of_present_key_rejected_witness :
    fullTable.needsRehash = true ∧
    ∃ h', fullTable.insert 1 99 = .ok (h', false) ∧ h'.lookup 1 = some 10 ∧
      (∃ h'', h'.get 1 = .ok (h'', 10)) ∧ h'.size = fullTable.size ∧
      ∀ k', h'.lookup k' = fullTable.lookup k' :=
  ⟨rfl, C10_insert_of_present_key_rejected
    (Hash.Reachable.insert (t := fullTable) (k := 2) (v := 20) (b := true)
      (Hash.Reachable.insert (t := tableOf 2 [(1, 1, 10)]) (k := 1) (v := 10) (b := true)
        (Hash.Reachable.new 1) rfl)
      rfl)
    (k := 1) (w := 10) rfl 99⟩

/-! ## One access to `p->dimension[d]` -/

namespace Hash

variable {K V : Type}

/-- `operator[]` at a `Ready` key, followed by a read and an assignment through the
reference: the value read is the value held for the key (the default value if none),
the value held afterwards is `f` of it, and the other keys are not affected. -/
theorem access_spec [Hasher K] [DecidableEq K] [Inhabited K] [Inhabited V]
    {h : Hash K V} {key : K} (hready : h.Ready key) (f : V → V) :
    ∃ h1 pos h2, h.index key = .ok (h1, pos) ∧
      h1.deref pos = .ok ((h.lookup key).getD default) ∧
      h1.assign pos f = .ok h2 ∧ h2.Inv ∧
      h2.lookup key = some (f ((h.lookup key).getD default)) ∧
      (∀ k, k ≠ key → h2.lookup k = h.lookup k) := by
  obtain ⟨hinv, hcase⟩ := hready
  have main : ∀ (h1 : Hash K V) (pos : Nat) (w : V), h1.Inv →
      h1.slot? pos = some { key := key, value := w, state := .OCCUPIED } →
      (∀ k, k ≠ key → ∀ v, h1.Holds k v ↔ h.Holds k v) →
      ∃ h2, h1.deref pos = .ok w ∧ h1.assign pos f = .ok h2 ∧ h2.Inv ∧
        h2.lookup key = some (f w) ∧ (∀ k, k ≠ key → h2.lookup k = h.lookup k) := by
    intro h1 pos w hinv1 hslot hother
    refine ⟨_, deref_eq hslot, assign_eq hslot f, hinv1.assignSlot hslot _, ?_, ?_⟩
    · apply Holds.lookup (hinv1.assignSlot hslot _)
      exact (holds_assignSlot hinv1 _ hslot rfl _ _ _).2 (Or.inl ⟨rfl, rfl⟩)
    · intro k hk
      apply lookup_congr hinv (hinv1.assignSlot hslot _)
      intro v
      rw [holds_assignSlot hinv1 _ hslot rfl, ← hother k hk]
      constructor
      · rintro (⟨h1, _⟩ | ⟨_, h2⟩)
        · exact absurd h1 hk
        · exact h2
      · intro h2; exact Or.inr ⟨hk, h2⟩
  cases hl : h.lookup key with
  | some w =>
    obtain ⟨h1, pos, hidx, hinv1, _, hslot, hholds⟩ := index_present hinv (lookup_some hl)
    obtain ⟨h2, a, b, c, d, e⟩ := main h1 pos w hinv1 hslot (fun k _ v => hholds k v)
    exact ⟨h1, pos, h2, hidx, a, b, c, d, e⟩
  | none =>
    have ha : h.Absent key := (lookup_none_iff h key).1 hl
    have hroom : h.needsRehash = true ∨ h.Room key := by
      rcases hcase with h1 | h1
      · rw [hl] at h1; cases h1
      · exact h1
    obtain ⟨h1, pos, hidx, hinv1, _, hslot, hholds⟩ := index_absent hinv ha hroom
    obtain ⟨h2, a, b, c, d, e⟩ := main h1 pos default hinv1 hslot (by
      intro k hk v
      rw [hholds]
      constructor
      · rintro (⟨h1, _⟩ | h2)
        · exact absurd h1 hk
        · exact h2
      · intro h2; exact Or.inr h2)
    exact ⟨h1, pos, h2, hidx, a, b, c, d, e⟩

end Hash

namespace Heap

theorem view_of_getElem? {H : Heap} {a : Nat} {node : DimensionNode} (hn : H[a]? = some node)
    (d : String) : H.view d a = (node.dimension.lookup d).getD default := by
  unfold view; rw [hn]

/-- An access `a->dimension[d]` at a record whose directory is ready for `d` reads the
pair of the view and has the effect of writing `f` of it. -/
theorem access_effect {H : Heap} {d : String} {a : Nat} (hr : H.NodeReady d a)
    (f : DimensionPointers → DimensionPointers) :
    ∃ H', H.access (some a) d f = .ok (H', H.view d a) ∧
      Effect H H' d a (f (H.view d a)) := by
  obtain ⟨node, hn, hready⟩ := hr
  obtain ⟨h1, pos, h2, hidx, hderef, hassign, hinv2, hl, hother⟩ :=
    Hash.access_spec hready f
  have ha : a < H.length := (List.getElem?_eq_some_iff.1 hn).1
  have hview := view_of_getElem? hn d
  refine ⟨H.set a { node with dimension := h2 }, ?_, ?_⟩
  · unfold access
    simp only [hn, hidx, bind, Except.bind, hderef, hassign, pure, Except.pure, hview]
  · have hself : (H.set a { node with dimension := h2 })[a]? =
        some { node with dimension := h2 } := by
      simp [List.getElem?_set, ha]
    have hne : ∀ b, b ≠ a → (H.set a { node with dimension := h2 })[b]? = H[b]? := by
      intro b hb
      simp [List.getElem?_set, Ne.symm hb]
    refine ⟨by simp, ?_, ?_, ?_, ?_, ?_, ?_, ?_⟩
    · funext b
      by_cases hb : b = a
      · subst hb
        rw [Function.update_same, view_of_getElem? hself, hl, hview]
        rfl
      · rw [Function.update_noteq hb]
        unfold view
        rw [hne b hb]
    · rintro b ⟨nb, hnb, hrb⟩
      by_cases hb : b = a
      · subst hb
        exact ⟨_, hself, hinv2, Or.inl (by simp [hl])⟩
      · exact ⟨nb, by rw [hne b hb]; exact hnb, hrb⟩
    · exact ⟨_, hself, by simp [hl]⟩
    · intro d' hd' b
      by_cases hb : b = a
      · subst hb
        rw [view_of_getElem? hself, view_of_getElem? hn]
        simp only []
        rw [hother d' hd']
      · unfold view
        rw [hne b hb]
    · rintro d' b ⟨nb, hnb, hp⟩
      by_cases hb : b = a
      · subst hb
        rw [hn] at hnb
        cases hnb
        refine ⟨_, hself, ?_⟩
        by_cases hd' : d' = d
        · subst hd'; simp [hl]
        · simp only []
          rw [hother d' hd']
          exact hp
      · exact ⟨nb, by rw [hne b hb]; exact hnb, hp⟩
    · rintro b ⟨nb, hnb, hi⟩
      by_cases hb : b = a
      · subst hb
        exact ⟨_, hself, hinv2⟩
      · exact ⟨nb, by rw [hne b hb]; exact hnb, hi⟩
    · intro b
      unfold itemOf
      by_cases hb : b = a
      · subst hb
        rw [hself, hn]
        rfl
      · rw [hne b hb]

end Heap

namespace Heap

/-! ## Reading and writing one link -/

theorem getPrev_spec {H : Heap} {d : String} {a : Nat} (hr : H.NodeReady d a) :
    ∃ H', H.getPrev (some a) d = .ok (H', (H.view d a).prev) ∧ Effect H H' d a (H.view d a) := by
  obtain ⟨H', h1, h2⟩ := access_effect hr id
  refine ⟨H', ?_, h2⟩
  unfold getPrev
  rw [h1]
  rfl

theorem NodeReady.lt_length {H : Heap} {d : String} {a : Nat} (hr : H.NodeReady d a) :
    a < H.length := by
  obtain ⟨node, hn, _⟩ := hr
  exact (List.getElem?_eq_some_iff.1 hn).1

end Heap

/-! ## What `p->dimension[d]` reads -/

namespace Hash

variable {K V : Type}

theorem peek_of_index [Hasher K] [DecidableEq K] [Inhabited K] [Inhabited V]
    {h h1 : Hash K V} {key : K} {pos : Nat} {s : HashSlot K V}
    (hi : h.index key = .ok (h1, pos)) (hs : h1.slot? pos = some s) : h.peek key = s.value := by
  unfold peek get
  simp only [hi, bind, Except.bind, deref_eq hs, pure, Except.pure]

/-- For a key that the table does not hold and that has no `Room`, `findPos` returns
the home slot of the key, which is OCCUPIED by another key. -/
theorem findPos_full [Hasher K] [DecidableEq K] {h : Hash K V} {key : K}
    (hcap : 0 < h.capacity) (ha : h.Absent key) (hroom : ¬ h.Room key) :
    ∃ s, h.findPos key = .ok (probe h.capacity key 0) ∧
      h.slot? (probe h.capacity key 0) = some s ∧ s.state = .OCCUPIED ∧ s.key ≠ key := by
  obtain ⟨pos, hpos, hr⟩ := findPos_spec h key hcap
  cases hr with
  | found s hs occ hk => exact absurd hk (ha pos s hs occ)
  | free s hs nocc e he passed stop i0 hi0 hp pre =>
    exfalso
    apply hroom
    refine ⟨i0, hi0, ?_⟩
    rw [hp, stateAt_of_slot? hs]; exact nocc
  | full s hs occ hk hpos' all allocc =>
    subst hpos'
    exact ⟨s, hpos, hs, occ, hk⟩

/-- `operator[]` when no rehash comes first and `findPos` returns an OCCUPIED slot: the
table is left as it is and the reference is to that slot. -/
theorem index_occupied [Hasher K] [DecidableEq K] [Inhabited K] [Inhabited V]
    {h : Hash K V} {key : K} {pos : Nat} {s : HashSlot K V} (hn : h.needsRehash = false)
    (hf : h.findPos key = .ok pos) (hs : h.slot? pos = some s) (hocc : s.state = .OCCUPIED) :
    h.index key = .ok (h, pos) := by
  have hidx : h._vector.index (pos : Int) = .ok s := ArrayList.index_of_getElem? hs
  unfold Hash.index indexAux
  simp [hn, hf, hidx, hocc, bind, Except.bind, pure, Except.pure]

theorem stateAt_assignSlot {h : Hash K V} {pos : Nat} {s : HashSlot K V}
    (hs : h.slot? pos = some s) (value : V) (n : Nat) (j : Nat) :
    (h.setSlot pos { s with value := value } n).stateAt j = h.stateAt j := by
  by_cases e : j = pos
  · subst e; rw [stateAt_setSlot_eq _ _ (lt_of_slot? hs), stateAt_of_slot? hs]
  · rw [stateAt_setSlot_ne _ _ e]

/-- One access `table[key]`, a read and an assignment through the reference, on a table
that satisfies the invariant: the access succeeds, the value read is the value that
`table[key]` reads, and afterwards `table[key]` reads `f` of it. -/
theorem access_peek [Hasher K] [DecidableEq K] [Inhabited K] [Inhabited V]
    {h : Hash K V} (hinv : h.Inv) (key : K) (f : V → V) :
    ∃ h1 pos h2, h.index key = .ok (h1, pos) ∧ h1.deref pos = .ok (h.peek key) ∧
      h1.assign pos f = .ok h2 ∧ h2.Inv ∧ h2.peek key = f (h.peek key) := by
  have main : ∀ (h1 : Hash K V) (pos : Nat) (w : V), h.index key = .ok (h1, pos) → h1.Inv →
      h1.slot? pos = some { key := key, value := w, state := .OCCUPIED } →
      ∃ h1 pos h2, h.index key = .ok (h1, pos) ∧ h1.deref pos = .ok (h.peek key) ∧
        h1.assign pos f = .ok h2 ∧ h2.Inv ∧ h2.peek key = f (h.peek key) := by
    intro h1 pos w hidx hinv1 hslot
    have hp : h.peek key = w := peek_of_index hidx hslot
    have hinv2 := hinv1.assignSlot hslot (f w)
    have hh2 : (h1.setSlot pos { key := key, value := f w, state := .OCCUPIED } h1._size).Holds
        key (f w) := (holds_assignSlot hinv1 _ hslot rfl _ _ _).2 (Or.inl ⟨rfl, rfl⟩)
    obtain ⟨h3, pos3, hidx3, _, _, hslot3, _⟩ := index_present hinv2 hh2
    refine ⟨h1, pos, _, hidx, by rw [hp]; exact deref_eq hslot, assign_eq hslot f, hinv2, ?_⟩
    rw [hp]
    exact peek_of_index hidx3 hslot3
  rcases absent_or_holds h key with ha | ⟨w, hw⟩
  · by_cases hroom : h.needsRehash = true ∨ h.Room key
    · obtain ⟨h1, pos, hidx, hinv1, _, hslot, _⟩ := index_absent hinv ha hroom
      exact main h1 pos default hidx hinv1 hslot
    · push_neg at hroom
      have hn : h.needsRehash = false := by simpa using hroom.1
      have hcap : 0 < h.capacity := ((needsRehash_eq_false_iff h).1 hn).1
      obtain ⟨s, hf, hs, hocc, hk⟩ := findPos_full hcap ha hroom.2
      have hidx := index_occupied hn hf hs hocc
      have hp : h.peek key = s.value := peek_of_index hidx hs
      have hinv2 := hinv.assignSlot hs (f s.value)
      have hs2 := slot?_setSlot_eq (h := h) { s with value := f s.value } h._size
        (lt_of_slot? hs)
      have hn2 : (h.setSlot (probe h.capacity key 0) { s with value := f s.value }
          h._size).needsRehash = false := by
        rw [needsRehash_eq_false_iff] at hn ⊢
        simpa using hn
      have ha2 : (h.setSlot (probe h.capacity key 0) { s with value := f s.value }
          h._size).Absent key := by
        intro j s' hs' hocc' hk'
        have := (holds_assignSlot hinv h._size hs hocc (f s.value) key s'.value).1
          ⟨j, s', hs', hocc', hk', rfl⟩
        rcases this with ⟨h1, _⟩ | ⟨_, h2⟩
        · exact hk h1.symm
        · exact ha.not_holds _ h2
      have hroom2 : ¬ (h.setSlot (probe h.capacity key 0) { s with value := f s.value }
          h._size).Room key := by
        rintro ⟨i, hi, hne⟩
        apply hroom.2
        rw [capacity_setSlot] at hi hne
        rw [stateAt_assignSlot hs] at hne
        exact ⟨i, hi, hne⟩
      obtain ⟨s2, hf2, hs2', hocc2, _⟩ :=
        findPos_full (by rw [capacity_setSlot]; exact hcap) ha2 hroom2
      rw [capacity_setSlot] at hf2 hs2'
      have hidx2 := index_occupied hn2 hf2 hs2' hocc2
      refine ⟨h, _, _, hidx, by rw [hp]; exact deref_eq hs, assign_eq hs f, hinv2, ?_⟩
      rw [hp, peek_of_index hidx2 hs2]
  · obtain ⟨h1, pos, hidx, hinv1, _, hslot, _⟩ := index_present hinv hw
    exact main h1 pos w hidx hinv1 hslot

/-- At a `Ready` key `table[key]` reads the value that the table holds for the key, and
the default value if it holds none. -/
theorem peek_of_ready [Hasher K] [DecidableEq K] [Inhabited K] [Inhabited V]
    {h : Hash K V} {key : K} (hready : h.Ready key) :
    h.peek key = (h.lookup key).getD default := by
  obtain ⟨h1, pos, h2, hidx, hderef, _⟩ := access_spec hready id
  unfold peek get
  simp only [hidx, bind, Except.bind, hderef, pure, Except.pure]

end Hash

namespace Heap

theorem links_of_getElem? {H : Heap} {a : Nat} {node : DimensionNode} (hn : H[a]? = some node)
    (d : String) : H.links d a = node.dimension.peek d := by
  unfold links; rw [hn]

/-- An access `a->dimension[d]` at a record whose directory satisfies the table invariant
succeeds; it reads the pair `H.links d a` and leaves `f` of it to be read. -/
theorem access_links {H : Heap} (d : String) {a : Nat} (hi : H.NodeInv a)
    (f : DimensionPointers → DimensionPointers) :
    ∃ H', H.access (some a) d f = .ok (H', H.links d a) ∧
      Write H H' d a (f (H.links d a)) := by
  obtain ⟨node, hn, hinv⟩ := hi
  obtain ⟨h1, pos, h2, hidx, hderef, hassign, hinv2, hp⟩ := Hash.access_peek hinv d f
  have ha : a < H.length := (List.getElem?_eq_some_iff.1 hn).1
  have hl := links_of_getElem? hn d
  refine ⟨H.set a { node with dimension := h2 }, ?_, ?_⟩
  · unfold access
    simp only [hn, hidx, bind, Except.bind, hderef, hassign, pure, Except.pure, hl]
  · have hself : (H.set a { node with dimension := h2 })[a]? =
        some { node with dimension := h2 } := by
      simp [List.getElem?_set, ha]
    have hne : ∀ b, b ≠ a → (H.set a { node with dimension := h2 })[b]? = H[b]? := by
      intro b hb
      simp [List.getElem?_set, Ne.symm hb]
    refine ⟨by simp, ?_, ?_⟩
    · funext b
      by_cases hb : b = a
      · subst hb
        rw [Function.update_same, links_of_getElem? hself, hl]
        exact hp
      · rw [Function.update_noteq hb]
        unfold links
        rw [hne b hb]
    · rintro b ⟨nb, hnb, hi⟩
      by_cases hb : b = a
      · subst hb
        exact ⟨_, hself, hinv2⟩
      · exact ⟨nb, by rw [hne b hb]; exact hnb, hi⟩

theorem getNext_links {H : Heap} (d : String) {a : Nat} (hi : H.NodeInv a) :
    ∃ H', H.getNext (some a) d = .ok (H', H.nextOf d a) ∧ Write H H' d a (H.links d a) := by
  obtain ⟨H', h1, h2⟩ := access_links d hi id
  refine ⟨H', ?_, h2⟩
  unfold getNext
  rw [h1]
  rfl

theorem getPrev_links {H : Heap} (d : String) {a : Nat} (hi : H.NodeInv a) :
    ∃ H', H.getPrev (some a) d = .ok (H', H.prevOf d a) ∧ Write H H' d a (H.links d a) := by
  obtain ⟨H', h1, h2⟩ := access_links d hi id
  refine ⟨H', ?_, h2⟩
  unfold getPrev
  rw [h1]
  rfl

theorem setNext_links {H : Heap} (d : String) {a : Nat} (hi : H.NodeInv a) (q : Ptr) :
    ∃ H', H.setNext (some a) d q = .ok H' ∧
      Write H H' d a { H.links d a with next := q } := by
  obtain ⟨H', h1, h2⟩ := access_links d hi (fun v => { v with next := q })
  refine ⟨H', ?_, h2⟩
  unfold setNext
  rw [h1]
  rfl

theorem setPrev_links {H : Heap} (d : String) {a : Nat} (hi : H.NodeInv a) (q : Ptr) :
    ∃ H', H.setPrev (some a) d q = .ok H' ∧
      Write H H' d a { H.links d a with prev := q } := by
  obtain ⟨H', h1, h2⟩ := access_links d hi (fun v => { v with prev := q })
  refine ⟨H', ?_, h2⟩
  unfold setPrev
  rw [h1]
  rfl

/-- A read leaves what `dimension[d]` reads as it is. -/
theorem Write.links_same {H H' : Heap} {d : String} {a : Nat}
    (e : Write H H' d a (H.links d a)) : H'.links d = H.links d := by
  rw [e.links_eq, Function.update_eq_self]

theorem Write.links_at {H H' : Heap} {d : String} {a : Nat} {w : DimensionPointers}
    (e : Write H H' d a w) : H'.links d a = w := by
  rw [e.links_eq, Function.update_same]

theorem Write.links_ne {H H' : Heap} {d : String} {a b : Nat} {w : DimensionPointers}
    (e : Write H H' d a w) (hb : b ≠ a) : H'.links d b = H.links d b := by
  rw [e.links_eq, Function.update_noteq hb]

theorem NodeInv.allocated {H : Heap} {a : Nat} (hi : H.NodeInv a) : a < H.length := by
  obtain ⟨node, hn, _⟩ := hi
  exact (List.getElem?_eq_some_iff.1 hn).1

/-- Where the directory can serve `d` with an entry of its own, `a->dimension[d]` reads
the pair that the directory holds for `d`. -/
theorem links_eq_view {H : Heap} {d : String} {a : Nat} (hr : H.NodeReady d a) :
    H.links d a = H.view d a := by
  obtain ⟨node, hn, hready⟩ := hr
  rw [links_of_getElem? hn, view_of_getElem? hn, Hash.peek_of_ready hready]

theorem Kept.same (H : Heap) : Kept H H := ⟨rfl, fun _ h => h⟩

theorem Kept.andThen {H1 H2 H3 : Heap} (f : Kept H1 H2) (g : Kept H2 H3) : Kept H1 H3 :=
  ⟨by rw [g.length, f.length], fun b h => g.inv b (f.inv b h)⟩

theorem Write.toKept {H H' : Heap} {d : String} {a : Nat} {w : DimensionPointers}
    (e : Write H H' d a w) : Kept H H' := ⟨e.length, e.inv⟩

end Heap

/-! ## Chains of records -/

theorem Chain.congr {v v' : Nat → DimensionPointers} :
    ∀ {p : Ptr} {xs : List Nat}, (∀ a, a ∈ xs → v' a = v a) → Chain v p xs → Chain v' p xs := by
  intro p xs
  induction xs generalizing p with
  | nil => intro _ _; trivial
  | cons a rest ih =>
    intro h hc
    obtain ⟨h1, h2, h3⟩ := hc
    refine ⟨?_, ?_, ih (fun b hb => h b (List.mem_cons_of_mem _ hb)) h3⟩
    · rw [h a (List.mem_cons_self _ _)]; exact h1
    · rw [h a (List.mem_cons_self _ _)]; exact h2

/-- The links around an inner position of a chain. -/
theorem Chain.mid {v : Nat → DimensionPointers} :
    ∀ {p : Ptr} {pre : List Nat} {u a : Nat} {post : List Nat},
      Chain v p (pre ++ u :: a :: post) →
        (v u).next = some a ∧ (v a).prev = some u ∧ (v a).next = post.head? := by
  intro p pre
  induction pre generalizing p with
  | nil =>
    intro u a post hc
    obtain ⟨_, h2, h3, h4, _⟩ := hc
    exact ⟨h2, h3, h4⟩
  | cons x rest ih =>
    intro u a post hc
    exact ih hc.2.2

/-- The first record of a chain has the given `prev`. -/
theorem Chain.first_prev {v : Nat → DimensionPointers} {p : Ptr} {a : Nat} {rest : List Nat}
    (hc : Chain v p (a :: rest)) : (v a).prev = p := hc.1

/-- The last record of a chain has no `next`. -/
theorem Chain.last_next {v : Nat → DimensionPointers} :
    ∀ {p : Ptr} {xs : List Nat} {t : Nat}, Chain v p xs → xs.getLast? = some t →
      (v t).next = none := by
  intro p xs
  induction xs generalizing p with
  | nil => intro t _ h; cases h
  | cons a rest ih =>
    intro t hc hl
    cases rest with
    | nil =>
      simp at hl
      subst hl
      exact hc.2.1
    | cons b rest' =>
      rw [List.getLast?_cons_cons] at hl
      exact ih hc.2.2 hl

/-- Appending an unlinked record `b` after the last record `t` of a chain. -/
theorem Chain.snoc {v v2 : Nat → DimensionPointers} {t b : Nat}
    (h1 : v2 b = { next := none, prev := some t })
    (h2 : v2 t = { v t with next := some b })
    (h3 : ∀ c, c ≠ t → c ≠ b → v2 c = v c) :
    ∀ {p : Ptr} {xs : List Nat}, Chain v p xs → xs.getLast? = some t → b ∉ xs → xs.Nodup →
      Chain v2 p (xs ++ [b]) := by
  intro p xs
  induction xs generalizing p with
  | nil => intro _ h; cases h
  | cons a rest ih =>
    intro hc hl hb hnd
    cases rest with
    | nil =>
      simp at hl
      subst hl
      obtain ⟨c1, c2, _⟩ := hc
      refine ⟨by rw [h2]; exact c1, by rw [h2]; rfl, by rw [h1], by rw [h1]; rfl, trivial⟩
    | cons c rest' =>
      rw [List.getLast?_cons_cons] at hl
      have hat : a ≠ t := by
        intro e
        have : t ∈ c :: rest' := List.mem_of_getLast?_eq_some hl
        rw [← e] at this
        exact (List.nodup_cons.1 hnd).1 this
      have hab : a ≠ b := fun e => hb (by rw [e]; exact List.mem_cons_self _ _)
      obtain ⟨c1, c2, c3⟩ := hc
      refine ⟨by rw [h3 a hat hab]; exact c1, by rw [h3 a hat hab]; exact c2, ?_⟩
      exact ih c3 hl (fun h => hb (List.mem_cons_of_mem _ h)) (List.nodup_cons.1 hnd).2

/-- Putting an unlinked record `b` in the place of the last record `t` of a chain,
after its predecessor `u`. -/
theorem Chain.replace_last {v v2 : Nat → DimensionPointers} {u t b : Nat}
    (h1 : v2 b = { next := none, prev := some u })
    (h2 : v2 u = { v u with next := some b })
    (h3 : ∀ c, c ≠ u → c ≠ b → v2 c = v c) :
    ∀ {p : Ptr} {pre : List Nat}, Chain v p (pre ++ [u, t]) → b ∉ pre → u ∉ pre →
      Chain v2 p (pre ++ [u, b]) := by
  intro p pre
  induction pre generalizing p with
  | nil =>
    intro hc _ _
    obtain ⟨c1, _, _⟩ := hc
    exact ⟨by rw [h2]; exact c1, by rw [h2]; rfl, by rw [h1], by rw [h1]; rfl, trivial⟩
  | cons a rest ih =>
    intro hc hb hu
    have hau : a ≠ u := fun e => hu (by rw [e]; exact List.mem_cons_self _ _)
    have hab : a ≠ b := fun e => hb (by rw [e]; exact List.mem_cons_self _ _)
    obtain ⟨c1, c2, c3⟩ := hc
    refine ⟨by rw [h3 a hau hab]; exact c1, ?_, ?_⟩
    · rw [h3 a hau hab, c2]
      cases rest <;> rfl
    · exact ih c3 (fun h => hb (List.mem_cons_of_mem _ h)) (fun h => hu (List.mem_cons_of_mem _ h))

/-- Taking the record `o` out of a chain, between its predecessor `u` and its
successor `w`. -/
theorem Chain.unlink {v v2 : Nat → DimensionPointers} {u o w : Nat}
    (h1 : v2 u = { v u with next := some w })
    (h2 : v2 w = { v w with prev := some u })
    (h3 : ∀ c, c ≠ u → c ≠ w → v2 c = v c) :
    ∀ {p : Ptr} {pre post : List Nat}, Chain v p (pre ++ u :: o :: w :: post) →
      (pre ++ u :: o :: w :: post).Nodup → Chain v2 p (pre ++ u :: w :: post) := by
  intro p pre
  induction pre generalizing p with
  | nil =>
    intro post hc hnd
    obtain ⟨c1, _, _, _, _, c6, c7⟩ := hc
    simp only [List.nil_append, List.nodup_cons, List.mem_cons, not_or] at hnd
    refine ⟨by rw [h1]; exact c1, by rw [h1]; rfl, by rw [h2], by rw [h2]; exact c6, ?_⟩
    apply Chain.congr _ c7
    intro c hc
    apply h3
    · rintro rfl; exact hnd.1.2.2 hc
    · rintro rfl; exact hnd.2.2.1 hc
  | cons a rest ih =>
    intro post hc hnd
    obtain ⟨c1, c2, c3⟩ := hc
    have hnd' := List.nodup_cons.1 hnd
    have hau : a ≠ u := by
      rintro rfl
      exact hnd'.1 (by simp)
    have haw : a ≠ w := by
      rintro rfl
      exact hnd'.1 (by simp)
    refine ⟨by rw [h3 a hau haw]; exact c1, ?_, ih c3 hnd'.2⟩
    rw [h3 a hau haw, c2]
    cases rest <;> rfl

namespace Heap

end Heap

/-! ## The branches of `updateCustomerList` -/

/-- First branch of `updateCustomerList`: the list is empty (`tail == nullptr`). -/
theorem updateCustomerList_empty (H : Heap) (d : String) (DNode newDNode : Ptr) (pc : Int)
    {L : LinkedList} (ht : L.tail = none) :
    updateCustomerList H d DNode newDNode pc L =
      .ok (H, { L with head := newDNode, size := 1, tail := newDNode }) := by
  unfold updateCustomerList
  simp [ht, bind, Except.bind, pure, Except.pure]

theorem WF.singleton {H : Heap} {d : String} {b : Nat} (hb : H.Detached d b)
    (L : LinkedList) :
    WF H d { L with head := some b, size := 1, tail := some b } [b] := by
  refine ⟨by simp, rfl, rfl, rfl, ?_, ?_⟩
  · refine ⟨?_, ?_, trivial⟩
    · rw [hb.2]; rfl
    · rw [hb.2]; rfl
  · intro a ha
    simp at ha
    subst ha
    exact hb.1

theorem WF.tail_none_iff {H : Heap} {d : String} {L : LinkedList} {xs : List Nat}
    (wf : WF H d L xs) : L.tail = none ↔ xs = [] := by
  rw [wf.tail_eq, List.getLast?_eq_none_iff]

/-- Second branch of `updateCustomerList`: the list is not empty and the position is
at most 1; the new record is linked after the tail. -/
theorem updateCustomerList_append {H : Heap} {d : String} {L : LinkedList} {xs : List Nat}
    (wf : WF H d L xs) {t : Nat} (ht : L.tail = some t) (DNode : Ptr) {b : Nat}
    (hb : H.Detached d b) (hbx : b ∉ xs) {pc : Int} (hpc : pc ≤ 1) :
    ∃ H', updateCustomerList H d DNode (some b) pc L =
        .ok (H', { L with size := L.size + 1, tail := some b }) ∧
      WF H' d { L with size := L.size + 1, tail := some b } (xs ++ [b]) ∧
      Heap.Kept H H' ∧ (∀ c, c ∉ xs → c ≠ b → H'.links d c = H.links d c) := by
  have hlast : xs.getLast? = some t := by rw [← wf.tail_eq]; exact ht
  have htx : t ∈ xs := List.mem_of_getLast?_eq_some hlast
  have htb : b ≠ t := fun e => hbx (by rw [e]; exact htx)
  obtain ⟨H1, e1, E1⟩ := Heap.setNext_links d (wf.inv t htx) (some b)
  obtain ⟨H2, e2, E2⟩ := Heap.setPrev_links d (E1.inv b hb.1) (some t)
  refine ⟨H2, ?_, ?_, E1.toKept.andThen E2.toKept, ?_⟩
  · unfold updateCustomerList
    simp [ht, hpc, e1, e2, bind, Except.bind, pure, Except.pure]
  rotate_left
  · intro c h1 h2
    rw [E2.links_ne h2, E1.links_ne (fun e => h1 (by rw [e]; exact htx))]
  · have hvb : H2.links d b = { next := none, prev := some t } := by
      rw [E2.links_at, E1.links_ne htb, hb.2]; rfl
    have hvt : H2.links d t = { H.links d t with next := some b } := by
      rw [E2.links_ne (Ne.symm htb), E1.links_at]
    have hvo : ∀ c, c ≠ t → c ≠ b → H2.links d c = H.links d c := by
      intro c h1 h2
      rw [E2.links_ne h2, E1.links_ne h1]
    refine ⟨?_, ?_, ?_, ?_, Chain.snoc hvb hvt hvo wf.chain hlast hbx wf.nodup, ?_⟩
    · rw [List.nodup_append]
      refine ⟨wf.nodup, by simp, ?_⟩
      intro a ha hab
      simp at hab
      subst hab
      exact hbx ha
    · show L.head = _
      rw [wf.head_eq]
      cases xs with
      | nil => cases hlast
      | cons a rest => rfl
    · show some b = _
      rw [List.getLast?_concat]
    · show L.size + 1 = _
      rw [wf.size_eq]; simp
    · intro a ha
      rw [List.mem_append] at ha
      rcases ha with ha | ha
      · exact E2.inv a (E1.inv a (wf.inv a ha))
      · simp at ha; subst ha
        exact E2.inv a (E1.inv a hb.1)

/-- Third branch of `updateCustomerList`, first case: the position is above 1 and the
old record `o` has no successor (it is the tail, after its predecessor `u`); the new
record takes its place. -/
theorem updateCustomerList_replace {H : Heap} {d : String} {L : LinkedList}
    {pre : List Nat} {u o : Nat} (wf : WF H d L (pre ++ [u, o])) {b : Nat}
    (hb : H.Detached d b) (hbx : b ∉ pre ++ [u, o]) {pc : Int} (hpc : ¬ pc ≤ 1) :
    ∃ H', updateCustomerList H d (some o) (some b) pc L = .ok (H', { L with tail := some b }) ∧
      WF H' d { L with tail := some b } (pre ++ [u, b]) ∧ Heap.Kept H H' ∧
      (∀ c, c ∉ pre ++ [u, o] → c ≠ b → H'.links d c = H.links d c) := by
  have hlast : (pre ++ [u, o]).getLast? = some o := by simp
  have ht : L.tail = some o := by rw [wf.tail_eq]; exact hlast
  have hox : o ∈ pre ++ [u, o] := by simp
  have hux : u ∈ pre ++ [u, o] := by simp
  have hnd := wf.nodup
  have hbu : b ≠ u := fun e => hbx (by rw [e]; exact hux)
  have hou : o ≠ u := by
    intro e
    rw [e] at hnd
    have := List.nodup_append.1 hnd
    simp at this
  have hupre : u ∉ pre := by
    intro h
    exact (List.nodup_append.1 hnd).2.2 h (by simp : u ∈ [u, o])
  have hbpre : b ∉ pre := fun h => hbx (List.mem_append_left _ h)
  have hmid := @Chain.mid _ none pre u o [] wf.chain
  -- `DNode->dimension[customer].next == nullptr`
  obtain ⟨H1, e1, E1⟩ := Heap.getNext_links d (wf.inv o hox)
  have hn : H.nextOf d o = none := wf.chain.last_next hlast
  -- `customerList->tail->dimension[customer].prev`
  obtain ⟨H2, e2, E2⟩ := Heap.getPrev_links d (E1.inv o (wf.inv o hox))
  have hp : H1.prevOf d o = some u := by
    unfold Heap.prevOf; rw [E1.links_same]; exact hmid.2.1
  obtain ⟨H3, e3, E3⟩ := Heap.setNext_links d (E2.inv u (E1.inv u (wf.inv u hux))) (some b)
  obtain ⟨H4, e4, E4⟩ := Heap.getPrev_links d (E3.inv o (E2.inv o (E1.inv o (wf.inv o hox))))
  have hp' : H3.prevOf d o = some u := by
    unfold Heap.prevOf; rw [E3.links_ne hou, E2.links_same, E1.links_same]; exact hmid.2.1
  obtain ⟨H5, e5, E5⟩ :=
    Heap.setPrev_links d (E4.inv b (E3.inv b (E2.inv b (E1.inv b hb.1)))) (some u)
  have hfr : Heap.Kept H H5 :=
    E1.toKept.andThen (E2.toKept.andThen (E3.toKept.andThen (E4.toKept.andThen E5.toKept)))
  refine ⟨H5, ?_, ?_, hfr, ?_⟩
  · unfold updateCustomerList
    rw [hn] at e1
    rw [hp] at e2
    rw [hp'] at e4
    simp [ht, hpc, e1, e2, e3, e4, e5, bind, Except.bind, pure, Except.pure]
  rotate_left
  · intro c h1 h2
    rw [E5.links_ne h2, E4.links_same, E3.links_ne (fun e => h1 (by rw [e]; exact hux)),
      E2.links_same, E1.links_same]
  · have hvb : H5.links d b = { next := none, prev := some u } := by
      rw [E5.links_at, E4.links_same, E3.links_ne hbu, E2.links_same, E1.links_same, hb.2]; rfl
    have hvu : H5.links d u = { H.links d u with next := some b } := by
      rw [E5.links_ne (Ne.symm hbu), E4.links_same, E3.links_at, E2.links_same, E1.links_same]
    have hvo : ∀ c, c ≠ u → c ≠ b → H5.links d c = H.links d c := by
      intro c h1 h2
      rw [E5.links_ne h2, E4.links_same, E3.links_ne h1, E2.links_same, E1.links_same]
    refine ⟨?_, ?_, ?_, ?_, Chain.replace_last hvb hvu hvo wf.chain hbpre hupre, ?_⟩
    · rw [List.nodup_append] at hnd ⊢
      refine ⟨hnd.1, by simp [Ne.symm hbu], ?_⟩
      intro a ha hab
      simp at hab
      rcases hab with rfl | rfl
      · exact hupre ha
      · exact hbpre ha
    · show L.head = _
      rw [wf.head_eq]
      cases pre <;> rfl
    · show some b = _
      simp
    · show L.size = _
      rw [wf.size_eq]; simp
    · intro a ha
      have : a = b ∨ a ∈ pre ++ [u, o] := by
        simp at ha ⊢
        tauto
      rcases this with rfl | h
      · exact hfr.inv a hb.1
      · exact hfr.inv a (wf.inv a h)

/-- Third branch of `updateCustomerList`, second case: the position is above 1 and the
old record `o` has a successor `w` and a predecessor `u`; it is taken out and the new
record is linked after the tail. -/
theorem updateCustomerList_unlink {H : Heap} {d : String} {L : LinkedList}
    {pre post : List Nat} {u o w : Nat} (wf : WF H d L (pre ++ u :: o :: w :: post)) {b : Nat}
    (hb : H.Detached d b) (hbx : b ∉ pre ++ u :: o :: w :: post) {pc : Int} (hpc : ¬ pc ≤ 1) :
    ∃ H', updateCustomerList H d (some o) (some b) pc L = .ok (H', { L with tail := some b }) ∧
      WF H' d { L with tail := some b } (pre ++ u :: w :: post ++ [b]) ∧
      Heap.Kept H H' ∧
      (∀ c, c ∉ pre ++ u :: o :: w :: post → c ≠ b → H'.links d c = H.links d c) := by
  have hnd := wf.nodup
  obtain ⟨t, hlast0⟩ : ∃ t, (w :: post).getLast? = some t := by
    cases h : (w :: post).getLast? with
    | none => simp at h
    | some t => exact ⟨t, rfl⟩
  have hlast : (pre ++ u :: o :: w :: post).getLast? = some t := by
    rw [List.getLast?_append, List.getLast?_cons_cons, List.getLast?_cons_cons, hlast0]; rfl
  have hlast' : (pre ++ u :: w :: post).getLast? = some t := by
    rw [List.getLast?_append, List.getLast?_cons_cons, hlast0]; rfl
  have ht : L.tail = some t := by rw [wf.tail_eq]; exact hlast
  have hox : o ∈ pre ++ u :: o :: w :: post := by simp
  have hux : u ∈ pre ++ u :: o :: w :: post := by simp
  have hwx : w ∈ pre ++ u :: o :: w :: post := by simp
  have htx : t ∈ pre ++ u :: o :: w :: post := List.mem_of_getLast?_eq_some hlast
  have hnd2 := (List.nodup_append.1 hnd).2.1
  simp only [List.nodup_cons, List.mem_cons, not_or] at hnd2
  have hou : o ≠ u := Ne.symm hnd2.1.1
  have how : o ≠ w := hnd2.2.1.1
  have huw : u ≠ w := hnd2.1.2.1
  have hbu : b ≠ u := fun e => hbx (by rw [e]; exact hux)
  have hbw : b ≠ w := fun e => hbx (by rw [e]; exact hwx)
  have hbt : b ≠ t := fun e => hbx (by rw [e]; exact htx)
  have hmid := wf.chain.mid
  simp only [List.head?_cons] at hmid
  have hro := wf.inv o hox
  have hru := wf.inv u hux
  have hrw := wf.inv w hwx
  have hrt := wf.inv t htx
  -- `DNode->dimension[customer].next == nullptr`
  obtain ⟨H1, e1, E1⟩ := Heap.getNext_links d hro
  have hn : H.nextOf d o = some w := hmid.2.2
  -- `DNode->dimension[customer].prev->dimension[customer].next = DNode->dimension[customer].next`
  obtain ⟨H2, e2, E2⟩ := Heap.getNext_links d (E1.inv o hro)
  have hn2 : H1.nextOf d o = some w := by
    unfold Heap.nextOf; rw [E1.links_same]; exact hmid.2.2
  have F2 := E1.toKept.andThen E2.toKept
  obtain ⟨H3, e3, E3⟩ := Heap.getPrev_links d (F2.inv o hro)
  have hp3 : H2.prevOf d o = some u := by
    unfold Heap.prevOf; rw [E2.links_same, E1.links_same]; exact hmid.2.1
  have F3 := F2.andThen E3.toKept
  obtain ⟨H4, e4, E4⟩ := Heap.setNext_links d (F3.inv u hru) (some w)
  have F4 := F3.andThen E4.toKept
  -- `DNode->dimension[customer].next->dimension[customer].prev = DNode->dimension[customer].prev`
  obtain ⟨H5, e5, E5⟩ := Heap.getPrev_links d (F4.inv o hro)
  have hv4 : ∀ c, c ≠ u → H4.links d c = H.links d c := by
    intro c hc
    rw [E4.links_ne hc, E3.links_same, E2.links_same, E1.links_same]
  have hp5 : H4.prevOf d o = some u := by
    unfold Heap.prevOf; rw [hv4 o hou]; exact hmid.2.1
  have F5 := F4.andThen E5.toKept
  obtain ⟨H6, e6, E6⟩ := Heap.getNext_links d (F5.inv o hro)
  have hn6 : H5.nextOf d o = some w := by
    unfold Heap.nextOf; rw [E5.links_same, hv4 o hou]; exact hmid.2.2
  have F6 := F5.andThen E6.toKept
  obtain ⟨H7, e7, E7⟩ := Heap.setPrev_links d (F6.inv w hrw) (some u)
  have F7 := F6.andThen E7.toKept
  -- `customerList->tail->dimension[customer].next = newDNode`
  obtain ⟨H8, e8, E8⟩ := Heap.setNext_links d (F7.inv t hrt) (some b)
  have F8 := F7.andThen E8.toKept
  obtain ⟨H9, e9, E9⟩ := Heap.setPrev_links d (F8.inv b hb.1) (some t)
  have F9 := F8.andThen E9.toKept
  refine ⟨H9, ?_, ?_, F9, ?_⟩
  · unfold updateCustomerList
    rw [hn] at e1
    rw [hn2] at e2
    rw [hp3] at e3
    rw [hp5] at e5
    rw [hn6] at e6
    simp [ht, hpc, e1, e2, e3, e4, e5, e6, e7, e8, e9, bind, Except.bind, pure, Except.pure]
  rotate_left
  · intro c h1 h2
    rw [E9.links_ne h2, E8.links_ne (fun e => h1 (by rw [e]; exact htx)),
      E7.links_ne (fun e => h1 (by rw [e]; exact hwx)), E6.links_same, E5.links_same,
      hv4 c (fun e => h1 (by rw [e]; exact hux))]
  · -- the links after the record is taken out
    have hv7u : H7.links d u = { H.links d u with next := some w } := by
      rw [E7.links_ne huw, E6.links_same, E5.links_same, E4.links_at, E3.links_same, E2.links_same,
        E1.links_same]
    have hv7w : H7.links d w = { H.links d w with prev := some u } := by
      rw [E7.links_at, E6.links_same, E5.links_same, hv4 w (Ne.symm huw)]
    have hv7o : ∀ c, c ≠ u → c ≠ w → H7.links d c = H.links d c := by
      intro c h1 h2
      rw [E7.links_ne h2, E6.links_same, E5.links_same, hv4 c h1]
    have hc7 : Chain (H7.links d) none (pre ++ u :: w :: post) :=
      Chain.unlink hv7u hv7w hv7o wf.chain hnd
    have hnd' : (pre ++ u :: w :: post).Nodup := by
      rw [List.nodup_append] at hnd ⊢
      refine ⟨hnd.1, ?_, ?_⟩
      · have := hnd.2.1
        simp only [List.nodup_cons, List.mem_cons, not_or] at this ⊢
        tauto
      · intro a ha hab
        apply hnd.2.2 ha
        simp only [List.mem_cons] at hab ⊢
        tauto
    have hbx' : b ∉ pre ++ u :: w :: post := by
      intro h
      apply hbx
      simp only [List.mem_append, List.mem_cons] at h ⊢
      tauto
    -- the links after the new record is appended
    have hvb : H9.links d b = { next := none, prev := some t } := by
      rw [E9.links_at, E8.links_ne hbt, hv7o b hbu hbw, hb.2]; rfl
    have hvt : H9.links d t = { H7.links d t with next := some b } := by
      rw [E9.links_ne (Ne.symm hbt), E8.links_at]
    have hvo : ∀ c, c ≠ t → c ≠ b → H9.links d c = H7.links d c := by
      intro c h1 h2
      rw [E9.links_ne h2, E8.links_ne h1]
    refine ⟨?_, ?_, ?_, ?_, ?_, ?_⟩
    · rw [List.nodup_append]
      refine ⟨hnd', by simp, ?_⟩
      intro a ha hab
      simp at hab
      subst hab
      exact hbx' ha
    · show L.head = _
      rw [wf.head_eq]
      cases pre <;> rfl
    · show some b = _
      rw [List.getLast?_concat]
    · show L.size = _
      rw [wf.size_eq]; simp
    · exact Chain.snoc hvb hvt hvo hc7 hlast' hbx' hnd'
    · intro a ha
      have : a = b ∨ a ∈ pre ++ u :: o :: w :: post := by
        simp only [List.mem_append, List.mem_cons, List.mem_singleton, List.not_mem_nil,
          or_false] at ha ⊢
        tauto
      rcases this with rfl | h
      · exact F9.inv a hb.1
      · exact F9.inv a (wf.inv a h)

/-! ## Walking a list, allocating a record -/

/-- The walk along `next[d]` from the first record of a chain visits the chain. -/
theorem traverse_chain (d : String) :
    ∀ (xs : List Nat) (p : Ptr) (H : Heap) (n : Nat), Chain (H.links d) p xs →
      (∀ a, a ∈ xs → H.NodeInv a) →
      ∃ H', traverse d (n + xs.length + 1) H xs.head? = .ok (H', xs) ∧
        H'.links d = H.links d ∧ Heap.Kept H H' := by
  intro xs
  induction xs with
  | nil =>
    intro p H n _ _
    exact ⟨H, rfl, rfl, Heap.Kept.same H⟩
  | cons a rest ih =>
    intro p H n hc hr
    obtain ⟨H1, e1, E1⟩ := Heap.getNext_links d (hr a (List.mem_cons_self _ _))
    have hnext : H.nextOf d a = rest.head? := hc.2.1
    rw [hnext] at e1
    have hc1 : Chain (H1.links d) (some a) rest := by rw [E1.links_same]; exact hc.2.2
    obtain ⟨H2, e2, hv2, F2⟩ := ih (some a) H1 n hc1
      (fun b hb => E1.inv b (hr b (List.mem_cons_of_mem _ hb)))
    refine ⟨H2, ?_, by rw [hv2, E1.links_same], E1.toKept.andThen F2⟩
    show traverse d (n + rest.length + 1 + 1) H (some a) = _
    unfold traverse
    simp only [e1, bind, Except.bind, e2, pure, Except.pure]

/-- The walk from the head of a well-formed list visits exactly its records, in order. -/
theorem WF.traverse {H : Heap} {d : String} {L : LinkedList} {xs : List Nat}
    (wf : WF H d L xs) (n : Nat) :
    ∃ H', traverse d (n + xs.length + 1) H L.head = .ok (H', xs) ∧ H'.links d = H.links d ∧
      Heap.Kept H H' := by
  rw [wf.head_eq]
  exact traverse_chain d xs none H n wf.chain wf.inv

theorem WF.head_prev {H : Heap} {d : String} {L : LinkedList} {xs : List Nat}
    (wf : WF H d L xs) {a : Nat} (ha : L.head = some a) : H.prevOf d a = none := by
  rw [wf.head_eq] at ha
  cases xs with
  | nil => cases ha
  | cons x rest =>
    simp at ha
    subst ha
    exact wf.chain.1

theorem WF.tail_next {H : Heap} {d : String} {L : LinkedList} {xs : List Nat}
    (wf : WF H d L xs) {a : Nat} (ha : L.tail = some a) : H.nextOf d a = none := by
  rw [wf.tail_eq] at ha
  exact wf.chain.last_next ha

namespace Heap

theorem getElem?_append_left {H : Heap} (N : Heap) {a : Nat} (ha : a < H.length) :
    (H ++ N)[a]? = H[a]? := by
  rw [List.getElem?_append_left ha]

theorem NodeReady.of_append {H : Heap} {d : String} {a : Nat} (hr : H.NodeReady d a) (N : Heap) :
    (H ++ N).NodeReady d a := by
  obtain ⟨node, hn, h⟩ := hr
  exact ⟨node, by rw [getElem?_append_left N (List.getElem?_eq_some_iff.1 hn).1]; exact hn, h⟩

theorem view_append {H : Heap} (N : Heap) (d : String) {a : Nat} (ha : a < H.length) :
    (H ++ N).view d a = H.view d a := by
  unfold view
  rw [getElem?_append_left N ha]

/-- The directory of a record just created is ready for every dimension and holds no
link. -/
theorem new_ready (d : String) :
    DimensionNode.new.dimension.Ready d ∧ DimensionNode.new.dimension.lookup d = none := by
  have hlook : DimensionNode.new.dimension.lookup d = none := by
    rw [Hash.lookup_none_iff]
    intro j s hs hocc
    have := Hash.slot?_withCapacity hs
    rw [this] at hocc
    cases hocc
  refine ⟨⟨Hash.inv_withCapacity _, Or.inr (Or.inr ⟨0, ?_, ?_⟩)⟩, hlook⟩
  · show 0 < (Hash.new 4 : Hash String DimensionPointers).capacity
    unfold Hash.new
    rw [Hash.capacity_withCapacity]
    exact (findNextPrime_spec _).1.pos
  · show (Hash.new 4 : Hash String DimensionPointers).stateAt _ ≠ _
    unfold Hash.new
    rw [Hash.stateAt_withCapacity]
    decide

/-- The record that `new DimensionNode<int>` creates is unlinked in every dimension. -/
theorem alloc_unlinked (H : Heap) (d : String) : (H.alloc).1.Unlinked d (H.alloc).2 := by
  have hn : (H ++ [DimensionNode.new])[H.length]? = some DimensionNode.new := by simp
  refine ⟨⟨DimensionNode.new, hn, (new_ready d).1⟩, ?_⟩
  show (H ++ [DimensionNode.new]).view d H.length = default
  rw [view_of_getElem? hn, (new_ready d).2]
  rfl

theorem Unlinked.after_append {H : Heap} {d : String} {a : Nat} (hu : H.Unlinked d a) (N : Heap) :
    (H ++ N).Unlinked d a :=
  ⟨hu.1.of_append N, by rw [view_append N d hu.1.lt_length]; exact hu.2⟩

end Heap

namespace Heap

theorem NodeInv.of_heap_append {H : Heap} {a : Nat} (hi : H.NodeInv a) (N : Heap) :
    (H ++ N).NodeInv a := by
  obtain ⟨node, hn, h⟩ := hi
  exact ⟨node, by rw [getElem?_append_left N (List.getElem?_eq_some_iff.1 hn).1]; exact hn, h⟩

theorem links_append {H : Heap} (N : Heap) (d : String) {a : Nat} (ha : a < H.length) :
    (H ++ N).links d a = H.links d a := by
  unfold links
  rw [getElem?_append_left N ha]

/-- The record that `new DimensionNode<int>` creates is fresh for every dimension. -/
theorem alloc_detached (H : Heap) (d : String) : (H.alloc).1.Detached d (H.alloc).2 := by
  have hn : (H ++ [DimensionNode.new])[H.length]? = some DimensionNode.new := by simp
  refine ⟨⟨DimensionNode.new, hn, (new_ready d).1.1⟩, ?_⟩
  show (H ++ [DimensionNode.new]).links d H.length = default
  rw [links_of_getElem? hn, Hash.peek_of_ready (new_ready d).1, (new_ready d).2]
  rfl

end Heap

theorem WF.append_heap {H : Heap} {d : String} {L : LinkedList} {xs : List Nat}
    (wf : WF H d L xs) (N : Heap) : WF (H ++ N) d L xs :=
  ⟨wf.nodup, wf.head_eq, wf.tail_eq, wf.size_eq,
    Chain.congr (fun a ha => Heap.links_append N d (wf.inv a ha).allocated) wf.chain,
    fun a ha => (wf.inv a ha).of_heap_append N⟩

theorem WF.mem_lt {H : Heap} {d : String} {L : LinkedList} {xs : List Nat}
    (wf : WF H d L xs) {a : Nat} (ha : a ∈ xs) : a < H.length := (wf.inv a ha).allocated

theorem WF.length_not_mem {H : Heap} {d : String} {L : LinkedList} {xs : List Nat}
    (wf : WF H d L xs) : H.length ∉ xs := fun h => Nat.lt_irrefl _ (wf.mem_lt h)

/-! ## Superseding a record that is not the head -/

theorem mem_tail_split {o : Nat} : ∀ {xs : List Nat}, o ∈ xs.tail →
    ∃ pre u post, xs = pre ++ u :: o :: post := by
  intro xs h
  cases xs with
  | nil => simp at h
  | cons x tl =>
    simp only [List.tail_cons] at h
    obtain ⟨s, post, hs⟩ := List.append_of_mem h
    rcases List.eq_nil_or_concat s with rfl | ⟨s', u, rfl⟩
    · exact ⟨[], x, post, by rw [hs]; rfl⟩
    · exact ⟨x :: s', u, post, by rw [hs]; simp⟩

theorem erase_mid {pre post : List Nat} {u o : Nat} (hnd : (pre ++ u :: o :: post).Nodup) :
    (pre ++ u :: o :: post).erase o = pre ++ u :: post := by
  have h1 := List.nodup_append.1 hnd
  have ho : o ∉ pre := fun h => h1.2.2 h (by simp)
  have hu : u ≠ o := by
    have := h1.2.1
    simp only [List.nodup_cons, List.mem_cons, not_or] at this
    exact this.1.1
  rw [List.erase_append_right _ ho, List.erase_cons_tail (by simpa using hu),
    List.erase_cons_head]

/-- Third branch of `updateCustomerList`: the position is above 1 and the old record is
linked into the list at a place other than the head. The new order is the previous
order with the old record removed and the new record appended. -/
theorem updateCustomerList_supersede {H : Heap} {d : String} {L : LinkedList}
    {xs : List Nat} (wf : WF H d L xs) {o : Nat} (ho : o ∈ xs.tail) {b : Nat}
    (hb : H.Detached d b) (hbx : b ∉ xs) {pc : Int} (hpc : ¬ pc ≤ 1) :
    ∃ H', updateCustomerList H d (some o) (some b) pc L = .ok (H', { L with tail := some b }) ∧
      WF H' d { L with tail := some b } (xs.erase o ++ [b]) ∧ Heap.Kept H H' ∧
      (∀ c, c ∉ xs → c ≠ b → H'.links d c = H.links d c) := by
  obtain ⟨pre, u, post, rfl⟩ := mem_tail_split ho
  rw [erase_mid wf.nodup]
  cases post with
  | nil =>
    obtain ⟨H', h1, h2, h3, h4⟩ := updateCustomerList_replace wf hb hbx hpc
    exact ⟨H', h1, by simpa using h2, h3, h4⟩
  | cons w post' =>
    obtain ⟨H', h1, h2, h3, h4⟩ := updateCustomerList_unlink wf hb hbx hpc
    exact ⟨H', h1, by simpa using h2, h3, h4⟩

/-! ## Calls with freshly created records -/

theorem WF.empty (H : Heap) (d : String) : WF H d LinkedList.new [] :=
  ⟨List.nodup_nil, rfl, rfl, rfl, trivial, fun _ h => by cases h⟩

/-- A call of `updateCustomerList` on a well-formed list, with a freshly created new
record: with an empty list or a position of at most 1 the record is appended. -/
theorem relocateFresh_append {H : Heap} {d : String} {L : LinkedList} {xs : List Nat}
    (wf : WF H d L xs) (DNode : Ptr) {pc : Int} (hpc : xs = [] ∨ pc ≤ 1) :
    ∃ G M, relocateFresh H d DNode pc L = .ok (G, M) ∧ WF G d M (xs ++ [H.length]) ∧
      G.length = H.length + 1 ∧ M.size = L.size + 1 ∧ M.tail = some H.length ∧
      (xs ≠ [] → M.head = L.head) ∧ (xs = [] → M.head = some H.length) := by
  have wf1 : WF (H.alloc).1 d L xs := wf.append_heap _
  have hb : (H.alloc).1.Detached d (H.alloc).2 := Heap.alloc_detached H d
  have hbx : (H.alloc).2 ∉ xs := wf.length_not_mem
  have hlen : (H.alloc).1.length = H.length + 1 := by simp [Heap.alloc]
  unfold relocateFresh
  by_cases hx : xs = []
  · subst hx
    have ht : L.tail = none := wf.tail_none_iff.2 rfl
    have hs : L.size = 0 := by rw [wf.size_eq]; rfl
    refine ⟨_, _, updateCustomerList_empty _ d DNode _ pc ht, WF.singleton hb L, hlen,
      by simp [hs], rfl, fun h => absurd rfl h, fun _ => rfl⟩
  · have hpc' : pc ≤ 1 := by
      rcases hpc with h | h
      · exact absurd h hx
      · exact h
    obtain ⟨t, ht⟩ : ∃ t, L.tail = some t := by
      cases h : L.tail with
      | none => exact absurd (wf.tail_none_iff.1 h) hx
      | some t => exact ⟨t, rfl⟩
    obtain ⟨G, h1, h2, h3, _⟩ := updateCustomerList_append wf1 ht DNode hb hbx hpc'
    exact ⟨G, _, h1, h2, by rw [h3.length, hlen], rfl, rfl, fun _ => rfl,
      fun h => absurd h hx⟩

/-- A call of `updateCustomerList` on a well-formed list, with a freshly created new
record, a position above 1 and an old record linked at a place other than the head: the
old record is removed and the new record appended. -/
theorem relocateFresh_supersede {H : Heap} {d : String} {L : LinkedList} {xs : List Nat}
    (wf : WF H d L xs) {o : Nat} (ho : o ∈ xs.tail) {pc : Int} (hpc : 2 ≤ pc) :
    ∃ G M, relocateFresh H d (some o) pc L = .ok (G, M) ∧
      WF G d M (xs.erase o ++ [H.length]) ∧ G.length = H.length + 1 ∧ M.size = L.size ∧
      M.tail = some H.length ∧ M.head = L.head := by
  have wf1 : WF (H.alloc).1 d L xs := wf.append_heap _
  have hb : (H.alloc).1.Detached d (H.alloc).2 := Heap.alloc_detached H d
  have hbx : (H.alloc).2 ∉ xs := wf.length_not_mem
  have hlen : (H.alloc).1.length = H.length + 1 := by simp [Heap.alloc]
  obtain ⟨G, h1, h2, h3, _⟩ := updateCustomerList_supersede wf1 ho hb hbx (by omega : ¬ pc ≤ 1)
  exact ⟨G, _, h1, h2, by rw [h3.length, hlen], rfl, rfl, rfl⟩

/-- Every call that `Relocated` admits succeeds and leaves a well-formed list. -/
theorem relocateFresh_wf {H : Heap} {d : String} {L : LinkedList} {xs : List Nat}
    (wf : WF H d L xs) {DNode : Ptr} {pc : Int} (hold : OldLinkedInner H d L DNode pc) :
    ∃ G M ys, relocateFresh H d DNode pc L = .ok (G, M) ∧ WF G d M ys := by
  by_cases hpc : pc ≤ 1
  · obtain ⟨G, M, h1, h2, _⟩ := relocateFresh_append wf DNode (Or.inr hpc)
    exact ⟨G, M, _, h1, h2⟩
  · obtain ⟨ys, o, wf', rfl, ho⟩ := hold (by omega)
    obtain ⟨G, M, h1, h2, _⟩ := relocateFresh_supersede wf' ho (by omega : 2 ≤ pc)
    exact ⟨G, M, _, h1, h2⟩

theorem Relocated.wf {d : String} {H : Heap} {L : LinkedList} (hr : Relocated d H L) :
    ∃ xs, WF H d L xs := by
  induction hr with
  | start H => exact ⟨[], WF.empty H d⟩
  | call DNode pc _ hold hcall ih =>
    obtain ⟨xs, wf⟩ := ih
    obtain ⟨G, M, ys, h1, h2⟩ := relocateFresh_wf wf hold
    rw [h1] at hcall
    cases hcall
    exact ⟨ys, h2⟩

/-- Building a list by appends. -/
theorem appendAll_spec (d : String) : ∀ (pcs : List Int) {H : Heap} {L : LinkedList}
    {xs : List Nat}, WF H d L xs → (∀ pc, pc ∈ pcs → pc ≤ 1) →
    ∃ G M, appendAll d pcs H L = .ok (G, M) ∧
      WF G d M (xs ++ List.range' H.length pcs.length) ∧ G.length = H.length + pcs.length := by
  intro pcs
  induction pcs with
  | nil =>
    intro H L xs wf _
    exact ⟨H, L, rfl, by simpa using wf, rfl⟩
  | cons pc pcs ih =>
    intro H L xs wf hpc
    obtain ⟨G1, M1, h1, wf1, hl1, _⟩ :=
      relocateFresh_append wf none (Or.inr (hpc pc (List.mem_cons_self _ _)))
    obtain ⟨G, M, h2, wf2, hl2⟩ := ih wf1 (fun p hp => hpc p (List.mem_cons_of_mem _ hp))
    refine ⟨G, M, ?_, ?_, by rw [hl2, hl1]; simp; omega⟩
    · unfold appendAll
      simp only [h1, bind, Except.bind]
      exact h2
    · rw [hl1] at wf2
      simpa [List.range'_succ] using wf2

/-! ## Concrete lists -/

theorem resultOf_ok {α : Type} {r : Except Exn α} {x : α} (h : r = .ok x) (fallback : α) :
    resultOf r fallback = x := by
  rw [h]; rfl

theorem listABC_wf : WF listABC.1 "x" listABC.2 [0, 1, 2] := by
  obtain ⟨G, M, h, wf, _⟩ := appendAll_spec "x" [0, 0, 0] (WF.empty [] "x")
    (by intro pc hpc; simp at hpc; omega)
  have e : listABC = (G, M) := resultOf_ok h _
  rw [e]
  exact wf

theorem listBC_wf : WF listBC.1 "x" listBC.2 [0, 1] := by
  obtain ⟨G, M, h, wf, _⟩ := appendAll_spec "x" [0, 1] (WF.empty [] "x")
    (by intro pc hpc; simp at hpc; omega)
  have e : listBC = (G, M) := resultOf_ok h _
  rw [e]
  exact wf

/-! ## Claims about `updateCustomerList` -/

/-- C5: on a well-formed, non-empty list of dimension `d`, a call of `updateCustomerList`
with a fresh record `b`, any old record (absent or not) and `priorCount <= 1` appends:
the new order is the previous order followed by `b`, the size grows by one, the head is
unchanged and the tail is `b`. On a list whose `tail` is absent, whatever `priorCount`
is, `b` becomes the sole element: `head = tail = b` and `size = 1`. -/
theorem C5_append_keeps_order (H : Heap) (d : String) (L : LinkedList) (DNode : Ptr)
    (b : Nat) (pc : Int) (hb : H.Detached d b) :
    (∀ xs, WF H d L xs → xs ≠ [] → b ∉ xs → pc ≤ 1 →
      ∃ G M, updateCustomerList H d DNode (some b) pc L = .ok (G, M) ∧
        WF G d M (xs ++ [b]) ∧ M.size = L.size + 1 ∧ M.head = L.head ∧ M.tail = some b) ∧
    (L.tail = none →
      ∃ M, updateCustomerList H d DNode (some b) pc L = .ok (H, M) ∧
        WF H d M [b] ∧ M.head = some b ∧ M.tail = some b ∧ M.size = 1) := by
  constructor
  · intro xs wf hx hbx hpc
    obtain ⟨t, ht⟩ : ∃ t, L.tail = some t := by
      cases h : L.tail with
      | none => exact absurd (wf.tail_none_iff.1 h) hx
      | some t => exact ⟨t, rfl⟩
    obtain ⟨G, h1, h2, _⟩ := updateCustomerList_append wf ht DNode hb hbx hpc
    exact ⟨G, _, h1, h2, rfl, rfl, rfl⟩
  · intro ht
    exact ⟨_, updateCustomerList_empty H d DNode (some b) pc ht, WF.singleton hb L, rfl, rfl,
      rfl⟩

/-- C5 at the list `[A, B, C]` with a fresh record `D` (address 3), the old record `A`
and `priorCount = 1`, and at the empty list with `priorCount = 7`. -/
theorem C5_append_keeps_order_witness :
    (∃ G M, updateCustomerList (listABC.1.alloc).1 "x" (some 0) (some 3) 1 listABC.2
        = .ok (G, M) ∧
      WF G "x" M [0, 1, 2, 3] ∧ M.size = 4 ∧ M.head = some 0 ∧ M.tail = some 3) ∧
    (∃ M, updateCustomerList (listABC.1.alloc).1 "x" (some 0) (some 3) 7 LinkedList.new
        = .ok ((listABC.1.alloc).1, M) ∧
      WF (listABC.1.alloc).1 "x" M [3] ∧ M.head = some 3 ∧ M.tail = some 3 ∧ M.size = 1) :=
  ⟨(C5_append_keeps_order (listABC.1.alloc).1 "x" listABC.2 (some 0) 3 1
      (Heap.alloc_detached listABC.1 "x")).1 [0, 1, 2] (listABC_wf.append_heap _)
      (by decide) (by decide) (by decide),
    (C5_append_keeps_order (listABC.1.alloc).1 "x" LinkedList.new (some 0) 3 7
      (Heap.alloc_detached listABC.1 "x")).2 rfl⟩

/-- C3: on a well-formed list of dimension `d` whose tail `o` has a predecessor, a call
of `updateCustomerList` with `o` as the old record, a fresh record `b` and
`priorCount >= 2` puts `b` in the place of `o`: the new order is the previous order with
its last record replaced by `b`, the size is unchanged, the tail is `b`, and the walk
from the head visits the new order, in which `o` does not occur. -/
theorem C3_replace_tail {H : Heap} {d : String} {L : LinkedList} {xs : List Nat}
    (wf : WF H d L xs) {o : Nat} (ho : L.tail = some o) (hprev : H.prevOf d o ≠ none)
    {b : Nat} (hb : H.Detached d b) (hbx : b ∉ xs) {pc : Int} (hpc : 2 ≤ pc) :
    H.nextOf d o = none ∧
    ∃ G M, updateCustomerList H d (some o) (some b) pc L = .ok (G, M) ∧
      WF G d M (xs.dropLast ++ [b]) ∧ M.size = L.size ∧ M.tail = some b ∧
      M.head = L.head ∧
      (∃ G', traverse d (xs.length + 1) G M.head = .ok (G', xs.dropLast ++ [b])) ∧
      o ∉ xs.dropLast ++ [b] := by
  refine ⟨wf.tail_next ho, ?_⟩
  have hlast : xs.getLast? = some o := by rw [← wf.tail_eq]; exact ho
  obtain ⟨ys, rfl⟩ := List.getLast?_eq_some_iff.1 hlast
  rcases List.eq_nil_or_concat ys with rfl | ⟨pre, u, rfl⟩
  · exact absurd wf.chain.1 hprev
  · have e : pre.concat u ++ [o] = pre ++ [u, o] := by simp
    rw [e] at wf hbx ⊢
    obtain ⟨G, h1, h2, _⟩ := updateCustomerList_replace wf hb hbx (by omega : ¬ pc ≤ 1)
    have hd : (pre ++ [u, o]).dropLast ++ [b] = pre ++ [u, b] := by
      rw [show pre ++ [u, o] = (pre ++ [u]) ++ [o] by simp, List.dropLast_concat]; simp
    rw [hd]
    obtain ⟨G', h3, _⟩ := h2.traverse 0
    refine ⟨G, _, h1, h2, rfl, rfl, rfl, ⟨G', ?_⟩, ?_⟩
    · have : (pre ++ [u, o]).length + 1 = 0 + (pre ++ [u, b]).length + 1 := by simp
      rw [this]; exact h3
    · have hnd := wf.nodup
      intro hmem
      have hob : o ≠ b := fun e => hbx (by rw [← e]; simp)
      have : o ∈ pre ++ [u] := by
        simp only [List.mem_append, List.mem_cons, List.mem_singleton, List.not_mem_nil,
          or_false] at hmem ⊢
        rcases hmem with h | h | h
        · exact Or.inl h
        · exact Or.inr h
        · exact absurd h hob
      rw [show pre ++ [u, o] = (pre ++ [u]) ++ [o] by simp] at hnd
      exact (List.nodup_append.1 hnd).2.2 this (by simp)

/-- C3 at the list `[B, C]` (addresses 0, 1) with `C` superseded by a fresh record `E`
(address 2): the list becomes `[B, E]` with size 2. -/
theorem C3_replace_tail_witness :
    (listBC.1.alloc).1.nextOf "x" 1 = none ∧
    ∃ G M, updateCustomerList (listBC.1.alloc).1 "x" (some 1) (some 2) 2 listBC.2
        = .ok (G, M) ∧
      WF G "x" M [0, 2] ∧ M.size = listBC.2.size ∧ M.tail = some 2 ∧
      M.head = listBC.2.head ∧
      (∃ G', traverse "x" 3 G M.head = .ok (G', [0, 2])) ∧ 1 ∉ [0, 2] :=
  C3_replace_tail (listBC_wf.append_heap _) (o := 1) rfl (by decide)
    (Heap.alloc_detached listBC.1 "x") (by decide) (by decide)

/-- C2 as stated fails: in the list `[A, B, C]` (addresses 0, 1, 2) built by appends the
head `A` has the successor `B`; superseding `A` by a fresh record `D` with
`priorCount = 2` does not complete: `A` has no predecessor, and the call dereferences
the null pointer `A->dimension[d].prev`. -/
theorem C2_supersede_head_fails :
    WF listABC.1 "x" listABC.2 [0, 1, 2] ∧ listABC.2.head = some 0 ∧
    listABC.1.nextOf "x" 0 = some 1 ∧
    relocateFresh listABC.1 "x" (some 0) 2 listABC.2 = .error .undefined_behaviour :=
  ⟨listABC_wf, rfl, rfl, rfl⟩

/-- C2 (amended): on a well-formed list of dimension `d`, for a record `o` of the list
that has a successor and a predecessor in `d` (so the head is excluded), a call of
`updateCustomerList` with `o` as the old record, a fresh record `b` and
`priorCount >= 2` completes and yields the previous order with `o` removed and `b`
appended last, with the size unchanged. -/
theorem C2_supersede_inner {H : Heap} {d : String} {L : LinkedList} {xs : List Nat}
    (wf : WF H d L xs) {o : Nat} (ho : o ∈ xs) (_hnext : H.nextOf d o ≠ none)
    (hprev : H.prevOf d o ≠ none) {b : Nat} (hb : H.Detached d b) (hbx : b ∉ xs) {pc : Int}
    (hpc : 2 ≤ pc) :
    ∃ G M, updateCustomerList H d (some o) (some b) pc L = .ok (G, M) ∧
      WF G d M (xs.erase o ++ [b]) ∧ M.size = L.size ∧
      (∃ G', traverse d (xs.length + 1) G M.head = .ok (G', xs.erase o ++ [b])) := by
  have hot : o ∈ xs.tail := by
    cases xs with
    | nil => cases ho
    | cons x rest =>
      rcases List.mem_cons.1 ho with rfl | h
      · exact absurd wf.chain.1 hprev
      · exact h
  obtain ⟨G, h1, h2, _⟩ := updateCustomerList_supersede wf hot hb hbx (by omega : ¬ pc ≤ 1)
  obtain ⟨G', h3, _⟩ := h2.traverse 0
  refine ⟨G, _, h1, h2, rfl, ⟨G', ?_⟩⟩
  have hlen : (xs.erase o ++ [b]).length = xs.length := by
    rw [List.length_append, List.length_erase_of_mem ho]
    have : 0 < xs.length := List.length_pos_of_mem ho
    simp; omega
  rw [← hlen]
  simpa using h3

/-- C2 (amended) at the list `[A, B, C]` (addresses 0, 1, 2) built by appends: when `B`
is superseded by a fresh record `D` (address 3) the list becomes `[A, C, D]` with
size 3. -/
theorem C2_supersede_inner_witness :
    ∃ G M, updateCustomerList (listABC.1.alloc).1 "x" (some 1) (some 3) 2 listABC.2
        = .ok (G, M) ∧
      WF G "x" M [0, 2, 3] ∧ M.size = listABC.2.size ∧
      (∃ G', traverse "x" 4 G M.head = .ok (G', [0, 2, 3])) :=
  C2_supersede_inner (listABC_wf.append_heap _) (o := 1) (by decide) (by decide) (by decide)
    (Heap.alloc_detached listABC.1 "x") (by decide) (by decide)

theorem appendAll_relocated (d : String) : ∀ (pcs : List Int) {H G : Heap}
    {L M : LinkedList}, Relocated d H L → (∀ pc, pc ∈ pcs → pc ≤ 1) →
    appendAll d pcs H L = .ok (G, M) → Relocated d G M := by
  intro pcs
  induction pcs with
  | nil =>
    intro H G L M hr _ h
    cases h
    exact hr
  | cons pc pcs ih =>
    intro H G L M hr hpc h
    unfold appendAll at h
    cases h1 : relocateFresh H d none pc L with
    | error e => rw [h1] at h; cases h
    | ok r =>
      rw [h1] at h
      have hle := hpc pc (List.mem_cons_self _ _)
      exact ih (Relocated.call none pc hr (fun h2 => by omega) h1)
        (fun p hp => hpc p (List.mem_cons_of_mem _ hp)) h

theorem listX_wf : WF listX.1 "x" listX.2 [0] := by
  obtain ⟨G, M, h, wf, _⟩ := appendAll_spec "x" [0] (WF.empty [] "x")
    (by intro pc hpc; simp at hpc; omega)
  have h' : relocateFresh [] "x" none 0 LinkedList.new = .ok (G, M) := by
    unfold appendAll at h
    cases h1 : relocateFresh [] "x" none 0 LinkedList.new with
    | error e => rw [h1] at h; cases h
    | ok r =>
      rw [h1] at h
      simp only [bind, Except.bind, appendAll] at h
      rw [h]
  have e : listX = (G, M) := resultOf_ok h' _
  rw [e]
  exact wf

/-- C1 as stated fails: after the first call (no old record, `priorCount = 0`) the list
is `[X]` and `X` is linked into it; the superseding call that passes `X` as the old
record, with a freshly created new record and `priorCount = 2`, does not leave a
well-formed list: `X` is the head, and the call dereferences the null pointer
`tail->dimension[d].prev`. -/
theorem C1_supersede_sole_record_fails :
    relocateFresh [] "x" none 0 LinkedList.new = .ok listX ∧ WF listX.1 "x" listX.2 [0] ∧
      OldLinked listX.1 "x" listX.2 (some 0) 2 ∧
      relocateFresh listX.1 "x" (some 0) 2 listX.2 = .error .undefined_behaviour :=
  ⟨rfl, listX_wf, fun _ => ⟨[0], 0, listX_wf, rfl, by decide⟩, rfl⟩

/-- C1 (amended): starting from an empty list of dimension `d`, after any sequence of
calls of `updateCustomerList` in which every new record is freshly created,
`priorCount` is any integer, and every old record passed to a superseding call
(`priorCount >= 2`) is linked into the list at a place other than the head, the list is
well formed: the walk along `next[d]` from `head` visits exactly `size` records and ends
at `tail`, `head` has no `prev[d]` and `tail` has no `next[d]`. Every such call
completes. -/
theorem C1_relocations_keep_list_well_formed {d : String} {H : Heap} {L : LinkedList}
    (hr : Relocated d H L) :
    ∃ xs, WF H d L xs ∧ (∃ G, traverse d (xs.length + 1) H L.head = .ok (G, xs)) ∧
      L.size = xs.length ∧ L.tail = xs.getLast? ∧
      (∀ a, L.head = some a → H.prevOf d a = none) ∧
      (∀ a, L.tail = some a → H.nextOf d a = none) ∧
      (∀ DNode pc, OldLinkedInner H d L DNode pc →
        ∃ G M, relocateFresh H d DNode pc L = .ok (G, M)) := by
  obtain ⟨xs, wf⟩ := hr.wf
  obtain ⟨G, h, _⟩ := wf.traverse 0
  refine ⟨xs, wf, ⟨G, by simpa using h⟩, wf.size_eq, wf.tail_eq, fun a ha => wf.head_prev ha,
    fun a ha => wf.tail_next ha, ?_⟩
  intro DNode pc hold
  obtain ⟨G, M, _, h1, _⟩ := relocateFresh_wf wf hold
  exact ⟨G, M, h1⟩

/-- C1 (amended) at the list reached by the calls (no old record, 0), (no old record, 1)
and (old record `C`, 2): the list `[B, E]` of `listBE`. -/
theorem C1_relocations_keep_list_well_formed_witness :
    ∃ xs, WF listBE.1 "x" listBE.2 xs ∧
      (∃ G, traverse "x" (xs.length + 1) listBE.1 listBE.2.head = .ok (G, xs)) ∧
      listBE.2.size = xs.length ∧ listBE.2.tail = xs.getLast? ∧
      (∀ a, listBE.2.head = some a → listBE.1.prevOf "x" a = none) ∧
      (∀ a, listBE.2.tail = some a → listBE.1.nextOf "x" a = none) ∧
      (∀ DNode pc, OldLinkedInner listBE.1 "x" listBE.2 DNode pc →
        ∃ G M, relocateFresh listBE.1 "x" DNode pc listBE.2 = .ok (G, M)) :=
  C1_relocations_keep_list_well_formed
    (Relocated.call (some 1) 2
      (appendAll_relocated "x" [0, 1] (Relocated.start []) (by decide)
        (rfl : appendAll "x" [0, 1] [] LinkedList.new = .ok (listBC.1, listBC.2)))
      (fun _ => ⟨[0, 1], 1, listBC_wf, rfl, by decide⟩)
      (rfl : relocateFresh listBC.1 "x" (some 1) 2 listBC.2 = .ok (listBE.1, listBE.2)))

/-! ## The anchor of a list -/

theorem supersedeAll_spec (d : String) : ∀ (pcs : List Int) {H : Heap} {L : LinkedList}
    {x latest : Nat}, WF H d L [x, latest] → latest + 1 = H.length →
    (∀ pc, pc ∈ pcs → 2 ≤ pc) →
    ∃ G M y, supersedeAll d pcs H L latest = .ok (G, M, y) ∧ WF G d M [x, y] ∧
      y = latest + pcs.length ∧ M.size = L.size ∧ M.head = L.head := by
  intro pcs
  induction pcs with
  | nil =>
    intro H L x latest wf _ _
    exact ⟨H, L, latest, rfl, wf, rfl, rfl, rfl⟩
  | cons pc pcs ih =>
    intro H L x latest wf hlen hpc
    have hmem : latest ∈ [x, latest].tail := by simp
    obtain ⟨G1, M1, h1, wf1, hl1, hs1, _, hh1⟩ :=
      relocateFresh_supersede wf hmem (hpc pc (List.mem_cons_self _ _))
    have he : [x, latest].erase latest = [x] := by
      have := @erase_mid [] [] x latest (by simpa using wf.nodup)
      simpa using this
    rw [he] at wf1
    obtain ⟨G, M, y, h2, wf2, hy, hs2, hh2⟩ :=
      ih (x := x) (by simpa using wf1) hl1.symm (fun p hp => hpc p (List.mem_cons_of_mem _ hp))
    refine ⟨G, M, y, ?_, wf2, by rw [hy, ← hlen]; simp; omega, by rw [hs2, hs1],
      by rw [hh2, hh1]⟩
    unfold supersedeAll
    simp only [h1, bind, Except.bind]
    exact h2

/-- C4: on an initially empty list of dimension `d`, after the first event of an entity
(`priorCount = 0`, new record `X1`), its second event (`priorCount = 1`, new record
`X2`) and then any number of superseding updates, each with the latest record as the old
record, a freshly created new record and `priorCount >= 2`, the order of the list is
`[X1, latest record]`, its size is 2, and `X1` is still the head and has no
predecessor. -/
theorem C4_anchor_is_never_moved (d : String) (H : Heap) (DNode1 DNode2 : Ptr)
    (pcs : List Int) (hpcs : ∀ pc, pc ∈ pcs → 2 ≤ pc) :
    ∃ G M latest, anchorScenario d H DNode1 DNode2 pcs = .ok (G, M, latest) ∧
      latest = H.length + 1 + pcs.length ∧ WF G d M [H.length, latest] ∧ M.size = 2 ∧
      M.head = some H.length ∧ G.prevOf d H.length = none ∧
      (∃ G', traverse d 3 G M.head = .ok (G', [H.length, latest])) := by
  obtain ⟨G1, M1, h1, wf1, hl1, hs1, _, _, hh1⟩ :=
    relocateFresh_append (WF.empty H d) DNode1
      (Or.inl rfl : ([] : List Nat) = [] ∨ (0 : Int) ≤ 1)
  obtain ⟨G2, M2, h2, wf2, hl2, hs2, _, hh2, _⟩ :=
    relocateFresh_append wf1 DNode2 (Or.inr (le_refl (1 : Int)))
  rw [hl1] at wf2
  obtain ⟨G, M, y, h3, wf3, hy, hs3, hh3⟩ :=
    supersedeAll_spec d pcs (x := H.length) (by simpa using wf2) (by rw [hl2, hl1]) hpcs
  obtain ⟨G', h4, _⟩ := wf3.traverse 0
  have hhead : M.head = some H.length := by
    rw [hh3, hh2 (by simp), hh1 rfl]
  refine ⟨G, M, y, ?_, hy, wf3, ?_, hhead, wf3.head_prev hhead, ⟨G', h4⟩⟩
  · unfold anchorScenario
    simp only [h1, h2, bind, Except.bind]
    exact h3
  · rw [hs3, hs2, hs1]
    rfl

/-- C4 with three superseding updates on the empty heap: `X1` is the record 0, the
latest record is the record 4. -/
theorem C4_anchor_is_never_moved_witness :
    ∃ G M latest, anchorScenario "x" [] none (some 0) [2, 3, 2] = .ok (G, M, latest) ∧
      latest = 4 ∧ WF G "x" M [0, latest] ∧ M.size = 2 ∧
      M.head = some 0 ∧ G.prevOf "x" 0 = none ∧
      (∃ G', traverse "x" 3 G M.head = .ok (G', [0, latest])) :=
  C4_anchor_is_never_moved "x" [] none (some 0) [2, 3, 2] (by decide)

/-! ## The append-only rule: `updatePackageList` and `updateDeleteList` -/

set_option maxRecDepth 100000 in
theorem sameCustomer_getNext :
    sameCustomerState.heap.getNext (some 1) "A" = .ok (sameCustomerState.heap, some 1) := rfl

set_option maxRecDepth 100000 in
theorem sameCustomer_node :
    sameCustomerState.heap[1]? = some (sameCustomerState.heap.getD 1 default) := rfl

/-- The loop of the queries does not terminate on a record whose `next` is the record
itself: every bound on its iterations is exhausted. -/
theorem printLoop_self_loop {H : Heap} {d : String} {a : Nat} {node : DimensionNode}
    (hn : H[a]? = some node) (hnext : H.getNext (some a) d = .ok (H, some a)) :
    ∀ fuel, printLoop d fuel H (some a) = .error .out_of_fuel := by
  intro fuel
  induction fuel with
  | zero => rfl
  | succ n ih =>
    unfold printLoop
    simp only [hn, hnext, bind, Except.bind]
    rw [if_neg (by simp), ih]

theorem handleActionCL_of_loop {fuel : Nat} {st : State} {c : String} {pos : Nat}
    {l : LinkedList} {e : Exn} (h1 : st.customers.index c = .ok (st.customers, pos))
    (h2 : st.customers.deref pos = .ok l) (h3 : ¬ l.getSize < 1)
    (h4 : printLoop c fuel st.heap l.head = .error e) :
    handleActionCL fuel st c = .error e := by
  unfold handleActionCL
  simp only [h1, h2, bind, Except.bind]
  rw [if_neg h3, h4]

set_option maxRecDepth 100000 in
/-- C6 (the code departs from the claim): after the single event `EV RG` that registers
package 1 with the customer `"A"` as sender and as recipient (event number 0, record at
address 1), the list of `"A"` has size 2 although one record is linked, the record's
`next["A"]` is the record itself, and the walk of the query `CL A` does not terminate:
whatever the bound on its iterations, it is exhausted. The claim says that the walk
terminates, yields the first event of the package once, and that the size equals the
number of records visited. -/
theorem C6_same_sender_and_recipient_never_ends :
    runEvents [Event.RG 1 "A" "A"] 0 State.init = .ok sameCustomerState ∧
    sameCustomerState.customers.get "A" =
      .ok (sameCustomerState.customers, { size := 2, head := some 1, tail := some 1 }) ∧
    sameCustomerState.heap.nextOf "A" 1 = some 1 ∧
    ∀ fuel, handleActionCL fuel sameCustomerState "A" = .error .out_of_fuel := by
  refine ⟨rfl, rfl, rfl, ?_⟩
  intro fuel
  have h1 : sameCustomerState.customers.index "A" = .ok (sameCustomerState.customers, 54) :=
    rfl
  have h2 : sameCustomerState.customers.deref 54 =
      .ok { size := 2, head := some 1, tail := some 1 } := rfl
  have h3 := printLoop_self_loop sameCustomer_node sameCustomer_getNext fuel
  exact handleActionCL_of_loop h1 h2 (by decide) h3

namespace Heap

/-! ## Accesses that succeed -/

end Heap

/-! ## What the list update functions leave unchanged -/

namespace Heap

/-! ## Steps that do not touch the links -/

theorem view_alloc (H : Heap) (d : String) (a : Nat) : (H.alloc).1.view d a = H.view d a := by
  show (H ++ [DimensionNode.new]).view d a = H.view d a
  by_cases h : a < H.length
  · exact view_append _ d h
  · unfold view
    rw [List.getElem?_eq_none (by omega : H.length ≤ a)]
    by_cases e : a = H.length
    · subst e
      simp only [List.getElem?_concat_length]
      rw [(new_ready d).2]
      rfl
    · rw [List.getElem?_eq_none (by simp; omega)]

theorem NodeReady.of_present {H : Heap} {d : String} {a : Nat} (hp : H.Present d a)
    (hi : H.NodeInv a) : H.NodeReady d a := by
  obtain ⟨node, hn, hq⟩ := hp
  obtain ⟨node', hn', hinv⟩ := hi
  rw [hn] at hn'
  cases hn'
  exact ⟨node, hn, hinv, Or.inl hq⟩

end Heap

/-! ## The lifecycle list -/

theorem LifeInv.init : LifeInv State.init.heap State.init.DNodesList [] := by
  have hv : ∀ a, State.init.heap.view "delete" a = default := by
    intro a
    show (Heap.alloc []).1.view "delete" a = default
    rw [Heap.view_alloc]
    unfold Heap.view
    simp
  refine ⟨⟨by rw [hv]; rfl, by rw [hv]; rfl, trivial⟩, by simp, rfl, rfl, rfl,
    fun a _ => hv a, fun h => absurd rfl h⟩

theorem LifeInv.ready {H : Heap} {D : LinkedList} {as : List Nat} (inv : LifeInv H D as)
    (h0 : as = [] → H.NodeReady "delete" 0) : ∀ a, a ∈ 0 :: as → H.NodeReady "delete" a := by
  intro a ha
  by_cases hne : as = []
  · subst hne
    simp at ha
    subst ha
    exact h0 rfl
  · exact Heap.NodeReady.of_present (inv.linked hne a ha).1 (inv.linked hne a ha).2

namespace ArrayList

variable {T : Type}

theorem readRaw_of_getElem? {items : List T} {i : Nat} {x : T} (h : items[i]? = some x) :
    readRaw items i = .ok x := by
  unfold readRaw; rw [h]

theorem writeRaw_of_lt {items : List T} {i : Nat} (h : i < items.length) (x : T) :
    writeRaw items i x = .ok (items.set i x) := by
  unfold writeRaw; rw [if_pos h]

/-- The loop of `removeFromPosition` copies the `n` elements after the index `i` one index
down and leaves the rest of the buffer as it is. -/
theorem shiftDown_spec : ∀ (n i : Nat) (items : List T), i + n < items.length →
    ∃ r, shiftDown n i items = .ok r ∧ r.length = items.length ∧
      ∀ j, r[j]? = if i ≤ j ∧ j < i + n then items[j + 1]? else items[j]? := by
  intro n
  induction n with
  | zero =>
    intro i items _
    refine ⟨items, rfl, rfl, fun j => ?_⟩
    rw [if_neg (by omega)]
  | succ n ih =>
    intro i items hlen
    have h1 : items[i + 1]? = some items[i + 1] := List.getElem?_eq_getElem (by omega)
    obtain ⟨r, hr, hrl, hrj⟩ := ih (i + 1) (items.set i items[i + 1]) (by simp; omega)
    refine ⟨r, ?_, by rw [hrl]; simp, fun j => ?_⟩
    · unfold shiftDown
      simp only [readRaw_of_getElem? h1, bind, Except.bind,
        writeRaw_of_lt (by omega : i < items.length)]
      exact hr
    · rw [hrj j]
      by_cases hj : i + 1 ≤ j ∧ j < i + 1 + n
      · rw [if_pos hj, if_pos (by omega), List.getElem?_set_ne (by omega)]
      · rw [if_neg hj]
        by_cases hji : j = i
        · subst hji
          rw [if_pos (by omega), h1, List.getElem?_set_self (by omega)]
        · rw [if_neg (by omega), List.getElem?_set_ne (by omega)]

/-- The loop of `insertAtPosition` copies the `n` elements from the index `pos` on one
index up and leaves the rest of the buffer as it is. -/
theorem shiftUp_spec (pos : Nat) : ∀ (n : Nat) (items : List T), pos + n < items.length →
    ∃ r, shiftUp pos n items = .ok r ∧ r.length = items.length ∧
      ∀ j, r[j]? = if pos < j ∧ j ≤ pos + n then items[j - 1]? else items[j]? := by
  intro n
  induction n with
  | zero =>
    intro items _
    refine ⟨items, rfl, rfl, fun j => ?_⟩
    rw [if_neg (by omega)]
  | succ n ih =>
    intro items hlen
    have h1 : items[pos + n]? = some items[pos + n] := List.getElem?_eq_getElem (by omega)
    obtain ⟨r, hr, hrl, hrj⟩ := ih (items.set (pos + n + 1) items[pos + n]) (by simp; omega)
    refine ⟨r, ?_, by rw [hrl]; simp, fun j => ?_⟩
    · unfold shiftUp
      simp only [readRaw_of_getElem? h1, bind, Except.bind,
        writeRaw_of_lt (by omega : pos + n + 1 < items.length)]
      exact hr
    · rw [hrj j]
      by_cases hj : pos < j ∧ j ≤ pos + n
      · rw [if_pos hj, if_pos (by omega), List.getElem?_set_ne (by omega)]
      · rw [if_neg hj]
        by_cases hji : j = pos + n + 1
        · subst hji
          rw [if_pos (by omega), List.getElem?_set_self (by omega)]
          simp only [Nat.add_sub_cancel]
          exact h1.symm
        · rw [if_neg (by omega), List.getElem?_set_ne (by omega)]

end ArrayList

namespace ArrayList

variable {T : Type}

/-- `resize(n)` to a capacity `n` that is not the current one and not below the size:
the logical sequence is kept and the rest of the new buffer is default-constructed. -/
theorem resize_grow [Inhabited T] {a : ArrayList T} (hv : a.Valid) {n : Nat}
    (hn : a._size ≤ n) (hne : n ≠ a.getCapacity) :
    a.resize (n : Int) =
      .ok { _size := a._size,
            _items := a._items.take a._size ++ List.replicate (n - a._size) default } := by
  unfold Valid at hv
  unfold resize
  have h1 : ¬ ((n : Int) < 0) := by omega
  have h2 : ¬ ((n : Int) = (a.getCapacity : Int)) := by omega
  have h3 : ¬ ((n : Int) < (a._size : Int)) := by omega
  have h4 : ¬ ((a._size : Int) > (n : Int)) := by omega
  simp only [h1, h2, h3, h4, if_false, Int.toNat_ofNat]
  rw [if_pos hv]

/-- The method `insertAtEnd` on an array that satisfies the class invariant. -/
theorem insertAtEnd_spec [Inhabited T] {a : ArrayList T} (hv : a.Valid) (x : T) :
    ∃ a', a.insertAtEnd x = .ok a' ∧ a'._size = a._size + 1 ∧ a'.Valid ∧
      a'._items[a._size]? = some x ∧
      (∀ i, i < a._size → a'._items[i]? = a._items[i]?) ∧
      (a._size < a.getCapacity → a'.getCapacity = a.getCapacity) ∧
      (a._size = a.getCapacity → a.getCapacity = 0 → a'.getCapacity = 10) ∧
      (a._size = a.getCapacity → 0 < a.getCapacity →
        a'.getCapacity = 2 * a.getCapacity) := by
  have hv' : a._size ≤ a._items.length := hv
  by_cases hfull : a._size = a.getCapacity
  · have hfull' : a._size = a._items.length := hfull
    obtain ⟨n, hn, hcase⟩ : ∃ n : Nat,
        (if a.getCapacity > 0 then (a.getCapacity : Int) * 2 else 10) = (n : Int) ∧
        ((a.getCapacity = 0 ∧ n = 10) ∨ (0 < a.getCapacity ∧ n = 2 * a.getCapacity)) := by
      by_cases hc : a.getCapacity > 0
      · exact ⟨2 * a.getCapacity, by rw [if_pos hc]; push_cast; ring, Or.inr ⟨hc, rfl⟩⟩
      · exact ⟨10, by rw [if_neg hc]; rfl, Or.inl ⟨by omega, rfl⟩⟩
    have hsn : a._size < n := by omega
    have hres := resize_grow hv (Nat.le_of_lt hsn) (by omega : n ≠ a.getCapacity)
    have htake : a._items.take a._size = a._items := by
      rw [hfull']; exact List.take_length _
    rw [htake] at hres
    have hlen : (a._items ++ List.replicate (n - a._size) (default : T)).length = n := by
      simp; omega
    refine ⟨{ _size := a._size + 1,
              _items := (a._items ++ List.replicate (n - a._size) default).set a._size x },
      ?_, rfl, ?_, ?_, ?_, ?_, ?_, ?_⟩
    · unfold insertAtEnd
      rw [if_pos hfull, hn, hres]
      simp only [bind, Except.bind]
      rw [writeRaw_of_lt (by rw [hlen]; exact hsn)]
      rfl
    · show a._size + 1 ≤ ((a._items ++ List.replicate (n - a._size) default).set a._size x).length
      rw [List.length_set, hlen]; omega
    · show ((a._items ++ List.replicate (n - a._size) default).set a._size x)[a._size]? = some x
      exact List.getElem?_set_self (by rw [hlen]; exact hsn)
    · intro i hi
      show ((a._items ++ List.replicate (n - a._size) default).set a._size x)[i]? = _
      rw [List.getElem?_set_ne (by omega), List.getElem?_append_left (by omega)]
    · intro h; omega
    · intro _ h0
      show ((a._items ++ List.replicate (n - a._size) default).set a._size x).length = 10
      rw [List.length_set, hlen]; omega
    · intro _ h0
      show ((a._items ++ List.replicate (n - a._size) default).set a._size x).length = _
      rw [List.length_set, hlen]; omega
  · have hlt : a._size < a._items.length := by
      have : a._size ≠ a._items.length := hfull
      omega
    refine ⟨{ _size := a._size + 1, _items := a._items.set a._size x }, ?_, rfl, ?_, ?_, ?_, ?_,
      ?_, ?_⟩
    · unfold insertAtEnd
      rw [if_neg hfull]
      simp only [bind, Except.bind, pure, Except.pure]
      rw [writeRaw_of_lt hlt]
    · show a._size + 1 ≤ (a._items.set a._size x).length
      rw [List.length_set]; omega
    · exact List.getElem?_set_self hlt
    · intro i hi
      exact List.getElem?_set_ne (by omega)
    · intro _
      show (a._items.set a._size x).length = a._items.length
      rw [List.length_set]
    · intro h; exact absurd h hfull
    · intro h; exact absurd h hfull

theorem valid_withCapacity [Inhabited T] (n : Nat) : (withCapacity n : ArrayList T).Valid :=
  Nat.zero_le _

end ArrayList

/-- C17: on every array that satisfies the class invariant (`_size <= _maxSize`),
`insertAtEnd(x)` succeeds, increases the size by exactly one, stores `x` at the index
that was the size and leaves every element at a smaller index as it was; the capacity
is unchanged when the size was below the capacity, and when the array was full it
becomes 10 if the capacity was 0 and twice the old capacity otherwise. -/
theorem C17_insertAtEnd_appends {T : Type} [Inhabited T] (a : ArrayList T) (hv : a.Valid)
    (x : T) :
    ∃ a', a.insertAtEnd x = .ok a' ∧ a'.getSize = a.getSize + 1 ∧
      a'._items[a.getSize]? = some x ∧
      (∀ i, i < a.getSize → a'._items[i]? = a._items[i]?) ∧
      a'.toList = a.toList ++ [x] ∧
      (a.getSize < a.getCapacity → a'.getCapacity = a.getCapacity) ∧
      (a.getSize = a.getCapacity → a.getCapacity = 0 → a'.getCapacity = 10) ∧
      (a.getSize = a.getCapacity → 0 < a.getCapacity →
        a'.getCapacity = 2 * a.getCapacity) := by
  obtain ⟨a', h1, h2, h3, h4, h5, h6, h7, h8⟩ := ArrayList.insertAtEnd_spec hv x
  refine ⟨a', h1, h2, h4, h5, ?_, h6, h7, h8⟩
  have hv' : a._size ≤ a._items.length := hv
  have hv3 : a'._size ≤ a'._items.length := h3
  apply List.ext_getElem?
  intro i
  unfold ArrayList.toList
  rw [h2]
  by_cases hi : i < a._size
  · rw [List.getElem?_take_of_lt (by omega), List.getElem?_append_left (by simp; omega),
      List.getElem?_take_of_lt hi, h5 i hi]
  · by_cases hi2 : i = a._size
    · subst hi2
      rw [List.getElem?_take_of_lt (by omega), h4,
        List.getElem?_append_right (by simp)]
      simp [Nat.min_eq_left hv']
    · rw [List.getElem?_eq_none (by simp; omega), List.getElem?_eq_none (by simp; omega)]

/-- C17 at the full array of capacity 0 (it grows to capacity 10) and at the array
`array3` of size 3 and capacity 4 (it keeps its capacity). -/
theorem C17_insertAtEnd_appends_witness :
    (∃ a', (ArrayList.withCapacity 0 : ArrayList Int).insertAtEnd 7 = .ok a' ∧
      a'.getSize = 0 + 1 ∧ a'._items[0]? = some 7 ∧
      (∀ i, i < 0 → a'._items[i]? = ([] : List Int)[i]?) ∧ a'.toList = [] ++ [7] ∧
      ((0 : Nat) < 0 → a'.getCapacity = 0) ∧ ((0 : Nat) = 0 → (0 : Nat) = 0 →
        a'.getCapacity = 10) ∧
      ((0 : Nat) = 0 → (0 : Nat) < 0 → a'.getCapacity = 2 * 0)) ∧
    (∃ a', array3.insertAtEnd 40 = .ok a' ∧ a'.toList = [10, 20, 30, 40] ∧
      a'.getCapacity = 4) := by
  refine ⟨C17_insertAtEnd_appends (ArrayList.withCapacity 0) (ArrayList.valid_withCapacity 0) 7, ?_⟩
  obtain ⟨a', h1, _, _, _, h5, h6, _⟩ :=
    C17_insertAtEnd_appends array3 (by unfold ArrayList.Valid; decide) 40
  exact ⟨a', h1, h5, h6 (by decide)⟩
namespace ArrayList

variable {T : Type}

/-- The method `removeFromPosition` at a position below the size. -/
theorem removeFromPosition_spec {a : ArrayList T} (hv : a.Valid) {p : Nat} (hp : p < a._size) :
    ∃ a' x, a.removeFromPosition (p : Int) = .ok (a', x) ∧ a._items[p]? = some x ∧
      a'._size + 1 = a._size ∧ a'._items.length = a._items.length ∧
      ∀ j, a'._items[j]? = if p ≤ j ∧ j + 1 < a._size then a._items[j + 1]? else a._items[j]? := by
  have hv' : a._size ≤ a._items.length := hv
  have hx : a._items[p]? = some a._items[p] := List.getElem?_eq_getElem (by omega)
  obtain ⟨r, hr, hrl, hrj⟩ := shiftDown_spec (a._size - 1 - p) p a._items (by omega)
  refine ⟨{ _size := a._size - 1, _items := r }, a._items[p], ?_, hx, ?_, hrl, ?_⟩
  · unfold removeFromPosition
    have hc : ¬ ((p : Int) < 0 ∨ (p : Int) ≥ (a._size : Int)) := by omega
    rw [if_neg hc]
    simp only [Int.toNat_ofNat, readRaw_of_getElem? hx, bind, Except.bind, hr, pure,
      Except.pure]
  · show a._size - 1 + 1 = a._size
    omega
  · intro j
    show r[j]? = _
    rw [hrj j]
    by_cases hj : p ≤ j ∧ j + 1 < a._size
    · rw [if_pos hj, if_pos (by omega)]
    · rw [if_neg hj, if_neg (by omega)]

end ArrayList

/-- C18: on every array that satisfies the class invariant, `getItem(pos)` fails with
the out-of-range error exactly when `pos < 0` or `pos >= size`, and otherwise returns
the element at `pos`; raw access `operator[](index)` fails with the out-of-range error
exactly when `index < 0` or `index >= capacity`, and otherwise reads, and writes through
the reference, the slot `index` and no other, whether or not `index` is below the size. -/
theorem C18_bounds_checks {T : Type} (a : ArrayList T) (hv : a.Valid) :
    (∀ pos : Int,
      (a.getItem pos = .error .out_of_range ↔ pos < 0 ∨ pos ≥ (a.getSize : Int)) ∧
      (0 ≤ pos → pos < (a.getSize : Int) →
        ∃ x, a._items[pos.toNat]? = some x ∧ a.getItem pos = .ok x)) ∧
    (∀ index : Int,
      (a.index index = .error .out_of_range ↔ index < 0 ∨ index ≥ (a.getCapacity : Int)) ∧
      (∀ f, a.modify index f = .error .out_of_range ↔
        index < 0 ∨ index ≥ (a.getCapacity : Int)) ∧
      (0 ≤ index → index < (a.getCapacity : Int) →
        ∃ x, a._items[index.toNat]? = some x ∧ a.index index = .ok x ∧
          ∀ f, a.modify index f = .ok { a with _items := a._items.set index.toNat (f x) })) := by
  have hv' : a._size ≤ a._items.length := hv
  constructor
  · intro pos
    have hok : 0 ≤ pos → pos < (a.getSize : Int) →
        ∃ x, a._items[pos.toNat]? = some x ∧ a.getItem pos = .ok x := by
      intro h0 h1
      have h1' : pos < (a._size : Int) := h1
      have hlt : pos.toNat < a._items.length := by omega
      refine ⟨a._items[pos.toNat], List.getElem?_eq_getElem hlt, ?_⟩
      unfold ArrayList.getItem
      rw [if_neg (by omega)]
      exact ArrayList.readRaw_of_getElem? (List.getElem?_eq_getElem hlt)
    refine ⟨⟨?_, ?_⟩, hok⟩
    · intro he
      by_contra hc
      obtain ⟨x, _, hx⟩ := hok (by omega) (by omega)
      rw [hx] at he
      cases he
    · intro hc
      have hc' : pos < 0 ∨ pos ≥ (a._size : Int) := hc
      unfold ArrayList.getItem
      rw [if_pos hc']
  · intro index
    have hok : 0 ≤ index → index < (a.getCapacity : Int) →
        ∃ x, a._items[index.toNat]? = some x ∧ a.index index = .ok x ∧
          ∀ f, a.modify index f =
            .ok { a with _items := a._items.set index.toNat (f x) } := by
      intro h0 h1
      have h1' : index < (a._items.length : Int) := h1
      have hlt : index.toNat < a._items.length := by omega
      have hx : a._items[index.toNat]? = some a._items[index.toNat] :=
        List.getElem?_eq_getElem hlt
      have hidx : ((index.toNat : Nat) : Int) = index := Int.toNat_of_nonneg h0
      refine ⟨a._items[index.toNat], hx, ?_, fun f => ?_⟩
      · have := ArrayList.index_of_getElem? hx
        rw [hidx] at this
        exact this
      · have := ArrayList.modify_of_getElem? f hx
        rw [hidx] at this
        exact this
    refine ⟨⟨?_, ?_⟩, fun f => ⟨?_, ?_⟩, hok⟩
    · intro he
      by_contra hc
      obtain ⟨x, _, hx, _⟩ := hok (by omega) (by omega)
      rw [hx] at he
      cases he
    · intro hc
      unfold ArrayList.index
      rw [if_pos hc]
    · intro he
      by_contra hc
      obtain ⟨x, _, _, hx⟩ := hok (by omega) (by omega)
      rw [hx f] at he
      cases he
    · intro hc
      unfold ArrayList.modify
      rw [if_pos hc]

/-- C18 at the array `array3` (elements 10, 20, 30; size 3, capacity 4): `getItem(3)`
fails while `operator[](3)` refers to the slot 3. -/
theorem C18_bounds_checks_witness :
    array3.getItem 3 = .error .out_of_range ∧ array3.getItem 1 = .ok 20 ∧
    array3.index 3 = .ok 0 ∧ array3.index 4 = .error .out_of_range ∧
    array3.index (-1) = .error .out_of_range := by
  have h := C18_bounds_checks array3 (by unfold ArrayList.Valid; decide)
  refine ⟨((h.1 3).1).2 (by decide), rfl, rfl, ((h.2 4).1).2 (by decide),
    ((h.2 (-1)).1).2 (by decide)⟩

/-- C20: on every array that satisfies the class invariant, for `0 <= pos < size`,
`removeFromPosition(pos)` returns the element that was at `pos`, leaves the elements
before `pos` as they were, moves every later element of the sequence one index down and
decreases the size by exactly one, the capacity being unchanged: the logical sequence
is the previous one without its element at `pos`. For `pos < 0` or `pos >= size` it
fails with the out-of-range error. -/
theorem C20_removeFromPosition_shifts_down {T : Type} (a : ArrayList T) (hv : a.Valid)
    (pos : Int) :
    (0 ≤ pos → pos < (a.getSize : Int) →
      ∃ a' x, a.removeFromPosition pos = .ok (a', x) ∧ a._items[pos.toNat]? = some x ∧
        (∀ i, i < pos.toNat → a'._items[i]? = a._items[i]?) ∧
        (∀ i, pos.toNat ≤ i → i + 1 < a.getSize → a'._items[i]? = a._items[i + 1]?) ∧
        a'.getSize + 1 = a.getSize ∧ a'.getCapacity = a.getCapacity ∧
        a'.toList = a.toList.eraseIdx pos.toNat) ∧
    (pos < 0 ∨ pos ≥ (a.getSize : Int) →
      a.removeFromPosition pos = .error .out_of_range) := by
  have hv' : a._size ≤ a._items.length := hv
  constructor
  · intro h0 h1
    have h1' : pos < (a._size : Int) := h1
    have hp : pos.toNat < a._size := by omega
    obtain ⟨a', x, hres, hx, hsz, hlen, hj⟩ := ArrayList.removeFromPosition_spec hv hp
    rw [Int.toNat_of_nonneg h0] at hres
    refine ⟨a', x, hres, hx, ?_, ?_, hsz, hlen, ?_⟩
    · intro i hi
      rw [hj i, if_neg (by omega)]
    · intro i hi1 hi2
      have hi2' : i + 1 < a._size := hi2
      rw [hj i, if_pos ⟨hi1, hi2'⟩]
    · apply List.ext_getElem?
      intro i
      unfold ArrayList.toList
      rw [List.getElem?_eraseIdx]
      simp only [List.getElem?_take]
      rw [hj i]
      split_ifs <;> first | rfl | omega
  · intro hc
    have hc' : pos < 0 ∨ pos ≥ (a._size : Int) := hc
    unfold ArrayList.removeFromPosition
    rw [if_pos hc']

/-- C20 at the array `array3` (elements 10, 20, 30; capacity 4) and the position 1: the
call returns 20 and leaves the sequence 10, 30; the position 3 is out of range. -/
theorem C20_removeFromPosition_shifts_down_witness :
    (∃ a', array3.removeFromPosition 1 = .ok (a', 20) ∧ a'.toList = [10, 30] ∧
      a'.getSize = 2 ∧ a'.getCapacity = 4) ∧
    array3.removeFromPosition 3 = .error .out_of_range := by
  have h := C20_removeFromPosition_shifts_down array3 (by unfold ArrayList.Valid; decide) 1
  have h3 := C20_removeFromPosition_shifts_down array3 (by unfold ArrayList.Valid; decide) 3
  refine ⟨?_, h3.2 (by decide)⟩
  obtain ⟨a', x, h1, h2, _, _, h5, h6, h7⟩ := h.1 (by decide) (by decide)
  have hx : x = 20 := by
    have : array3._items[(1 : Int).toNat]? = some 20 := rfl
    rw [this] at h2
    exact (Option.some.inj h2).symm
  subst hx
  refine ⟨a', h1, h7, ?_, h6⟩
  have : array3.getSize = 3 := rfl
  omega
namespace ArrayList

variable {T : Type}

/-- The method `insertAtPosition` on an array of capacity above 0 that satisfies the
class invariant, at a position that is at most the size. -/
theorem insertAtPosition_spec [Inhabited T] {a : ArrayList T} (hv : a.Valid)
    (hcap : 0 < a.getCapacity) (x : T) {p : Nat} (hp : p ≤ a._size) :
    ∃ a', a.insertAtPosition x (p : Int) = .ok a' ∧ a'._size = a._size + 1 ∧ a'.Valid ∧
      a'.toList = a.toList.take p ++ x :: a.toList.drop p := by
  have hv' : a._size ≤ a._items.length := hv
  have hcap' : 0 < a._items.length := hcap
  -- the conditional `resize`
  obtain ⟨a1, h1, hs1, hl1, hi1⟩ : ∃ a1 : ArrayList T,
      (if a._size = a.getCapacity then a.resize ((a.getSize : Int) * 2) else pure a) = .ok a1 ∧
      a1._size = a._size ∧ a._size < a1._items.length ∧
      ∀ j, j < a._size → a1._items[j]? = a._items[j]? := by
    by_cases hfull : a._size = a.getCapacity
    · have hfull' : a._size = a._items.length := hfull
      have hres := resize_grow hv (by omega : a._size ≤ 2 * a._size)
        (by omega : 2 * a._size ≠ a.getCapacity)
      refine ⟨{ _size := a._size, _items := a._items.take a._size ++
        List.replicate (2 * a._size - a._size) default }, ?_, rfl, ?_, ?_⟩
      · rw [if_pos hfull]
        have : ((a.getSize : Int) * 2) = ((2 * a._size : Nat) : Int) := by
          show ((a._size : Int) * 2) = _
          push_cast; ring
        rw [this]
        exact hres
      · show a._size < (a._items.take a._size ++
          List.replicate (2 * a._size - a._size) default).length
        simp; omega
      · intro j hj
        show (a._items.take a._size ++ List.replicate (2 * a._size - a._size) default)[j]? = _
        rw [List.getElem?_append_left (by simp; omega), List.getElem?_take_of_lt hj]
    · refine ⟨a, by rw [if_neg hfull]; rfl, rfl, ?_, fun _ _ => rfl⟩
      have : a._size ≠ a._items.length := hfull
      omega
  obtain ⟨r, hr, hrl, hrj⟩ := shiftUp_spec p (a._size - p) a1._items (by omega)
  have hpr : p < r.length := by omega
  refine ⟨{ _size := a._size + 1, _items := r.set p x }, ?_, rfl, ?_, ?_⟩
  · have hc : ¬ ((p : Int) < 0 ∨ (p : Int) > (a1._size : Int)) := by omega
    unfold insertAtPosition
    dsimp only
    by_cases hfull : a._size = a.getCapacity
    · rw [if_pos hfull] at h1 ⊢
      rw [h1]
      simp only [bind, Except.bind]
      rw [if_neg hc]
      simp only [Int.toNat_ofNat, hs1, hr, writeRaw_of_lt hpr, pure, Except.pure]
    · rw [if_neg hfull] at h1 ⊢
      rw [h1]
      simp only [bind, Except.bind]
      rw [if_neg hc]
      simp only [Int.toNat_ofNat, hs1, hr, writeRaw_of_lt hpr, pure, Except.pure]
  · show a._size + 1 ≤ (r.set p x).length
    rw [List.length_set]; omega
  · apply List.ext_getElem?
    intro i
    unfold toList
    show (List.take (a._size + 1) (r.set p x))[i]? = _
    have hlp : (List.take p (List.take a._size a._items)).length = p := by
      simp; omega
    by_cases hip : i < p
    · rw [List.getElem?_take_of_lt (by omega), List.getElem?_set_ne (by omega), hrj i,
        if_neg (by omega), hi1 i (by omega), List.getElem?_append_left (by omega),
        List.getElem?_take_of_lt hip, List.getElem?_take_of_lt (by omega)]
    · rw [List.getElem?_append_right (by omega), hlp]
      by_cases hie : i = p
      · subst hie
        rw [List.getElem?_take_of_lt (by omega), List.getElem?_set_self hpr]
        simp
      · obtain ⟨k, hk⟩ : ∃ k, i = p + (k + 1) := ⟨i - p - 1, by omega⟩
        subst hk
        have : p + (k + 1) - p = k + 1 := by omega
        rw [this, List.getElem?_cons_succ, List.getElem?_drop, List.getElem?_take,
          List.getElem?_take, List.getElem?_set_ne (by omega), hrj]
        by_cases hks : p + k < a._size
        · rw [if_pos (by omega), if_pos hks, if_pos (by omega)]
          have : p + (k + 1) - 1 = p + k := by omega
          rw [this, hi1 _ hks]
        · rw [if_neg (by omega), if_neg hks]

end ArrayList

/-- C19 (the code departs from the claim): the array built by `ArrayList<int> a(0)` has
capacity 0 and size 0, so that `pos = 0` satisfies `0 <= pos <= size`, and yet
`insertAtPosition(7, 0)` does not succeed: the array counts as full, `resize(size * 2)`
is `resize(0)` and leaves the null buffer as it is, and the assignment `_items[0] = item`
writes outside the buffer. (`insertAtEnd` grows such an array to capacity 10.) -/
theorem C19_insertAtPosition_capacity_zero :
    ArrayList.new (0 : Int) = .ok (ArrayList.withCapacity 0 : ArrayList Int) ∧
    (ArrayList.withCapacity 0 : ArrayList Int).getCapacity = 0 ∧
    (ArrayList.withCapacity 0 : ArrayList Int).getSize = 0 ∧
    (ArrayList.withCapacity 0 : ArrayList Int).resize 0 = .ok (ArrayList.withCapacity 0) ∧
    (ArrayList.withCapacity 0 : ArrayList Int).insertAtPosition 7 0 =
      .error .undefined_behaviour ∧
    ∃ a', (ArrayList.withCapacity 0 : ArrayList Int).insertAtEnd 7 = .ok a' ∧
      a'.getCapacity = 10 :=
  ⟨rfl, rfl, rfl, rfl, rfl, _, rfl, rfl⟩

/-! ## `erase` and `contains` -/

namespace Hash

variable {K V : Type}

/-- `contains` at a key the table holds. -/
theorem contains_of_holds [Hasher K] [DecidableEq K] {h : Hash K V} (hinv : h.Inv)
    {key : K} {w : V} (hh : h.Holds key w) : h.contains key = .ok true := by
  obtain ⟨j, s, hs, hocc, hk, hv⟩ := hh
  have hf := findPos_of_slot hinv hs hocc
  rw [hk] at hf
  have hidx : h._vector.index (j : Int) = .ok s := ArrayList.index_of_getElem? hs
  have hpos : 0 < h.occupied := by
    unfold occupied
    exact Finset.card_pos.2 ⟨j, by simp [lt_of_slot? hs, stateAt_of_slot? hs, hocc]⟩
  have hne : h.empty = false := by
    unfold Hash.empty
    rw [hinv.size_eq]
    simp; omega
  unfold contains
  simp [hne, hf, hidx, hocc, bind, Except.bind, pure, Except.pure]

/-- `contains` at a key that the table does not hold and that has `Room`. -/
theorem contains_of_room [Hasher K] [DecidableEq K] {h : Hash K V} {key : K}
    (hcap : 0 < h.capacity) (ha : h.Absent key) (hroom : h.Room key) :
    h.contains key = .ok false := by
  unfold contains
  by_cases hem : h.empty = true
  · simp [hem, pure, Except.pure]
  · obtain ⟨pos, s, hf, hs, hcase⟩ := findPos_of_absent hcap ha
    have hidx : h._vector.index (pos : Int) = .ok s := ArrayList.index_of_getElem? hs
    rcases hcase with ⟨_, hnocc, _⟩ | ⟨hnr, _⟩
    · simp [hem, hf, hidx, hnocc, bind, Except.bind, pure, Except.pure]
    · exact absurd hroom hnr

/-- The value read at a key the table holds. -/
theorem get_of_holds [Hasher K] [DecidableEq K] [Inhabited K] [Inhabited V]
    {h : Hash K V} (hinv : h.Inv) {key : K} {w : V} (hh : h.Holds key w) :
    ∃ h', h.get key = .ok (h', w) := by
  obtain ⟨h', pos, hidx, _, _, hslot, _⟩ := index_present hinv hh
  refine ⟨h', ?_⟩
  unfold Hash.get
  rw [hidx]
  simp only [bind, Except.bind]
  rw [deref_eq hslot]
  rfl

/-- `erase` at a key the table holds: the slot of the key becomes a TOMBSTONE, which
leaves `Room` for the key. -/
theorem erase_holds [Hasher K] [DecidableEq K] {h : Hash K V} (hinv : h.Inv) {key : K}
    {w : V} (hh : h.Holds key w) :
    ∃ h', h.erase key = .ok (h', true) ∧ h'.Inv ∧ h'._size + 1 = h._size ∧
      h'.capacity = h.capacity ∧ h'.Absent key ∧ h'.Room key ∧
      ∀ k v, h'.Holds k v ↔ k ≠ key ∧ h.Holds k v := by
  obtain ⟨pos, s, hs, hocc, hk, hres⟩ := erase_present hinv hh
  have hpos := lt_of_slot? hs
  have hocc1 : 0 < h.occupied := by
    unfold occupied
    exact Finset.card_pos.2 ⟨pos, by simp [hpos, stateAt_of_slot? hs, hocc]⟩
  have hholds : ∀ k v, (h.setSlot pos { s with state := .TOMBSTONE } (h._size - 1)).Holds k v ↔
      k ≠ key ∧ h.Holds k v := by
    intro k v
    rw [holds_eraseSlot hinv _ hs hocc, hk]
  refine ⟨_, hres, hinv.eraseSlot hs hocc, ?_, capacity_setSlot _ _ _ _, ?_, ?_, hholds⟩
  · rw [size_setSlot, hinv.size_eq]; omega
  · intro j s' hs' hocc' hk'
    exact ((hholds key s'.value).1 ⟨j, s', hs', hocc', hk', rfl⟩).1 rfl
  · obtain ⟨i, hi, hp, _⟩ := hinv.chain pos s hs hocc
    rw [hk] at hp
    refine ⟨i, by rw [capacity_setSlot]; exact hi, ?_⟩
    rw [capacity_setSlot, hp, stateAt_setSlot_eq _ _ hpos]
    simp

end Hash

theorem table014_reachable : table014.Reachable := by
  have r1 : (tableOf 5 [(0, 0, 10)]).Reachable :=
    Hash.Reachable.insert (k := 0) (v := 10) (b := true) (Hash.Reachable.new 3) rfl
  have r2 : (tableOf 5 [(0, 0, 10), (1, 1, 11)]).Reachable :=
    Hash.Reachable.insert (k := 1) (v := 11) (b := true) r1 rfl
  exact Hash.Reachable.insert (k := 4) (v := 14) (b := true) r2 rfl

theorem table05_reachable : table05.Reachable := by
  have r1 : (tableOf 5 [(0, 0, 10)]).Reachable :=
    Hash.Reachable.insert (k := 0) (v := 10) (b := true) (Hash.Reachable.new 3) rfl
  exact Hash.Reachable.insert (k := 5) (v := 15) (b := true) r1 rfl

/-! ## Claims about `erase`, `contains` and `operator[]` -/

/-- C11: in every reachable table, `erase(k)` at a key `k` that the table holds returns
true, after which `contains(k)` is false and no slot holds `k`, the size has decreased by
exactly one, and every other key that was held is still held with its value: `contains`
finds it and indexed access reads its value. -/
theorem C11_erase_of_present_key {K V : Type} [Hasher K] [DecidableEq K] [Inhabited K]
    [Inhabited V] {h : Hash K V} (hr : h.Reachable) {k : K} {w : V}
    (hw : h.lookup k = some w) :
    ∃ h', h.erase k = .ok (h', true) ∧ h'.contains k = .ok false ∧ h'.lookup k = none ∧
      h'.size + 1 = h.size ∧
      ∀ k' v, k' ≠ k → h.lookup k' = some v →
        h'.lookup k' = some v ∧ h'.contains k' = .ok true ∧
          ∃ h'', h'.get k' = .ok (h'', v) := by
  have hinv := hr.inv
  obtain ⟨h', hres, hinv', hsz, hcap, habs, hroom, hholds⟩ :=
    Hash.erase_holds hinv (Hash.lookup_some hw)
  have hcap' : 0 < h'.capacity := by
    obtain ⟨i, hi, _⟩ := hroom
    omega
  refine ⟨h', hres, Hash.contains_of_room hcap' habs hroom, (Hash.lookup_none_iff h' k).2 habs,
    hsz, ?_⟩
  intro k' v hne hv
  have hh' : h'.Holds k' v := (hholds k' v).2 ⟨hne, Hash.lookup_some hv⟩
  exact ⟨hh'.lookup hinv', Hash.contains_of_holds hinv' hh', Hash.get_of_holds hinv' hh'⟩

/-- C11 at the table `table05` and the key 0: after `erase(0)` the key 5, whose probe
sequence starts at the slot of the key 0, is still found past the tombstone. -/
theorem C11_erase_of_present_key_witness :
    ∃ h', table05.erase 0 = .ok (h', true) ∧ h'.contains 0 = .ok false ∧
      h'.lookup 0 = none ∧ h'.size + 1 = table05.size ∧
      h'.stateAt (Hash.probe h'.capacity (5 : Int) 0) = .TOMBSTONE ∧
      h'.lookup 5 = some 15 ∧ h'.contains 5 = .ok true ∧ ∃ h'', h'.get 5 = .ok (h'', 15) := by
  obtain ⟨h', h1, h2, h3, h4, h5⟩ :=
    C11_erase_of_present_key table05_reachable (k := 0) (w := 10) rfl
  have e : table05.erase 0 =
      .ok (tableOf 5 [(0, 0, 10), (1, 5, 15)] |>.setSlot 0
        { key := 0, value := 10, state := .TOMBSTONE } 1, true) := rfl
  have e' : h' = (tableOf 5 [(0, 0, 10), (1, 5, 15)]).setSlot 0
      { key := 0, value := 10, state := .TOMBSTONE } 1 := by
    rw [h1] at e
    cases e
    rfl
  obtain ⟨h6, h7, h8⟩ := h5 5 15 (by decide) rfl
  refine ⟨h', h1, h2, h3, h4, ?_, h6, h7, h8⟩
  rw [e']
  rfl

/-- C12 (the code departs from the claim): in the table reached from `Hash<int,int>(3)`
by `insert(0,10)`, `insert(1,11)`, `insert(4,14)` no OCCUPIED slot holds the key 5, and
yet `contains(5)` returns true: the probes `0, 1, 4, 4, 1` of the key all meet slots
OCCUPIED by other keys, and `findPos` falls back to the home slot 0, which is
OCCUPIED. -/
theorem C12_contains_true_for_absent_key :
    table014.Reachable ∧
    (∀ j s, table014.slot? j = some s → s.state = .OCCUPIED → s.key ≠ 5) ∧
    (∀ i, i < 5 → table014.stateAt (Hash.probe table014.capacity (5 : Int) i) = .OCCUPIED) ∧
    table014.findPos 5 = .ok 0 ∧ table014.contains 5 = .ok true := by
  refine ⟨table014_reachable, (Hash.lookup_none_iff table014 5).1 rfl, ?_, rfl, rfl⟩
  decide

/-- C13 (the code departs from the claim): in the table reached from `Hash<int,int>(3)`
by `insert(0,10)`, `insert(1,11)`, `insert(4,14)` the key 5 is not held, and yet indexed
access at 5 creates no entry: the table, its size 3 included, is left as it is and the
reference is to the slot 0 of the key 0, so that the value read is 10, not the default
value 0, and an assignment through the reference changes the value of the key 0. -/
theorem C13_index_of_absent_key_aliases :
    table014.Reachable ∧ table014.lookup 5 = none ∧ table014.size = 3 ∧
    table014.index 5 = .ok (table014, 0) ∧ table014.get 5 = .ok (table014, 10) ∧
    (default : Int) = 0 ∧ table014.lookup 0 = some 10 ∧
    ∃ t, table014.update 5 (fun _ => 99) = .ok t ∧ t.lookup 5 = none ∧ t.size = 3 ∧
      t.lookup 0 = some 99 :=
  ⟨table014_reachable, rfl, rfl, rfl, rfl, rfl, rfl, _, rfl, rfl, rfl, rfl⟩
/-! ## The load factor -/

namespace Hash

variable {K V : Type}

/-- After the conditional call of `rehash()` the load test fails at the size of the table,
and at every smaller size if it did so before the call. -/
theorem prepare_load [Hasher K] [DecidableEq K] [Inhabited K] [Inhabited V]
    {h : Hash K V} (hinv : h.Inv)
    (hl : ∀ s, s < h._size → loadReached s h.capacity = false) :
    ∃ t, (if h.needsRehash then rehash h else .ok h) = .ok t ∧ t.Inv ∧ 0 < t.capacity ∧
      ∀ s, s ≤ t._size → loadReached s t.capacity = false := by
  obtain ⟨t, ht, hti, hcap, hsz, _, hsame, hre⟩ := prepare_spec hinv
  refine ⟨t, ht, hti, hcap, ?_⟩
  by_cases hn : h.needsRehash = true
  · obtain ⟨hc, _, _⟩ := hre hn
    obtain ⟨_, hgt, _⟩ := findNextPrime_spec (h.capacity * 2)
    have := occupied_le_capacity h
    intro s hs
    apply loadReached_of_half
    rw [hsz, hinv.size_eq] at hs
    rw [hc]
    omega
  · have hn' : h.needsRehash = false := by simpa using hn
    rw [hsame hn']
    intro s hs
    rcases Nat.lt_or_ge s h._size with hlt | hge
    · exact hl s hlt
    · have e : s = h._size := by omega
      rw [e]
      exact ((needsRehash_eq_false_iff h).1 hn').2

/-- The body of `insert` after the rehash test adds at most one entry and keeps the
capacity. -/
theorem insertCore_total [Hasher K] [DecidableEq K] {t : Hash K V} (hcap : 0 < t.capacity)
    (k : K) (v : V) :
    ∃ t' b, insertAux .ok t k v = .ok (t', b) ∧ t'.capacity = t.capacity ∧
      t'._size ≤ t._size + 1 := by
  obtain ⟨pos, hf, hr⟩ := findPos_spec t k hcap
  obtain ⟨s, hs⟩ := hr.slot
  have hidx : t._vector.index (pos : Int) = .ok s := ArrayList.index_of_getElem? hs
  unfold insertAux
  by_cases hocc : s.state = .OCCUPIED
  · refine ⟨t, false, ?_, rfl, by omega⟩
    simp [hf, hidx, hocc, bind, Except.bind, pure, Except.pure]
  · refine ⟨_, true, ?_, capacity_setSlot t pos
      { key := k, value := v, state := .OCCUPIED } (t._size + 1), by rw [size_setSlot]⟩
    simp [hf, hidx, hocc, bind, Except.bind, pure, Except.pure, place_eq hs]

/-- The body of `operator[]` after the rehash test adds at most one entry, keeps the
capacity and returns a position below the capacity. -/
theorem indexCore_total [Hasher K] [DecidableEq K] [Inhabited V] {t : Hash K V}
    (hcap : 0 < t.capacity) (k : K) :
    ∃ t' pos, indexAux .ok t k = .ok (t', pos) ∧ t'.capacity = t.capacity ∧
      t'._size ≤ t._size + 1 ∧ pos < t'.capacity := by
  obtain ⟨pos, hf, hr⟩ := findPos_spec t k hcap
  obtain ⟨s, hs⟩ := hr.slot
  have hidx : t._vector.index (pos : Int) = .ok s := ArrayList.index_of_getElem? hs
  unfold indexAux
  by_cases hocc : s.state = .OCCUPIED
  · refine ⟨t, pos, ?_, rfl, by omega, lt_of_slot? hs⟩
    simp [hf, hidx, hocc, bind, Except.bind, pure, Except.pure]
  · refine ⟨_, pos, ?_, capacity_setSlot t pos
      { key := k, value := default, state := .OCCUPIED } (t._size + 1), by rw [size_setSlot],
      by rw [capacity_setSlot]; exact lt_of_slot? hs⟩
    have := vivify_eq hs k
    simp only [bind, Except.bind, pure, Except.pure] at this
    simp [hf, hidx, hocc, bind, Except.bind, pure, Except.pure, this]

/-- In every reachable table the load test fails at every size below the size of the
table: the entries were placed one by one, each after the test had failed. -/
theorem Reachable.load [Hasher K] [DecidableEq K] [Inhabited K] [Inhabited V]
    {h : Hash K V} (hr : h.Reachable) :
    ∀ s, s < h._size → loadReached s h.capacity = false := by
  induction hr with
  | new n =>
    intro s hs
    exact absurd hs (Nat.not_lt_zero s)
  | @insert h t k v b hr hi ih =>
    obtain ⟨p, hp, _, hcap, hload⟩ := prepare_load hr.inv ih
    obtain ⟨t', b', hres, hc, hs⟩ := insertCore_total hcap k v
    have e : h.insert k v = .ok (t', b') := by
      unfold Hash.insert
      rw [insertAux_eq, hp]
      exact hres
    rw [e] at hi
    cases hi
    intro s hlt
    rw [hc]
    exact hload s (by omega)
  | @erase h t k b hr he ih =>
    rcases erase_cases he with ⟨rfl, _⟩ | ⟨pos, s, _, _, _, rfl⟩
    · exact ih
    · intro s' hlt
      rw [size_setSlot] at hlt
      rw [capacity_setSlot]
      exact ih s' (by omega)
  | @index h t k p hr hi ih =>
    obtain ⟨q, hq, _, hcap, hload⟩ := prepare_load hr.inv ih
    obtain ⟨t', pos, hres, hc, hs, _⟩ := indexCore_total hcap k
    have e : h.index k = .ok (t', pos) := by
      unfold Hash.index
      rw [indexAux_eq, hq]
      exact hres
    rw [e] at hi
    cases hi
    intro s hlt
    rw [hc]
    exact hload s (by omega)
  | @update h t k f hr hu ih =>
    obtain ⟨q, hq, _, hcap, hload⟩ := prepare_load hr.inv ih
    obtain ⟨t', pos, hres, hc, hs, hpos⟩ := indexCore_total hcap k
    have e : h.index k = .ok (t', pos) := by
      unfold Hash.index
      rw [indexAux_eq, hq]
      exact hres
    obtain ⟨sl, hs'⟩ := slot?_lt hpos
    unfold Hash.update at hu
    rw [e] at hu
    simp only [bind, Except.bind] at hu
    rw [assign_eq hs'] at hu
    cases hu
    intro s hlt
    rw [size_setSlot] at hlt
    rw [capacity_setSlot, hc]
    exact hload s (by omega)

end Hash

/-- C14 as stated fails: the table reached from `Hash<int,int>(3)` (capacity 5) by
`insert(0,10)`, `insert(1,11)`, `insert(4,14)` has size 3, which is below 0.7 * 5, so
that `insert(2,12)` places its entry without a rehash and leaves size 4 in capacity 5:
4 > 0.7 * 5 = 3.5. -/
theorem C14_load_factor_exceeded_after_insert :
    table014.Reachable ∧ table014.insert 2 12 = .ok (table0124, true) ∧
    table0124.size = 4 ∧ table0124.capacity = 5 ∧
    ¬ (10 * table0124.size ≤ 7 * table0124.capacity) :=
  ⟨table014_reachable, rfl, rfl, rfl, by decide⟩

/-- C14 (amended): in every reachable table `insert` and indexed access succeed, and
immediately afterwards the load test of the code fails at every size below the size of
the table, `(float)(size - 1) < (float)capacity * 0.7f` in particular: the load factor is
tested before the entry is placed, and the size grows by at most one. With a capacity
below `2 ^ 24` this gives `size < 0.7 * capacity + 1`, that is
`10 * size < 7 * capacity + 10`. -/
theorem C14_load_factor_after_insert {K V : Type} [Hasher K] [DecidableEq K] [Inhabited K]
    [Inhabited V] {h : Hash K V} (hr : h.Reachable) (k : K) (v : V) :
    (∃ h' b, h.insert k v = .ok (h', b) ∧
      (∀ s, s < h'.size → loadReached s h'.capacity = false) ∧
      (h'.capacity < 2 ^ 24 → 10 * h'.size < 7 * h'.capacity + 10)) ∧
    (∃ h' pos, h.index k = .ok (h', pos) ∧
      (∀ s, s < h'.size → loadReached s h'.capacity = false) ∧
      (h'.capacity < 2 ^ 24 → 10 * h'.size < 7 * h'.capacity + 10)) := by
  have key : ∀ h' : Hash K V, h'.Reachable →
      (∀ s, s < h'.size → loadReached s h'.capacity = false) ∧
      (h'.capacity < 2 ^ 24 → 10 * h'.size < 7 * h'.capacity + 10) := by
    intro h' hr'
    refine ⟨hr'.load, fun hc => ?_⟩
    have hle : h'._size ≤ h'.capacity := by
      rw [hr'.inv.size_eq]; exact Hash.occupied_le_capacity h'
    show 10 * h'._size < 7 * h'.capacity + 10
    rcases Nat.eq_zero_or_pos h'._size with h0 | hpos
    · omega
    · have := lt_of_loadReached_false hc (by omega) (by omega)
        (hr'.load (h'._size - 1) (by omega))
      omega
  obtain ⟨t, ht, _, hcap, _⟩ := Hash.prepare_load hr.inv hr.load
  constructor
  · obtain ⟨t', b, hres, _, _⟩ := Hash.insertCore_total hcap k v
    have e : h.insert k v = .ok (t', b) := by
      unfold Hash.insert
      rw [Hash.insertAux_eq, ht]
      exact hres
    exact ⟨t', b, e, key t' (Hash.Reachable.insert hr e)⟩
  · obtain ⟨t', pos, hres, _, _, _⟩ := Hash.indexCore_total hcap k
    have e : h.index k = .ok (t', pos) := by
      unfold Hash.index
      rw [Hash.indexAux_eq, ht]
      exact hres
    exact ⟨t', pos, e, key t' (Hash.Reachable.index hr e)⟩

/-- C14 (amended) at the table `table014` and the key 2: size 4 in capacity 5. -/
theorem C14_load_factor_after_insert_witness :
    (∃ h' b, table014.insert 2 12 = .ok (h', b) ∧
      (∀ s, s < h'.size → loadReached s h'.capacity = false) ∧
      (h'.capacity < 2 ^ 24 → 10 * h'.size < 7 * h'.capacity + 10)) ∧
    (∃ h' pos, table014.index 2 = .ok (h', pos) ∧
      (∀ s, s < h'.size → loadReached s h'.capacity = false) ∧
      (h'.capacity < 2 ^ 24 → 10 * h'.size < 7 * h'.capacity + 10)) :=
  C14_load_factor_after_insert table014_reachable 2 12

/-! ## The operations of `Hash` never fail -/

namespace Hash

variable {K V : Type}

/-- The loop of `rehash` succeeds on every old table: the reinsertions find the new
table below its load factor, so that none of them rehashes again. -/
theorem rehashLoop_total [Hasher K] [DecidableEq K] [Inhabited K] [Inhabited V]
    (old : ArrayList (HashSlot K V)) :
    ∀ (n i : Nat) (t : Hash K V), n + i = old.getCapacity → 0 < t.capacity →
      2 * (t._size + n) < t.capacity →
      ∃ t', rehashLoop (insertFuel 1) old n i t = .ok t' ∧ t'.capacity = t.capacity ∧
        t'._size ≤ t._size + n := by
  intro n
  induction n with
  | zero =>
    intro i t _ _ _
    exact ⟨t, rfl, rfl, by omega⟩
  | succ n ih =>
    intro i t hni hcap hload
    have hilt : i < old._items.length := by
      have : n + 1 + i = old._items.length := hni
      omega
    have hidx : old.index (i : Int) = .ok old._items[i] :=
      ArrayList.index_of_getElem? (List.getElem?_eq_getElem hilt)
    unfold rehashLoop
    simp only [hidx, bind, Except.bind]
    by_cases hocc : old._items[i].state = .OCCUPIED
    · rw [if_pos hocc]
      have hnr : t.needsRehash = false := by
        exact needsRehash_of_half (by omega)
      obtain ⟨t1, b, hres, hc1, hs1⟩ :=
        insertCore_total hcap old._items[i].key old._items[i].value
      rw [insertFuel_succ_of_not_needsRehash 0 t _ _ hnr, hres]
      simp only []
      obtain ⟨t', hr, hc', hs'⟩ := ih (i + 1) t1 (by omega) (by omega) (by rw [hc1]; omega)
      exact ⟨t', hr, by rw [hc', hc1], by omega⟩
    · rw [if_neg hocc]
      obtain ⟨t', hr, hc', hs'⟩ := ih (i + 1) t (by omega) hcap (by omega)
      exact ⟨t', hr, hc', by omega⟩

/-- The method `rehash` succeeds on every table. -/
theorem rehash_total [Hasher K] [DecidableEq K] [Inhabited K] [Inhabited V] (h : Hash K V) :
    ∃ t, rehash h = .ok t ∧ t.capacity = findNextPrime (h.capacity * 2) ∧
      t._size ≤ h.capacity := by
  obtain ⟨hprime, hgt, _⟩ := findNextPrime_spec (h.capacity * 2)
  obtain ⟨t, hr, hc, hs⟩ := rehashLoop_total h._vector h._vector.getCapacity 0
    (⟨ArrayList.withCapacity (findNextPrime (h.capacity * 2)), 0⟩ : Hash K V) rfl
    (by rw [capacity_withCapacity]; exact hprime.pos)
    (by
      rw [capacity_withCapacity]
      show 2 * (0 + h.capacity) < _
      omega)
  rw [capacity_withCapacity] at hc
  refine ⟨t, hr, hc, ?_⟩
  have : t._size ≤ 0 + h._vector.getCapacity := hs
  show t._size ≤ h._vector.getCapacity
  omega

/-- The first statement of `insert` and of `operator[]` succeeds on every table and
leaves a table of capacity above 0. -/
theorem prepare_total [Hasher K] [DecidableEq K] [Inhabited K] [Inhabited V] (h : Hash K V) :
    ∃ t, (if h.needsRehash then rehash h else .ok h) = .ok t ∧ 0 < t.capacity := by
  by_cases hn : h.needsRehash = true
  · obtain ⟨t, ht, hc, _⟩ := rehash_total h
    refine ⟨t, by rw [if_pos hn]; exact ht, ?_⟩
    rw [hc]
    exact (findNextPrime_spec _).1.pos
  · have hn' : h.needsRehash = false := by simpa using hn
    exact ⟨h, by rw [if_neg hn], ((needsRehash_eq_false_iff h).1 hn').1⟩

/-- The method `insert` succeeds on every table. -/
theorem insert_total [Hasher K] [DecidableEq K] [Inhabited K] [Inhabited V] (h : Hash K V)
    (k : K) (v : V) : ∃ h' b, h.insert k v = .ok (h', b) ∧ 0 < h'.capacity := by
  obtain ⟨t, ht, hcap⟩ := prepare_total h
  obtain ⟨t', b, hres, hc, _⟩ := insertCore_total hcap k v
  refine ⟨t', b, ?_, by rw [hc]; exact hcap⟩
  unfold Hash.insert
  rw [insertAux_eq, ht]
  exact hres

/-- The method `operator[]` succeeds on every table and returns a reference to a slot of
the table. -/
theorem index_total [Hasher K] [DecidableEq K] [Inhabited K] [Inhabited V] (h : Hash K V)
    (k : K) : ∃ h' pos, h.index k = .ok (h', pos) ∧ pos < h'.capacity := by
  obtain ⟨t, ht, hcap⟩ := prepare_total h
  obtain ⟨t', pos, hres, hc, _, hpos⟩ := indexCore_total hcap k
  refine ⟨t', pos, ?_, hpos⟩
  unfold Hash.index
  rw [indexAux_eq, ht]
  exact hres

/-- The method `erase` succeeds on every table of capacity above 0. -/
theorem erase_total [Hasher K] [DecidableEq K] {h : Hash K V} (hcap : 0 < h.capacity)
    (k : K) : ∃ h' b, h.erase k = .ok (h', b) ∧ h'.capacity = h.capacity := by
  unfold erase
  by_cases hem : h.empty = true
  · exact ⟨h, false, by simp [hem, pure, Except.pure], rfl⟩
  · obtain ⟨pos, hf, hr⟩ := findPos_spec h k hcap
    obtain ⟨s, hs⟩ := hr.slot
    have hidx : h._vector.index (pos : Int) = .ok s := ArrayList.index_of_getElem? hs
    by_cases hocc : s.state = .OCCUPIED
    · refine ⟨h.setSlot pos { s with state := .TOMBSTONE } (h._size - 1), true, ?_,
        capacity_setSlot _ _ _ _⟩
      unfold slot? at hs
      simp [hem, hf, hidx, hocc, bind, Except.bind, pure, Except.pure,
        ArrayList.modify_of_getElem? _ hs, setSlot]
    · exact ⟨h, false, by simp [hem, hf, hidx, hocc, bind, Except.bind, pure, Except.pure],
        rfl⟩

/-- The method `contains` succeeds on every table of capacity above 0. -/
theorem contains_total [Hasher K] [DecidableEq K] {h : Hash K V} (hcap : 0 < h.capacity)
    (k : K) : ∃ b, h.contains k = .ok b := by
  unfold contains
  by_cases hem : h.empty = true
  · exact ⟨false, by simp [hem, pure, Except.pure]⟩
  · obtain ⟨pos, hf, hr⟩ := findPos_spec h k hcap
    obtain ⟨s, hs⟩ := hr.slot
    have hidx : h._vector.index (pos : Int) = .ok s := ArrayList.index_of_getElem? hs
    exact ⟨decide (s.state = .OCCUPIED),
      by simp [hem, hf, hidx, bind, Except.bind, pure, Except.pure]⟩

/-- The method `clear` succeeds on every table: the size is 0 and the capacity 16
afterwards, and `contains` is false for every key. -/
theorem clear_total [Hasher K] [DecidableEq K] [Inhabited K] [Inhabited V] (h : Hash K V) :
    ∃ t, h.clear = .ok t ∧ t.capacity = 16 ∧ t._size = 0 ∧ t.empty = true ∧
      ∀ k, t.contains k = .ok false := by
  have hfalse : ∀ t : Hash K V, t._size = 0 →
      t.empty = true ∧ ∀ k, t.contains k = .ok false := by
    intro t ht
    have he : t.empty = true := by unfold Hash.empty; simp [ht]
    refine ⟨he, fun k => ?_⟩
    unfold contains
    simp [he, pure, Except.pure]
  have h16 : ¬ ((16 : Int) < 0) := by decide
  unfold clear ArrayList.resize ArrayList.clear
  simp only [ArrayList.getCapacity, bind, Except.bind]
  rw [if_neg h16]
  by_cases hc : (16 : Int) = (h._vector._items.length : Int)
  · rw [if_pos hc]
    refine ⟨{ _vector := { h._vector with _size := 0 }, _size := 0 }, rfl, ?_, rfl,
      hfalse _ rfl⟩
    show h._vector._items.length = 16
    omega
  · rw [if_neg hc]
    refine ⟨{ _vector := { _size := 0, _items := List.replicate 16 default }, _size := 0 }, ?_,
      ?_, rfl, hfalse _ rfl⟩
    · simp [pure, Except.pure]
    · simp [capacity, ArrayList.getCapacity]

/-- An assignment through the reference that `operator[]` returns succeeds and keeps the
capacity. -/
theorem update_total [Hasher K] [DecidableEq K] [Inhabited K] [Inhabited V] (h : Hash K V)
    (k : K) (f : V → V) : ∃ t, h.update k f = .ok t ∧ 0 < t.capacity := by
  obtain ⟨h', pos, hidx, hpos⟩ := index_total h k
  obtain ⟨s, hs⟩ := slot?_lt hpos
  refine ⟨h'.setSlot pos { s with value := f s.value } h'._size, ?_, ?_⟩
  · unfold Hash.update
    rw [hidx]
    simp only [bind, Except.bind]
    exact assign_eq hs f
  · rw [capacity_setSlot]; omega

/-- Every attainable table has a capacity above 0. -/
theorem Attainable.capacity_pos [Hasher K] [DecidableEq K] [Inhabited K] [Inhabited V]
    {h : Hash K V} (ha : h.Attainable) : 0 < h.capacity := by
  induction ha with
  | new n =>
    unfold Hash.new
    rw [capacity_withCapacity]
    exact (findNextPrime_spec _).1.pos
  | @insert h t k v b _ hi ih =>
    obtain ⟨h', b', hres, hc⟩ := insert_total h k v
    rw [hres] at hi
    cases hi
    exact hc
  | @erase h t k b _ he ih =>
    obtain ⟨h', b', hres, hc⟩ := erase_total ih k
    rw [hres] at he
    cases he
    rw [hc]; exact ih
  | @index h t k p _ hi ih =>
    obtain ⟨h', pos, hres, hpos⟩ := index_total h k
    rw [hres] at hi
    cases hi
    omega
  | @update h t k f _ hu ih =>
    obtain ⟨t', hres, hc⟩ := update_total h k f
    rw [hres] at hu
    cases hu
    exact hc
  | @clear h t _ hcl ih =>
    obtain ⟨t', hres, hc, _⟩ := clear_total h
    rw [hres] at hcl
    cases hcl
    omega

end Hash

theorem clearedTwice_attainable : clearedTwice.Attainable := by
  obtain ⟨t1, h1, _⟩ := Hash.clear_total (Hash.new 3 : Hash Int Int)
  obtain ⟨t2, b, h2, _⟩ := Hash.insert_total t1 1 10
  obtain ⟨t3, h3, _⟩ := Hash.clear_total t2
  have e : clearedTwice = t3 := by
    unfold clearedTwice
    simp only [h1, bind, Except.bind, h2, h3]
    rfl
  rw [e]
  exact Hash.Attainable.clear
    (Hash.Attainable.insert (Hash.Attainable.clear (Hash.Attainable.new 3) h1) h2) h3

/-! ## Claims about `clear` and about failures -/

/-- C15 (the code departs from the claim): after
`Hash<int,int> h(3); h.clear(); h.insert(1,10); h.clear();` the size is 0, `empty()` is
true and `contains(1)` is false, and yet `insert(1,20)` returns false and stores nothing.
The first `clear` leaves a fresh buffer of capacity 16; the second finds the capacity
equal to 16, so that `resize(16)` returns at once and the slot of the key 1 stays
OCCUPIED, and `insert` takes it for the entry of the key. -/
theorem C15_insert_after_second_clear_rejected :
    clearedTwice.Attainable ∧
    (∃ h1 h2, (Hash.new 3 : Hash Int Int).clear = .ok h1 ∧ h1.insert 1 10 = .ok (h2, true) ∧
      h2.clear = .ok clearedTwice) ∧
    clearedTwice.size = 0 ∧ clearedTwice.empty = true ∧ clearedTwice.capacity = 16 ∧
    clearedTwice.contains 1 = .ok false ∧
    clearedTwice.stateAt 1 = .OCCUPIED ∧
    clearedTwice.insert 1 20 = .ok (clearedTwice, false) :=
  ⟨clearedTwice_attainable, ⟨_, _, rfl, rfl, rfl⟩, rfl, rfl, rfl, rfl, rfl, rfl⟩

/-- C16: in every table that a program can reach from a constructed table by `insert`,
`erase`, `contains`, indexed access and `clear`, the capacity is above 0 and none of
`contains`, indexed access, `insert` and `erase` fails: `findPos` returns a slot index
below the capacity, the reference that indexed access returns is to a slot of the table,
and no access to the array raises the out-of-range error. -/
theorem C16_operations_never_fail {K V : Type} [Hasher K] [DecidableEq K] [Inhabited K]
    [Inhabited V] {h : Hash K V} (ha : h.Attainable) (k : K) (v : V) :
    0 < h.capacity ∧
    (∃ pos, h.findPos k = .ok pos ∧ pos < h.capacity) ∧
    (∃ b, h.contains k = .ok b) ∧
    (∃ h' pos w, h.index k = .ok (h', pos) ∧ pos < h'.capacity ∧ h'.deref pos = .ok w) ∧
    (∃ h' b, h.insert k v = .ok (h', b)) ∧
    (∃ h' b, h.erase k = .ok (h', b)) := by
  have hcap := ha.capacity_pos
  refine ⟨hcap, ?_, Hash.contains_total hcap k, ?_, ?_, ?_⟩
  · obtain ⟨pos, hf, hr⟩ := Hash.findPos_spec h k hcap
    obtain ⟨s, hs⟩ := hr.slot
    exact ⟨pos, hf, Hash.lt_of_slot? hs⟩
  · obtain ⟨h', pos, hidx, hpos⟩ := Hash.index_total h k
    obtain ⟨s, hs⟩ := Hash.slot?_lt hpos
    exact ⟨h', pos, s.value, hidx, hpos, Hash.deref_eq hs⟩
  · obtain ⟨h', b, hres, _⟩ := Hash.insert_total h k v
    exact ⟨h', b, hres⟩
  · obtain ⟨h', b, hres, _⟩ := Hash.erase_total hcap k
    exact ⟨h', b, hres⟩

/-- C16 at the table `clearedTwice`, reached through two calls of `clear`, and the
key 17, whose home slot 1 is OCCUPIED by the key 1. -/
theorem C16_operations_never_fail_witness :
    0 < clearedTwice.capacity ∧
    (∃ pos, clearedTwice.findPos 17 = .ok pos ∧ pos < clearedTwice.capacity) ∧
    (∃ b, clearedTwice.contains 17 = .ok b) ∧
    (∃ h' pos w, clearedTwice.index 17 = .ok (h', pos) ∧ pos < h'.capacity ∧
      h'.deref pos = .ok w) ∧
    (∃ h' b, clearedTwice.insert 17 5 = .ok (h', b)) ∧
    (∃ h' b, clearedTwice.erase 17 = .ok (h', b)) :=
  C16_operations_never_fail clearedTwice_attainable 17 5

/-! ## ArrayList: `resize` and copying -/

namespace ArrayList

variable {T : Type}

/-- The loop of the copy constructor copies the `n` elements from the index `i` on and
leaves the rest of the new buffer as it is. -/
theorem copyLoop_spec (src : List T) : ∀ (n i : Nat) (dst : List T), i + n ≤ src.length →
    i + n ≤ dst.length →
    ∃ r, copyLoop src n i dst = .ok r ∧ r.length = dst.length ∧
      ∀ j, r[j]? = if i ≤ j ∧ j < i + n then src[j]? else dst[j]? := by
  intro n
  induction n with
  | zero =>
    intro i dst _ _
    refine ⟨dst, rfl, rfl, fun j => ?_⟩
    rw [if_neg (by omega)]
  | succ n ih =>
    intro i dst hs hd
    have h1 : src[i]? = some src[i] := List.getElem?_eq_getElem (by omega)
    obtain ⟨r, hr, hrl, hrj⟩ := ih (i + 1) (dst.set i src[i]) (by omega) (by simp; omega)
    refine ⟨r, ?_, by rw [hrl]; simp, fun j => ?_⟩
    · unfold copyLoop
      simp only [readRaw_of_getElem? h1, bind, Except.bind,
        writeRaw_of_lt (by omega : i < dst.length)]
      exact hr
    · rw [hrj j]
      by_cases hj : i + 1 ≤ j ∧ j < i + 1 + n
      · rw [if_pos hj, if_pos (by omega)]
      · rw [if_neg hj]
        by_cases hji : j = i
        · subst hji
          rw [if_pos (by omega), h1, List.getElem?_set_self (by omega)]
        · rw [if_neg (by omega), List.getElem?_set_ne (by omega)]

/-- The copy constructor on an array that satisfies the class invariant: the logical
sequence is copied, the slots from the size on are default-constructed. -/
theorem copy_spec [Inhabited T] {a : ArrayList T} (hv : a.Valid) :
    ∃ c, a.copy = .ok c ∧ c._size = a._size ∧ c._items.length = a._items.length ∧
      ∀ j, c._items[j]? =
        if j < a._size then a._items[j]?
        else if j < a._items.length then some default else none := by
  have hv' : a._size ≤ a._items.length := hv
  obtain ⟨r, hr, hrl, hrj⟩ := copyLoop_spec a._items a._size 0
    (List.replicate a.getCapacity default) (by omega)
    (by simp [getCapacity]; omega)
  refine ⟨{ _size := a._size, _items := r }, ?_, rfl, ?_, fun j => ?_⟩
  · unfold copy
    rw [hr]
    rfl
  · show r.length = _
    rw [hrl]; simp [getCapacity]
  · show r[j]? = _
    rw [hrj j]
    by_cases hj : j < a._size
    · rw [if_pos (by omega), if_pos hj]
    · rw [if_neg (by omega), if_neg hj]
      simp [getCapacity, List.getElem?_replicate]

end ArrayList

/-- C21: on every array that satisfies the class invariant, `resize(newSize)` with
`newSize >= 0` succeeds, makes the capacity exactly `newSize`, sets the size to the
minimum of the old size and `newSize`, and keeps the elements at the indices below that
minimum; with `newSize < 0` it fails with the invalid-argument error, which is not the
out-of-range error, before anything is assigned, as the constructor `ArrayList(int)`
does for a negative capacity. -/
theorem C21_resize_exact_capacity {T : Type} [Inhabited T] (a : ArrayList T) (hv : a.Valid)
    (newSize : Int) :
    (0 ≤ newSize →
      ∃ a', a.resize newSize = .ok a' ∧ a'.getCapacity = newSize.toNat ∧
        a'.getSize = min a.getSize newSize.toNat ∧ a'.Valid ∧
        ∀ i, i < min a.getSize newSize.toNat → a'._items[i]? = a._items[i]?) ∧
    (newSize < 0 →
      a.resize newSize = .error .invalid_argument ∧
      (ArrayList.new newSize : Except Exn (ArrayList T)) = .error .invalid_argument) ∧
    Exn.invalid_argument ≠ Exn.out_of_range := by
  have hv' : a._size ≤ a._items.length := hv
  refine ⟨?_, ?_, by decide⟩
  · intro h0
    obtain ⟨n, rfl⟩ := Int.eq_ofNat_of_zero_le h0
    simp only [Int.toNat_ofNat]
    unfold ArrayList.resize
    rw [if_neg (by omega)]
    by_cases hc : (n : Int) = (a.getCapacity : Int)
    · rw [if_pos hc]
      have hc' : n = a._items.length := by
        have : (n : Int) = (a._items.length : Int) := hc
        omega
      refine ⟨a, rfl, hc'.symm, ?_, hv, fun _ _ => rfl⟩
      show a._size = min a._size n
      omega
    · rw [if_neg hc]
      by_cases hlt : (n : Int) < (a._size : Int)
      · have hgt : (a._size : Int) > (n : Int) := hlt
        simp only [hlt, hgt, if_true, Int.toNat_ofNat]
        rw [if_pos (show n ≤ a.getCapacity by show n ≤ a._items.length; omega)]
        refine ⟨_, rfl, ?_, ?_, ?_, ?_⟩
        · show (a._items.take n ++ List.replicate (n - n) default).length = n
          simp; omega
        · show n = min a._size n
          omega
        · show n ≤ (a._items.take n ++ List.replicate (n - n) default).length
          simp; omega
        · intro i hi
          have hi' : i < min a._size n := hi
          show (a._items.take n ++ List.replicate (n - n) default)[i]? = _
          rw [List.getElem?_append_left (by simp; omega),
            List.getElem?_take_of_lt (by omega)]
      · have hgt : ¬ ((a._size : Int) > (n : Int)) := by omega
        simp only [hlt, hgt, if_false]
        rw [if_pos (show a._size ≤ a.getCapacity from hv)]
        refine ⟨_, rfl, ?_, ?_, ?_, ?_⟩
        · show (a._items.take a._size ++ List.replicate (n - a._size) default).length = n
          simp; omega
        · show a._size = min a._size n
          omega
        · show a._size ≤ (a._items.take a._size ++ List.replicate (n - a._size) default).length
          simp; omega
        · intro i hi
          have hi' : i < min a._size n := hi
          show (a._items.take a._size ++ List.replicate (n - a._size) default)[i]? = _
          rw [List.getElem?_append_left (by simp; omega),
            List.getElem?_take_of_lt (by omega)]
  · intro hneg
    constructor
    · unfold ArrayList.resize
      rw [if_pos hneg]
    · unfold ArrayList.new
      rw [if_pos hneg]

/-- C21 at the array `array3` (elements 10, 20, 30; capacity 4): `resize(2)` keeps 10
and 20 in capacity 2, `resize(6)` keeps the three elements in capacity 6, and
`resize(-1)` fails with the invalid-argument error. -/
theorem C21_resize_exact_capacity_witness :
    (∃ a', array3.resize 2 = .ok a' ∧ a'.getCapacity = 2 ∧ a'.toList = [10, 20]) ∧
    (∃ a', array3.resize 6 = .ok a' ∧ a'.getCapacity = 6 ∧ a'.toList = [10, 20, 30]) ∧
    array3.resize (-1) = .error .invalid_argument := by
  have hv : array3.Valid := by unfold ArrayList.Valid; decide
  refine ⟨⟨_, rfl, rfl, rfl⟩, ⟨_, rfl, rfl, rfl⟩,
    ((C21_resize_exact_capacity array3 hv (-1)).2.1 (by decide)).1⟩

/-- C22 as stated fails: the buffer of the table `table014` (three OCCUPIED slots
written through `operator[]`, so that its size is 0 and its capacity 5) can be read at
the slot 0, which is OCCUPIED, but in its copy the slot 0 is a default-constructed slot,
whose state is EMPTY: the copy constructor copies the indices below the size only. -/
theorem C22_copy_drops_raw_slots :
    table014._vector.getSize = 0 ∧ table014._vector.getCapacity = 5 ∧
    table014._vector.index 0 = .ok { key := 0, value := 10, state := .OCCUPIED } ∧
    ∃ c, table014._vector.copy = .ok c ∧ c.getSize = 0 ∧ c.getCapacity = 5 ∧
      (c.index 0).map (fun s => s.state) = .ok .EMPTY ∧
      ∀ self : ArrayList (HashSlot Int Int),
        self.copyAssign table014._vector false = .ok c :=
  ⟨rfl, rfl, rfl, _, rfl, rfl, rfl, rfl, fun _ => rfl⟩

/-- C22 (amended): copying an array that satisfies the class invariant (by the copy
constructor or by copy assignment) yields an array with the same size and the same
capacity whose content equals the content of the source at every logical index below the
size, so that `getItem` and the logical sequence agree. Assigning an array to itself
leaves it as it is. -/
theorem C22_copy_keeps_logical_content {T : Type} [Inhabited T] (a : ArrayList T)
    (hv : a.Valid) :
    ∃ c, a.copy = .ok c ∧ (∀ self : ArrayList T, self.copyAssign a false = .ok c) ∧
      a.copyAssign a true = .ok a ∧
      c.getSize = a.getSize ∧ c.getCapacity = a.getCapacity ∧
      (∀ i, i < a.getSize → c._items[i]? = a._items[i]?) ∧
      (∀ pos : Int, c.getItem pos = a.getItem pos) ∧ c.toList = a.toList := by
  have hv' : a._size ≤ a._items.length := hv
  obtain ⟨c, hc, hs, hl, hj⟩ := ArrayList.copy_spec hv
  have hlog : ∀ i, i < a._size → c._items[i]? = a._items[i]? := by
    intro i hi
    rw [hj i, if_pos hi]
  refine ⟨c, hc, ?_, rfl, hs, hl, hlog, ?_, ?_⟩
  · intro self
    unfold ArrayList.copyAssign
    simp only [hc, bind, Except.bind, pure, Except.pure, ArrayList.swap]
    rfl
  · intro pos
    unfold ArrayList.getItem
    rw [hs]
    by_cases hp : pos < 0 ∨ pos ≥ (a._size : Int)
    · rw [if_pos hp, if_pos hp]
    · rw [if_neg hp, if_neg hp]
      unfold ArrayList.readRaw
      rw [hlog pos.toNat (by omega)]
  · apply List.ext_getElem?
    intro i
    unfold ArrayList.toList
    rw [hs, List.getElem?_take, List.getElem?_take]
    by_cases hi : i < a._size
    · rw [if_pos hi, if_pos hi, hlog i hi]
    · rw [if_neg hi, if_neg hi]

/-- C22 (amended) at the array `array3` (elements 10, 20, 30; capacity 4). -/
theorem C22_copy_keeps_logical_content_witness :
    ∃ c, array3.copy = .ok c ∧ c.getSize = 3 ∧ c.getCapacity = 4 ∧
      c.toList = [10, 20, 30] ∧ c.getItem 2 = .ok 30 := by
  obtain ⟨c, h1, _, _, h4, h5, _, h7, h8⟩ :=
    C22_copy_keeps_logical_content array3 (by unfold ArrayList.Valid; decide)
  exact ⟨c, h1, h4, h5, h8, by rw [h7 2]; rfl⟩
/-! ## Primes and capacities -/

namespace Hash

variable {K V : Type}

/-- The capacity after `insert`: the old one, or the next prime after twice the old one
when the call rehashed. -/
theorem insert_capacity [Hasher K] [DecidableEq K] [Inhabited K] [Inhabited V]
    {h t : Hash K V} (hinv : h.Inv) {k : K} {v : V} {b : Bool}
    (hi : h.insert k v = .ok (t, b)) :
    (h.needsRehash = false ∧ t.capacity = h.capacity) ∨
      (h.needsRehash = true ∧ t.capacity = findNextPrime (h.capacity * 2)) := by
  obtain ⟨p, hp, _, hcap, _, _, hsame, hre⟩ := prepare_spec hinv
  obtain ⟨t', b', hres, hc, _⟩ := insertCore_total hcap k v
  have e : h.insert k v = .ok (t', b') := by
    unfold Hash.insert
    rw [insertAux_eq, hp]
    exact hres
  rw [e] at hi
  cases hi
  by_cases hn : h.needsRehash = true
  · exact Or.inr ⟨hn, by rw [hc]; exact (hre hn).1⟩
  · have hn' : h.needsRehash = false := by simpa using hn
    exact Or.inl ⟨hn', by rw [hc, hsame hn']⟩

/-- The capacity after `operator[]`. -/
theorem index_capacity [Hasher K] [DecidableEq K] [Inhabited K] [Inhabited V]
    {h t : Hash K V} (hinv : h.Inv) {k : K} {pos : Nat}
    (hi : h.index k = .ok (t, pos)) :
    ((h.needsRehash = false ∧ t.capacity = h.capacity) ∨
      (h.needsRehash = true ∧ t.capacity = findNextPrime (h.capacity * 2))) ∧
      pos < t.capacity := by
  obtain ⟨p, hp, _, hcap, _, _, hsame, hre⟩ := prepare_spec hinv
  obtain ⟨t', pos', hres, hc, _, hpos⟩ := indexCore_total hcap k
  have e : h.index k = .ok (t', pos') := by
    unfold Hash.index
    rw [indexAux_eq, hp]
    exact hres
  rw [e] at hi
  cases hi
  refine ⟨?_, hpos⟩
  by_cases hn : h.needsRehash = true
  · exact Or.inr ⟨hn, by rw [hc]; exact (hre hn).1⟩
  · have hn' : h.needsRehash = false := by simpa using hn
    exact Or.inl ⟨hn', by rw [hc, hsame hn']⟩

/-- Without `clear`, the capacity of a table is always a prime number. -/
theorem Reachable.capacity_prime [Hasher K] [DecidableEq K] [Inhabited K] [Inhabited V]
    {h : Hash K V} (hr : h.Reachable) : Nat.Prime h.capacity := by
  induction hr with
  | new n =>
    unfold Hash.new
    rw [capacity_withCapacity]
    exact (findNextPrime_spec _).1
  | @insert h t k v b hr hi ih =>
    rcases insert_capacity hr.inv hi with ⟨_, hc⟩ | ⟨_, hc⟩
    · rw [hc]; exact ih
    · rw [hc]; exact (findNextPrime_spec _).1
  | @erase h t k b hr he ih =>
    obtain ⟨h', b', hres, hc⟩ := erase_total ih.pos k
    rw [hres] at he
    cases he
    rw [hc]; exact ih
  | @index h t k p hr hi ih =>
    rcases (index_capacity hr.inv hi).1 with ⟨_, hc⟩ | ⟨_, hc⟩
    · rw [hc]; exact ih
    · rw [hc]; exact (findNextPrime_spec _).1
  | @update h t k f hr hu ih =>
    obtain ⟨h', pos, hidx, hpos⟩ := index_total h k
    have hcp : Nat.Prime h'.capacity := by
      rcases (index_capacity hr.inv hidx).1 with ⟨_, hc⟩ | ⟨_, hc⟩
      · rw [hc]; exact ih
      · rw [hc]; exact (findNextPrime_spec _).1
    obtain ⟨s, hs⟩ := slot?_lt hpos
    unfold Hash.update at hu
    rw [hidx] at hu
    simp only [bind, Except.bind] at hu
    rw [assign_eq hs] at hu
    cases hu
    rw [capacity_setSlot]
    exact hcp

theorem filter_length_le_one {α : Type} (p : α → Bool) : ∀ (l : List α),
    (∀ (i j : Nat) (a b : α), l[i]? = some a → l[j]? = some b → p a = true → p b = true →
      i = j) →
    (l.filter p).length ≤ 1 := by
  intro l
  induction l with
  | nil => intro _; simp
  | cons x xs ih =>
    intro h
    by_cases hx : p x = true
    · have hnil : xs.filter p = [] := by
        rw [List.filter_eq_nil_iff]
        intro y hy hpy
        obtain ⟨j, hj⟩ := List.getElem?_of_mem hy
        have := h 0 (j + 1) x y (by simp) (by simpa using hj) hx hpy
        omega
      rw [List.filter_cons_of_pos hx, hnil]
      simp
    · rw [List.filter_cons_of_neg hx]
      apply ih
      intro i j a b hi hj ha hb
      have := h (i + 1) (j + 1) a b (by simpa using hi) (by simpa using hj) ha hb
      omega

end Hash

theorem tableWithTomb_reachable : tableWithTomb.Reachable := by
  have hcap : 0 < table014.capacity := by decide
  obtain ⟨h1, b1, e1, _⟩ := Hash.erase_total hcap (1 : Int)
  obtain ⟨h2, b2, e2, _⟩ := Hash.insert_total h1 2 12
  obtain ⟨h3, b3, e3, _⟩ := Hash.insert_total h2 3 13
  have e : tableWithTomb = h3 := by
    unfold tableWithTomb
    simp only [e1, bind, Except.bind, e2, e3]
    rfl
  rw [e]
  exact Hash.Reachable.insert (Hash.Reachable.insert
    (Hash.Reachable.erase table014_reachable e1) e2) e3

/-! ## Claims about the invariants of `Hash` -/

/-- C23 (the code departs from the claim): after `Hash<int,int> h(3); h.clear();` the
capacity is 16, which is not a prime number: `clear` resizes the buffer to 16 slots. The
capacity before the call, 5, is prime. -/
theorem C23_capacity_after_clear_not_prime :
    clearedOnce.Attainable ∧ (Hash.new 3 : Hash Int Int).clear = .ok clearedOnce ∧
    Nat.Prime (Hash.new 3 : Hash Int Int).capacity ∧ clearedOnce.capacity = 16 ∧
    ¬ Nat.Prime clearedOnce.capacity := by
  have e : (Hash.new 3 : Hash Int Int).clear = .ok clearedOnce := rfl
  have hc : clearedOnce.capacity = 16 := rfl
  refine ⟨Hash.Attainable.clear (Hash.Attainable.new 3) e, e,
    (Hash.Reachable.new 3).capacity_prime, hc, ?_⟩
  rw [hc]
  norm_num

/-- C24: in every reachable table no key is held by more than one OCCUPIED slot: the
number of OCCUPIED slots that hold a given key is at most 1, and two OCCUPIED slots with
the same key are the same slot. -/
theorem C24_key_in_at_most_one_slot {K V : Type} [Hasher K] [DecidableEq K] [Inhabited K]
    [Inhabited V] {h : Hash K V} (hr : h.Reachable) (k : K) :
    h.copies k ≤ 1 ∧
    ∀ j1 j2 s1 s2, h.slot? j1 = some s1 → h.slot? j2 = some s2 →
      s1.state = .OCCUPIED → s2.state = .OCCUPIED → s1.key = k → s2.key = k → j1 = j2 := by
  have hinv := hr.inv
  have huniq : ∀ j1 j2 s1 s2, h.slot? j1 = some s1 → h.slot? j2 = some s2 →
      s1.state = .OCCUPIED → s2.state = .OCCUPIED → s1.key = k → s2.key = k → j1 = j2 := by
    intro j1 j2 s1 s2 hs1 hs2 ho1 ho2 hk1 hk2
    exact hinv.unique j1 j2 s1 s2 hs1 hs2 ho1 ho2 (by rw [hk1, hk2])
  refine ⟨?_, huniq⟩
  unfold Hash.copies
  apply Hash.filter_length_le_one
  intro i j a b hi hj ha hb
  simp only [decide_eq_true_eq] at ha hb
  exact huniq i j a b hi hj ha.1 hb.1 ha.2 hb.2

/-- C24 at the table `tableWithTomb`, reached through an `erase` that left a TOMBSTONE,
and the key 2. -/
theorem C24_key_in_at_most_one_slot_witness :
    tableWithTomb.stateAt 1 = .TOMBSTONE ∧ tableWithTomb.copies 2 = 1 ∧
    tableWithTomb.copies 2 ≤ 1 :=
  ⟨rfl, rfl, (C24_key_in_at_most_one_slot tableWithTomb_reachable 2).1⟩

/-! ## Tombstones are reused -/

namespace Hash

variable {K V : Type}

/-- Replacing a slot by one that is EMPTY exactly if the old one was keeps the number of
slots that are not EMPTY. -/
theorem nonEmpty_setSlot_keep {h : Hash K V} {pos : Nat} (s : HashSlot K V) (n : Nat)
    (hsame : pos < h.capacity → (h.stateAt pos ≠ .EMPTY ↔ s.state ≠ .EMPTY)) :
    (h.setSlot pos s n).nonEmpty = h.nonEmpty := by
  unfold nonEmpty
  rw [capacity_setSlot]
  congr 1
  ext j
  simp only [Finset.mem_filter, Finset.mem_range]
  by_cases e : j = pos
  · subst e
    constructor
    · rintro ⟨hlt, hst⟩
      rw [stateAt_setSlot_eq s n hlt] at hst
      exact ⟨hlt, (hsame hlt).2 hst⟩
    · rintro ⟨hlt, hst⟩
      exact ⟨hlt, by rw [stateAt_setSlot_eq s n hlt]; exact (hsame hlt).1 hst⟩
  · rw [stateAt_setSlot_ne s n e]

/-- The loop of `findPos` for a key that the table does not hold, when a TOMBSTONE has
been met or lies ahead on the probe sequence before any EMPTY slot: the position returned
is a TOMBSTONE. -/
theorem findPosLoop_tomb [Hasher K] [DecidableEq K] (h : Hash K V) (key : K)
    (hcap : 0 < h.capacity) (ha : h.Absent key) :
    ∀ (n i : Nat) (tomb : Option Nat), n + i = h.capacity →
      (∀ t, tomb = some t → h.stateAt t = .TOMBSTONE) →
      (tomb = none → ∃ j, i ≤ j ∧ j < h.capacity ∧
        h.stateAt (probe h.capacity key j) = .TOMBSTONE ∧
        ∀ i', i ≤ i' → i' < j → h.stateAt (probe h.capacity key i') ≠ .EMPTY) →
      ∃ pos, findPosLoop h key n i tomb = .ok pos ∧ h.stateAt pos = .TOMBSTONE := by
  intro n
  induction n with
  | zero =>
    intro i tomb hni htomb hnone
    cases tomb with
    | some t => exact ⟨t, by simp [findPosLoop], htomb t rfl⟩
    | none =>
      obtain ⟨j, h1, h2, _⟩ := hnone rfl
      omega
  | succ n ih =>
    intro i tomb hni htomb hnone
    have hilt : i < h.capacity := by omega
    obtain ⟨s, hs⟩ := slot?_lt (probe_lt hcap key i)
    have hidx : h._vector.index ((probe h.capacity key i : Nat) : Int) = .ok s :=
      ArrayList.index_of_getElem? hs
    have hst := stateAt_of_slot? hs
    unfold findPosLoop
    simp only [hidx, bind, Except.bind]
    by_cases hE : s.state = .EMPTY
    · simp only [hE, if_true, pure, Except.pure]
      cases tomb with
      | some t => exact ⟨t, rfl, htomb t rfl⟩
      | none =>
        exfalso
        obtain ⟨j, h1, h2, h3, h4⟩ := hnone rfl
        by_cases e : j = i
        · subst e
          rw [hst, hE] at h3
          cases h3
        · exact h4 i (le_refl _) (by omega) (by rw [hst]; exact hE)
    · rw [if_neg hE]
      by_cases hT : s.state = .TOMBSTONE
      · rw [if_pos hT]
        apply ih (i + 1) _ (by omega)
        · intro t ht
          cases tomb with
          | some t0 =>
            simp at ht
            subst ht
            exact htomb t0 rfl
          | none =>
            simp at ht
            subst ht
            rw [hst]; exact hT
        · intro h'; cases h'
      · rw [if_neg hT]
        have hO : s.state = .OCCUPIED := by
          cases hs' : s.state with
          | EMPTY => exact absurd hs' hE
          | TOMBSTONE => exact absurd hs' hT
          | OCCUPIED => rfl
        have hk : s.key ≠ key := ha _ s hs hO
        rw [if_neg hk]
        apply ih (i + 1) tomb (by omega) htomb
        intro hn
        obtain ⟨j, h1, h2, h3, h4⟩ := hnone hn
        have e : j ≠ i := by
          rintro rfl
          rw [hst, hO] at h3
          cases h3
        exact ⟨j, by omega, h2, h3, fun i' hi1 hi2 => h4 i' (by omega) hi2⟩

/-- For a key that the table does not hold and whose probe sequence meets a TOMBSTONE
before any EMPTY slot, `findPos` returns a TOMBSTONE. -/
theorem findPos_tomb [Hasher K] [DecidableEq K] {h : Hash K V} {key : K}
    (hcap : 0 < h.capacity) (ha : h.Absent key) {j : Nat} (hj : j < h.capacity)
    (htomb : h.stateAt (probe h.capacity key j) = .TOMBSTONE)
    (hpre : ∀ i', i' < j → h.stateAt (probe h.capacity key i') ≠ .EMPTY) :
    ∃ pos, h.findPos key = .ok pos ∧ h.stateAt pos = .TOMBSTONE := by
  unfold findPos
  rw [if_neg (by omega)]
  apply findPosLoop_tomb h key hcap ha h.capacity 0 none (by omega)
  · intro t ht; cases ht
  · intro _
    exact ⟨j, Nat.zero_le _, hj, htomb, fun i' _ hi' => hpre i' hi'⟩

/-- One cycle `erase(key); insert(key, v);` at a key the table holds, when the load test
fails at every size below the size of the table: the `insert` does not rehash and turns a
TOMBSTONE into the slot of the key. -/
theorem eraseInsert_spec [Hasher K] [DecidableEq K] [Inhabited K] [Inhabited V]
    {h : Hash K V} (hinv : h.Inv)
    (hload : ∀ s, s < h._size → loadReached s h.capacity = false) {key : K}
    {w : V} (hh : h.Holds key w) (v : V) :
    ∃ h1 h2 pos, h.erase key = .ok (h1, true) ∧ h1.needsRehash = false ∧
      h1.capacity = h.capacity ∧ h1.nonEmpty = h.nonEmpty ∧
      h1.findPos key = .ok pos ∧ h1.stateAt pos = .TOMBSTONE ∧
      h1.insert key v = .ok (h2, true) ∧
      h2 = h1.setSlot pos { key := key, value := v, state := .OCCUPIED } (h1._size + 1) ∧
      h2.capacity = h.capacity ∧ h2.nonEmpty = h.nonEmpty ∧ h2._size = h._size ∧
      h2.Inv ∧ h2.Holds key v := by
  obtain ⟨pe, s, hs, hocc, hk, hres⟩ := erase_present hinv hh
  have hpe := lt_of_slot? hs
  have hcap : 0 < h.capacity := by omega
  have hocc1 : 0 < h.occupied := by
    unfold occupied
    exact Finset.card_pos.2 ⟨pe, by simp [hpe, stateAt_of_slot? hs, hocc]⟩
  have hsz : 0 < h._size := by rw [hinv.size_eq]; exact hocc1
  obtain ⟨h1, e1⟩ : ∃ h1, h1 = h.setSlot pe { s with state := .TOMBSTONE } (h._size - 1) :=
    ⟨_, rfl⟩
  rw [← e1] at hres
  have hinv1 : h1.Inv := by rw [e1]; exact hinv.eraseSlot hs hocc
  have hc1 : h1.capacity = h.capacity := by rw [e1]; exact capacity_setSlot _ _ _ _
  have hs1 : h1._size = h._size - 1 := by rw [e1]; rfl
  have hne1 : h1.nonEmpty = h.nonEmpty := by
    rw [e1]
    apply nonEmpty_setSlot_keep
    intro _
    rw [stateAt_of_slot? hs, hocc]
    simp
  have hnr : h1.needsRehash = false := by
    rw [needsRehash_eq_false_iff, hc1, hs1]
    exact ⟨hcap, hload _ (by omega)⟩
  have habs : h1.Absent key := by
    intro j s' hs' hocc' hk'
    have := (holds_eraseSlot hinv (h._size - 1) hs hocc key s'.value).1
      (by rw [← e1]; exact ⟨j, s', hs', hocc', hk', rfl⟩)
    exact this.1 hk.symm
  obtain ⟨i, hi, hp, hpre⟩ := hinv.chain pe s hs hocc
  rw [hk] at hp hpre
  obtain ⟨pos, hf, hst⟩ := findPos_tomb (h := h1) (by rw [hc1]; exact hcap) habs
    (j := i) (by rw [hc1]; exact hi)
    (by rw [hc1, hp, e1, stateAt_setSlot_eq _ _ hpe])
    (by
      intro i' hi'
      rw [hc1, e1]
      exact stateAt_setSlot_nonEmpty _ _ (by simp) _ (hpre i' hi'))
  have hposlt : pos < h1.capacity := by
    by_contra hge
    have : h1.stateAt pos = .EMPTY := by
      unfold stateAt slot?
      have : h1._vector._items.length ≤ pos := by
        have hh1 : h1.capacity = h1._vector._items.length := rfl
        omega
      rw [List.getElem?_eq_none this]
    rw [this] at hst
    cases hst
  obtain ⟨sp, hsp⟩ := slot?_lt hposlt
  have hspst : sp.state = .TOMBSTONE := by rw [← stateAt_of_slot? hsp]; exact hst
  have hidx : h1._vector.index (pos : Int) = .ok sp := ArrayList.index_of_getElem? hsp
  have hins : h1.insert key v =
      .ok (h1.setSlot pos { key := key, value := v, state := .OCCUPIED } (h1._size + 1),
        true) := by
    unfold Hash.insert
    rw [insertAux_eq, hnr]
    unfold insertAux
    simp [hnr, hf, hidx, hspst, bind, Except.bind, pure, Except.pure, place_eq hsp]
  have hnotocc : h1.stateAt pos ≠ .OCCUPIED := by rw [hst]; decide
  refine ⟨h1, _, pos, hres, hnr, hc1, hne1, hf, hst, hins, rfl, ?_, ?_, ?_, hinv1.insert hins,
    ?_⟩
  · rw [capacity_setSlot, hc1]
  · rw [← hne1]
    apply nonEmpty_setSlot_keep
    intro _
    rw [hst]
    simp
  · rw [size_setSlot, hs1]; omega
  · exact (holds_insertSlot v _ hposlt hnotocc key v).2 (Or.inl ⟨rfl, rfl⟩)

/-- Any number of cycles `erase(key); insert(key, v);` at a key the table holds keeps the
capacity and the number of slots that are not EMPTY. -/
theorem eraseInsertCycles_spec [Hasher K] [DecidableEq K] [Inhabited K] [Inhabited V]
    (key : K) : ∀ (vs : List V) {h : Hash K V} {w : V}, h.Inv →
      (∀ s, s < h._size → loadReached s h.capacity = false) → h.Holds key w →
      ∃ h', eraseInsertCycles key vs h = .ok h' ∧ h'.capacity = h.capacity ∧
        h'.nonEmpty = h.nonEmpty ∧ h'._size = h._size := by
  intro vs
  induction vs with
  | nil =>
    intro h w _ _ _
    exact ⟨h, rfl, rfl, rfl, rfl⟩
  | cons v vs ih =>
    intro h w hinv hload hh
    obtain ⟨h1, h2, pos, he, _, _, _, _, _, hi, _, hc2, hn2, hs2, hinv2, hh2⟩ :=
      eraseInsert_spec hinv hload hh v
    obtain ⟨h', hr, hc, hn, hs⟩ := ih hinv2 (by rw [hs2, hc2]; exact hload) hh2
    refine ⟨h', ?_, by rw [hc, hc2], by rw [hn, hn2], by rw [hs, hs2]⟩
    unfold eraseInsertCycles
    simp only [he, bind, Except.bind, hi]
    exact hr

end Hash

/-- C25: in every reachable table, at a key `k` that the table holds, `erase(k)` followed
by `insert(k,v)` triggers no rehash (the load test of the `insert` fails), leaves the
capacity unchanged and leaves the number of slots that are not EMPTY equal to what it was
before the `erase`: `findPos` offers the `insert` a TOMBSTONE, which becomes the slot of
the key. Hence any number of such cycles of the same key leaves the capacity and the
number of slots that are not EMPTY as they were. -/
theorem C25_erase_insert_reuses_tombstone {K V : Type} [Hasher K] [DecidableEq K]
    [Inhabited K] [Inhabited V] {h : Hash K V} (hr : h.Reachable) {k : K} {w : V}
    (hw : h.lookup k = some w) (v : V) (vs : List V) :
    (∃ h1 h2 pos, h.erase k = .ok (h1, true) ∧ h1.needsRehash = false ∧
      h1.findPos k = .ok pos ∧ h1.stateAt pos = .TOMBSTONE ∧
      h1.insert k v = .ok (h2, true) ∧ h2.stateAt pos = .OCCUPIED ∧
      h2.capacity = h.capacity ∧ h2.nonEmpty = h.nonEmpty ∧ h2.lookup k = some v) ∧
    (∃ h', Hash.eraseInsertCycles k vs h = .ok h' ∧ h'.capacity = h.capacity ∧
      h'.nonEmpty = h.nonEmpty) := by
  have hinv := hr.inv
  have hh := Hash.lookup_some hw
  constructor
  · obtain ⟨h1, h2, pos, he, hnr, hc1, _, hf, hst, hi, e2, hc2, hn2, _, hinv2, hh2⟩ :=
      Hash.eraseInsert_spec hinv hr.load hh v
    refine ⟨h1, h2, pos, he, hnr, hf, hst, hi, ?_, hc2, hn2, hh2.lookup hinv2⟩
    have hposlt : pos < h1.capacity := by
      by_contra hge
      have : h1.stateAt pos = .EMPTY := by
        unfold Hash.stateAt Hash.slot?
        have hl : h1._vector._items.length ≤ pos := by
          have hh1 : h1.capacity = h1._vector._items.length := rfl
          omega
        rw [List.getElem?_eq_none hl]
      rw [this] at hst
      cases hst
    rw [e2, Hash.stateAt_setSlot_eq _ _ hposlt]
  · obtain ⟨h', h1, h2, h3, _⟩ := Hash.eraseInsertCycles_spec k vs hinv hr.load hh
    exact ⟨h', h1, h2, h3⟩

/-- C25 at the table `table05` and the key 0, with three cycles afterwards. -/
theorem C25_erase_insert_reuses_tombstone_witness :
    (∃ h1 h2 pos, table05.erase 0 = .ok (h1, true) ∧ h1.needsRehash = false ∧
      h1.findPos 0 = .ok pos ∧ h1.stateAt pos = .TOMBSTONE ∧
      h1.insert 0 77 = .ok (h2, true) ∧ h2.stateAt pos = .OCCUPIED ∧
      h2.capacity = table05.capacity ∧ h2.nonEmpty = table05.nonEmpty ∧
      h2.lookup 0 = some 77) ∧
    (∃ h', Hash.eraseInsertCycles 0 [1, 2, 3] table05 = .ok h' ∧
      h'.capacity = table05.capacity ∧ h'.nonEmpty = table05.nonEmpty) :=
  C25_erase_insert_reuses_tombstone table05_reachable (k := 0) (w := 10) rfl 77 [1, 2, 3]

/-! ## What the reinsertions of `rehash` return -/

namespace Hash

variable {K V : Type}

/-- The loop of `rehash` with the record of its calls of `insert`: every call returns
`true`, there is one call for each OCCUPIED slot of the old table from `i` on, and the
table built is the one `rehashLoop` builds. -/
theorem rehashLoopLog_spec [Hasher K] [DecidableEq K] {h : Hash K V} (hinv : h.Inv) {p : Nat}
    (hp : Nat.Prime p) (hbig : 2 * h.capacity < p)
    (insertFn : Hash K V → K → V → Except Exn (Hash K V × Bool))
    (hins : ∀ t k v, t.needsRehash = false → insertFn t k v = insertAux .ok t k v) :
    ∀ (n i : Nat) (t : Hash K V), n + i = h.capacity → t.capacity = p → t.Inv → t.NoTomb →
      t._size = h.occupiedBelow i →
      (∀ k v, t.Holds k v ↔ ∃ j s, j < i ∧ h.slot? j = some s ∧ s.state = .OCCUPIED ∧
        s.key = k ∧ s.value = v) →
      ∃ t' bs, rehashLoopLog insertFn h._vector n i t = .ok (t', bs) ∧
        rehashLoop insertFn h._vector n i t = .ok t' ∧
        (∀ b ∈ bs, b = true) ∧ bs.length + h.occupiedBelow i = h.occupied := by
  intro n
  induction n with
  | zero =>
    intro i t hni hcap hti hnt hsz hholds
    have hi : i = h.capacity := by omega
    subst hi
    exact ⟨t, [], rfl, rfl, by simp, by simp [occupiedBelow, occupied]⟩
  | succ n ih =>
    intro i t hni hcap hti hnt hsz hholds
    have hilt : i < h.capacity := by omega
    obtain ⟨s, hs⟩ := slot?_lt hilt
    have hidx : h._vector.index (i : Int) = .ok s := ArrayList.index_of_getElem? hs
    by_cases hocc : s.state = .OCCUPIED
    · have hszle : t._size ≤ i := by rw [hsz]; exact occupiedBelow_le h i
      have hnr : t.needsRehash = false := by
        exact needsRehash_of_half (by omega)
      have habs : t.Absent s.key := by
        intro j' s' hs' hocc' hk'
        obtain ⟨j, s2, hj, hs2, hocc2, hk2, _⟩ := (hholds s.key s'.value).1
          ⟨j', s', hs', hocc', hk', rfl⟩
        have := hinv.unique j i s2 s hs2 hs hocc2 hocc hk2
        omega
      have hroom : t.Room s.key := by
        apply room_of_empty_probe
        apply exists_empty_probe (by rw [hcap]; exact hp)
        rw [hnt.nonEmpty_eq, ← hti.size_eq]
        omega
      rcases insertCore_absent hti (by omega) habs s.value with
        ⟨_, pos, hpos, hst, hres, hinv'⟩ | ⟨hnoroom, _⟩
      · obtain ⟨t', bs, hlog, hloop, hall, hlen⟩ :=
          ih (i + 1) (t.setSlot pos { key := s.key, value := s.value, state := .OCCUPIED }
              (t._size + 1)) (by omega) (by rw [capacity_setSlot]; exact hcap) hinv'
            (by
              intro j
              by_cases e : j = pos
              · subst e; rw [stateAt_setSlot_eq _ _ hpos]; simp
              · rw [stateAt_setSlot_ne _ _ e]; exact hnt j)
            (by rw [size_setSlot, occupiedBelow_succ, hsz, stateAt_of_slot? hs, if_pos hocc])
            (by
              intro k v
              rw [holds_insertSlot _ _ hpos hst, hholds]
              constructor
              · rintro (⟨hk, hv⟩ | ⟨j, s2, hj, hs2, hocc2, hk2, hv2⟩)
                · exact ⟨i, s, by omega, hs, hocc, hk.symm, hv.symm⟩
                · exact ⟨j, s2, by omega, hs2, hocc2, hk2, hv2⟩
              · rintro ⟨j, s2, hj, hs2, hocc2, hk2, hv2⟩
                by_cases e : j = i
                · subst e
                  rw [hs] at hs2
                  cases hs2
                  exact Or.inl ⟨hk2.symm, hv2.symm⟩
                · exact Or.inr ⟨j, s2, by omega, hs2, hocc2, hk2, hv2⟩)
        refine ⟨t', true :: bs, ?_, ?_, ?_, ?_⟩
        · unfold rehashLoopLog
          simp only [hidx, bind, Except.bind]
          rw [if_pos hocc, hins t s.key s.value hnr, hres]
          simp only []
          rw [hlog]
          rfl
        · unfold rehashLoop
          simp only [hidx, bind, Except.bind]
          rw [if_pos hocc, hins t s.key s.value hnr, hres]
          exact hloop
        · intro b hb
          rcases List.mem_cons.1 hb with rfl | hb
          · rfl
          · exact hall b hb
        · rw [occupiedBelow_succ, stateAt_of_slot? hs, if_pos hocc] at hlen
          rw [List.length_cons]
          omega
      · exact absurd hroom hnoroom
    · obtain ⟨t', bs, hlog, hloop, hall, hlen⟩ :=
        ih (i + 1) t (by omega) hcap hti hnt
          (by rw [occupiedBelow_succ, hsz, stateAt_of_slot? hs, if_neg hocc]; rfl)
          (by
            intro k v
            rw [hholds]
            constructor
            · rintro ⟨j, s2, hj, hs2, hocc2, hk2, hv2⟩
              exact ⟨j, s2, by omega, hs2, hocc2, hk2, hv2⟩
            · rintro ⟨j, s2, hj, hs2, hocc2, hk2, hv2⟩
              have e : j ≠ i := by
                rintro rfl
                rw [hs] at hs2
                cases hs2
                exact hocc hocc2
              exact ⟨j, s2, by omega, hs2, hocc2, hk2, hv2⟩)
      refine ⟨t', bs, ?_, ?_, hall, ?_⟩
      · unfold rehashLoopLog
        simp only [hidx, bind, Except.bind]
        rw [if_neg hocc]
        exact hlog
      · unfold rehashLoop
        simp only [hidx, bind, Except.bind]
        rw [if_neg hocc]
        exact hloop
      · rw [occupiedBelow_succ, stateAt_of_slot? hs, if_neg hocc] at hlen
        omega

/-- The calls of `insert` made by `rehash` all return `true`, one for each OCCUPIED slot
of the old table. -/
theorem rehashLog_spec [Hasher K] [DecidableEq K] [Inhabited K] [Inhabited V]
    {h : Hash K V} (hinv : h.Inv) :
    ∃ t bs, rehashLog h = .ok (t, bs) ∧ rehash h = .ok t ∧ (∀ b ∈ bs, b = true) ∧
      bs.length = h.occupied := by
  obtain ⟨hprime, hgt, _⟩ := findNextPrime_spec (h.capacity * 2)
  obtain ⟨t, bs, h1, h2, h3, h4⟩ := rehashLoopLog_spec hinv hprime (by omega) (insertFuel 1)
    (fun t k v hn => insertFuel_succ_of_not_needsRehash 0 t k v hn)
    h.capacity 0 ⟨ArrayList.withCapacity (findNextPrime (h.capacity * 2)), 0⟩
    (by simp) (capacity_withCapacity _ _) (inv_withCapacity _)
    (by intro j; rw [stateAt_withCapacity]; decide)
    (by simp [occupiedBelow])
    (by
      intro k v
      constructor
      · rintro ⟨j, s, hs, hocc, _, _⟩
        rw [slot?_withCapacity hs] at hocc
        cases hocc
      · rintro ⟨j, s, hj, _⟩; omega)
  refine ⟨t, bs, h1, h2, h3, ?_⟩
  have : h.occupiedBelow 0 = 0 := by simp [occupiedBelow]
  omega

end Hash

/-- C26: in every reachable table with `size >= 0.7 * capacity` as the code tests it
(in `float` arithmetic), `insert` and indexed
access first call `rehash`, which returns a table `t` such that: its capacity is the
smallest prime that is at least twice the old capacity, every reinsertion returns `true`
and there is one for each OCCUPIED slot, every key has the value it had and no other key is
present, the size is the number of OCCUPIED slots of the old table, and no slot is a
TOMBSTONE. The operation then goes on in `t` without another rehash. -/
theorem C26_rehash_rebuilds_table {K V : Type} [Hasher K] [DecidableEq K]
    [Inhabited K] [Inhabited V] {h : Hash K V} (hr : h.Reachable)
    (hn : h.needsRehash = true) :
    ∃ t bs, Hash.rehash h = .ok t ∧ Hash.rehashLog h = .ok (t, bs) ∧
      (∀ b ∈ bs, b = true) ∧ bs.length = h.occupied ∧
      Nat.Prime t.capacity ∧ 2 * h.capacity ≤ t.capacity ∧
      (∀ m, Nat.Prime m → 2 * h.capacity ≤ m → t.capacity ≤ m) ∧
      (∀ k, t.lookup k = h.lookup k) ∧
      t.size = h.occupied ∧ t.occupied = h.occupied ∧ t.NoTomb ∧
      t.needsRehash = false ∧
      (∀ k v, h.insert k v = Hash.insertAux .ok t k v) ∧
      (∀ k, h.index k = Hash.indexAux .ok t k) := by
  have hinv := hr.inv
  obtain ⟨t, bs, hlog, hre, hall, hlen⟩ := Hash.rehashLog_spec hinv
  obtain ⟨t0, ht0, hcap, hti, hnt, hsz, hholds⟩ := Hash.rehash_spec hinv
  rw [hre] at ht0
  cases ht0
  obtain ⟨hprime, hgt, hleast⟩ := findNextPrime_spec (h.capacity * 2)
  have hcp := hr.capacity_prime
  have hle := Hash.occupied_le_capacity h
  refine ⟨t, bs, hre, hlog, hall, hlen, by rw [hcap]; exact hprime, by rw [hcap]; omega, ?_,
    fun k => Hash.lookup_congr hinv hti k (hholds k), ?_, ?_, hnt, ?_, ?_, ?_⟩
  · intro m hm h2
    rw [hcap]
    by_contra hlt
    have hne : m ≠ h.capacity * 2 := by
      rintro rfl
      have := (Nat.prime_mul_iff.1 hm)
      rcases this with ⟨_, h1⟩ | ⟨_, h1⟩
      · norm_num at h1
      · exact hcp.one_lt.ne' h1
    exact hleast m (by omega) (by omega) hm
  · show t._size = _
    rw [hsz, hinv.size_eq]
  · rw [← hti.size_eq, hsz, hinv.size_eq]
  · apply Hash.needsRehash_of_half
    rw [hcap, hsz, hinv.size_eq]
    omega
  · intro k v
    unfold Hash.insert
    rw [Hash.insertAux_eq, if_pos hn, hre]
    rfl
  · intro k
    unfold Hash.index
    rw [Hash.indexAux_eq, if_pos hn, hre]
    rfl

/-- C26 at the table `tableWithTomb`, of capacity 5 with four keys and one TOMBSTONE: the
rehash gives a table of capacity 11 with the four keys. -/
theorem C26_rehash_rebuilds_table_witness :
    tableWithTomb.needsRehash = true ∧
    ∃ t bs, Hash.rehash tableWithTomb = .ok t ∧ Hash.rehashLog tableWithTomb = .ok (t, bs) ∧
      (∀ b ∈ bs, b = true) ∧ bs.length = tableWithTomb.occupied ∧
      Nat.Prime t.capacity ∧ 2 * tableWithTomb.capacity ≤ t.capacity ∧
      (∀ m, Nat.Prime m → 2 * tableWithTomb.capacity ≤ m → t.capacity ≤ m) ∧
      (∀ k, t.lookup k = tableWithTomb.lookup k) ∧
      t.size = tableWithTomb.occupied ∧ t.occupied = tableWithTomb.occupied ∧ t.NoTomb ∧
      t.needsRehash = false ∧
      (∀ k v, tableWithTomb.insert k v = Hash.insertAux .ok t k v) ∧
      (∀ k, tableWithTomb.index k = Hash.indexAux .ok t k) :=
  ⟨rfl, C26_rehash_rebuilds_table tableWithTomb_reachable rfl⟩

/-! ## Splicing a record out of the interior of a list -/

theorem getLast?_split {t : Nat} : ∀ {xs : List Nat}, xs.getLast? = some t →
    ∃ init, xs = init ++ [t] := by
  intro xs h
  rcases List.eq_nil_or_concat xs with rfl | ⟨init, a, rfl⟩
  · cases h
  · rw [List.concat_eq_append, List.getLast?_append] at h
    simp at h
    exact ⟨init, by rw [h, List.concat_eq_append]⟩

/-- C27: for a well-formed list of dimension `d` and a record `o` of it whose
predecessor in `d` is `u` and whose successor in `d` is `w`, the list having the tail
`t`, a call of `updateCustomerList` with `o` as the old record, a fresh record `b` and
`priorCount >= 2` completes, links `u` directly to `w` (`u.next[d] = w`,
`w.prev[d] = u`) and appends `b` after `t` (`t.next[d] = b`, `b.prev[d] = t`, `b` has no
`next[d]`): the new order, which a traversal from the head reads, is the previous order
with `o` removed followed by `b`, the size and the head are unchanged, the tail is `b`,
and the list is well formed. -/
theorem C27_interior_record_spliced_out {H : Heap} {d : String} {L : LinkedList}
    {xs : List Nat} (wf : WF H d L xs) {o u w t : Nat} (ho : o ∈ xs)
    (hprev : H.prevOf d o = some u) (hnext : H.nextOf d o = some w)
    (htail : L.tail = some t) {b : Nat} (hb : H.Detached d b) (hbx : b ∉ xs) {pc : Int}
    (hpc : 2 ≤ pc) :
    ∃ G M, updateCustomerList H d (some o) (some b) pc L = .ok (G, M) ∧
      G.nextOf d u = some w ∧ G.prevOf d w = some u ∧
      G.nextOf d t = some b ∧ G.prevOf d b = some t ∧ G.nextOf d b = none ∧
      WF G d M (xs.erase o ++ [b]) ∧
      (∃ G', traverse d (xs.length + 1) G M.head = .ok (G', xs.erase o ++ [b])) ∧
      M.size = L.size ∧ M.head = L.head ∧ M.tail = some b := by
  have hot : o ∈ xs.tail := by
    cases xs with
    | nil => cases ho
    | cons x rest =>
      rcases List.mem_cons.1 ho with rfl | h
      · have := wf.chain.1
        unfold Heap.prevOf at hprev
        rw [hprev] at this
        cases this
      · exact h
  obtain ⟨pre, u', post, rfl⟩ := mem_tail_split hot
  obtain ⟨_, hpo, hno⟩ := Chain.mid wf.chain
  unfold Heap.prevOf at hprev
  unfold Heap.nextOf at hnext
  rw [hprev] at hpo
  cases hpo
  rw [hnext] at hno
  cases post with
  | nil => cases hno
  | cons w' post' =>
    cases hno
    have hlast : (w :: post').getLast? = some t := by
      have h1 := wf.tail_eq
      rw [htail, List.getLast?_append, List.getLast?_cons_cons, List.getLast?_cons_cons] at h1
      cases h2 : (w :: post').getLast? with
      | none => simp at h2
      | some t' =>
        rw [h2] at h1
        simp at h1
        rw [h1]
    obtain ⟨init, hinit⟩ := getLast?_split hlast
    obtain ⟨G, h1, h2, _⟩ := updateCustomerList_unlink wf hb hbx (by omega : ¬ pc ≤ 1)
    obtain ⟨G', h3, _⟩ := h2.traverse 0
    have he : (pre ++ u :: o :: w :: post').erase o ++ [b] = pre ++ u :: w :: post' ++ [b] := by
      rw [erase_mid wf.nodup]
    have hc := h2.chain
    have hmid : (G.links d u).next = some w ∧ (G.links d w).prev = some u := by
      have e : pre ++ u :: w :: post' ++ [b] = pre ++ u :: w :: (post' ++ [b]) := by simp
      rw [e] at hc
      exact ⟨(Chain.mid hc).1, (Chain.mid hc).2.1⟩
    have hend : (G.links d t).next = some b ∧ (G.links d b).prev = some t ∧
        (G.links d b).next = none := by
      have e : pre ++ u :: w :: post' ++ [b] = (pre ++ u :: init) ++ t :: b :: [] := by
        rw [hinit]; simp
      rw [e] at hc
      exact ⟨(Chain.mid hc).1, (Chain.mid hc).2.1, (Chain.mid hc).2.2⟩
    refine ⟨G, _, h1, hmid.1, hmid.2, hend.1, hend.2.1, hend.2.2, by rw [he]; exact h2,
      ⟨G', ?_⟩, rfl, rfl, rfl⟩
    rw [he]
    have hlen : (pre ++ u :: w :: post' ++ [b]).length =
        (pre ++ u :: o :: w :: post').length := by
      simp
    rw [← hlen]
    simpa using h3

/-- C27 at the list `[A, B, C]` (addresses 0, 1, 2) built by appends, with `B` superseded
by a fresh record `D` (address 3): `A` is linked to `C`, `D` follows `C`, and the list
becomes `[A, C, D]`. -/
theorem C27_interior_record_spliced_out_witness :
    ∃ G M, updateCustomerList (listABC.1.alloc).1 "x" (some 1) (some 3) 2 listABC.2
        = .ok (G, M) ∧
      G.nextOf "x" 0 = some 2 ∧ G.prevOf "x" 2 = some 0 ∧
      G.nextOf "x" 2 = some 3 ∧ G.prevOf "x" 3 = some 2 ∧ G.nextOf "x" 3 = none ∧
      WF G "x" M [0, 2, 3] ∧
      (∃ G', traverse "x" 4 G M.head = .ok (G', [0, 2, 3])) ∧
      M.size = listABC.2.size ∧ M.head = listABC.2.head ∧ M.tail = some 3 :=
  C27_interior_record_spliced_out (listABC_wf.append_heap _) (o := 1) (u := 0) (w := 2)
    (t := 2) (by decide) (by decide) (by decide) (by decide)
    (Heap.alloc_detached listABC.1 "x") (by decide) (by decide)

/-- C28: a call of `updateCustomerList` for the dimension `"G"` that changes a link of
the dimension `"delete"`. In the state `aliasState`, built by the list update functions,
the lifecycle list reads `[0, 1, 4]` and the record 3 is as `new DimensionNode<int>`
left it. The call `updateCustomerList("G", nullptr, 3, 0, &listG)` appends the record 3
after the tail 1 of the list of `"G"`; the access `dimension["G"]` at the record 1 finds
the three slots that the probes reach OCCUPIED by `"delete"`, `"B"` and `"A"` and refers
to the entry of `"delete"`, whose `next` the call overwrites: the lifecycle list then
reads `[0, 1, 3]`. -/
theorem C28_relocation_rewrites_lifecycle_link :
    aliasRun = .ok aliasState ∧
    aliasState.2.1 = { size := 2, head := some 0, tail := some 4 } ∧
    aliasState.2.2 = { size := 1, head := some 1, tail := some 1 } ∧
    aliasState.1[3]? = some DimensionNode.new ∧
    (aliasState.1[1]?.map fun node => node.dimension.needsRehash) = some false ∧
    (∃ G, traverse "delete" 4 aliasState.1 (some 0) = .ok (G, [0, 1, 4])) ∧
    aliasState.1.view "delete" 1 = { next := some 4, prev := some 0 } ∧
    aliasState.1.view "G" 1 = default ∧
    updateCustomerList aliasState.1 "G" none (some 3) 0 aliasState.2.2 = .ok aliasAfter ∧
    aliasAfter.2 = { size := 2, head := some 1, tail := some 3 } ∧
    aliasAfter.1.view "delete" 1 = { next := some 3, prev := some 0 } ∧
    aliasAfter.1.view "G" 1 = default ∧
    aliasAfter.1.view "delete" 1 ≠ aliasState.1.view "delete" 1 ∧
    (∃ G, traverse "delete" 4 aliasAfter.1 (some 0) = .ok (G, [0, 1, 3])) := by
  refine ⟨rfl, rfl, rfl, rfl, rfl, ⟨_, rfl⟩, rfl, rfl, rfl, rfl, rfl, rfl, ?_, ⟨_, rfl⟩⟩
  decide

end ETS
